import Mathlib

/-!
Grid path finder (`script.js`)

A shallow embedding of the search core of `script.js`: the `Node` class
(`constructor`, `offset`, `manhattanDistance`, `getFCost`), the `offsets`
table, `isObstructed`, `findNode`, `updateNodes` and `findPath`.

Modelling conventions.

* JavaScript objects that are never mutated after another object starts to
  refer to them are embedded by value.  A `Node` is written only between its
  creation and its insertion into `open` (and `start` only at the top of
  `findNode`), so `parent` holds the parent node itself.
* `undefined` fields (`gCost`, `hCost`, `parent` of a fresh node) are `none`.
  Arithmetic on `undefined` yields `NaN`, also `none`; every comparison with
  `NaN` is false (`jsLt`).
* `node.element` is a live reference to the tile at `node.index`; the tile is
  looked up in the world's tile list when it is read.
* The `while` loop of `findNode` is iterated by a fuel counter; theorems show
  that `size * size + 1` iterations always suffice.
* The pacing `await`s of `updateNodes` carry no state and are left out.
* A tile may be missing (the slider changes `size` without rebuilding the
  grid).  `isObstructed` of a missing tile is falsy; writing the style of a
  missing tile in `updateNodes` throws a `TypeError`, which `updateNodes`
  reports as `Except.error` and `findNode` as `Returned.threw`.
-/

namespace Pathfinder

/-! ## Grid surface -/

/-- Background colours a tile takes in the program; `unset` is the empty
style of a tile that was never coloured. -/
inductive Colour where
  | unset | white | black | yellow | lightblue | plum
  deriving DecidableEq, Repr

/-- A grid tile (`div`), reduced to the style the search reads and writes. -/
structure Tile where
  backgroundColor : Colour
  deriving DecidableEq, Repr

/-- Embeds `isObstructed = (tile) => tile && tile.style.backgroundColor === 'black'`
as a truth value (a missing tile is falsy). -/
def isObstructed : Option Tile → Bool
  | none => false
  | some tile => decide (tile.backgroundColor = Colour.black)

/-! ## The `Node` class -/

/-- Instances of `class Node`.  `x`, `y` are set by the constructor;
`gCost`, `hCost`, `parent` are `undefined` (`none`) until written. -/
structure Node where
  index : Nat
  x : Nat
  y : Nat
  gCost : Option Nat
  hCost : Option Nat
  parent : Option Node
  deriving Repr

/-- Embeds `new Node(index)` with the global `size`. -/
def Node.new (size index : Nat) : Node :=
  { index := index, x := index % size, y := index / size,
    gCost := none, hCost := none, parent := none }

/-- Embeds `offset(x, y)`: the neighbouring node, or `null` outside the grid. -/
def Node.offset (size : Nat) (this : Node) (x y : Int) : Option Node :=
  let newCol : Int := (this.x : Int) + x
  let newRow : Int := (this.y : Int) + y
  if newCol < 0 ∨ newCol ≥ (size : Int) ∨ newRow < 0 ∨ newRow ≥ (size : Int) then
    none
  else
    let newIndex : Int := newRow * (size : Int) + newCol
    let offset := Node.new size newIndex.toNat
    some { offset with parent := some this }

/-- Embeds `manhattanDistance(node)`. -/
def Node.manhattanDistance (this node : Node) : Nat :=
  Int.natAbs ((this.x : Int) - (node.x : Int)) + Int.natAbs ((this.y : Int) - (node.y : Int))

/-- Embeds `getFCost()`: `hCost + gCost`, `NaN` (`none`) when either is undefined. -/
def Node.getFCost (this : Node) : Option Nat :=
  match this.hCost, this.gCost with
  | some h, some g => some (h + g)
  | _, _ => none

/-- JavaScript `a < b` on numbers that may be `undefined`/`NaN`. -/
def jsLt : Option Nat → Option Nat → Bool
  | some a, some b => decide (a < b)
  | _, _ => false

/-- The `offsets` table. -/
def offsets : List (Int × Int) := [(1, 0), (0, 1), (-1, 0), (0, -1)]

/-- Number of `parent` links from a node to the node without parent. -/
def Node.depth : Node → Nat
  | ⟨_, _, _, _, _, none⟩ => 0
  | ⟨_, _, _, _, _, some p⟩ => p.depth + 1

/-- The node without parent at the end of the `parent` chain. -/
def Node.root : Node → Node
  | ⟨i, x, y, g, h, none⟩ => ⟨i, x, y, g, h, none⟩
  | ⟨_, _, _, _, _, some p⟩ => p.root

/-! ## `Map` and `Set` in insertion order -/

/-- A JavaScript `Map` from cell index to node: entries in insertion order. -/
abbrev OpenMap := List (Nat × Node)

/-- Embeds `open.has(key)`. -/
def OpenMap.has (m : OpenMap) (key : Nat) : Bool :=
  m.any (fun e => decide (e.1 = key))

/-- Embeds `open.set(key, value)`: an existing key keeps its place, a new key is
appended. -/
def OpenMap.set (m : OpenMap) (key : Nat) (value : Node) : OpenMap :=
  if m.has key then m.map (fun e => if e.1 = key then (key, value) else e)
  else m ++ [(key, value)]

/-- Embeds `open.delete(key)`. -/
def OpenMap.delete (m : OpenMap) (key : Nat) : OpenMap :=
  m.filter (fun e => decide (e.1 ≠ key))

/-- Embeds `Array.from(open.values())`. -/
def OpenMap.values (m : OpenMap) : List Node :=
  m.map Prod.snd

/-- Embeds `closed.has(index)` on a `Set` kept as a list in insertion order. -/
def closedHas (closed : List Nat) (index : Nat) : Bool :=
  decide (index ∈ closed)

/-- Embeds `closed.add(index)`. -/
def closedAdd (closed : List Nat) (index : Nat) : List Nat :=
  if index ∈ closed then closed else closed ++ [index]

/-- Embeds `Array.prototype.reduce` without initial value; `none` is the
`TypeError` on an empty array. -/
def reduce {α : Type} (f : α → α → α) : List α → Option α
  | [] => none
  | a :: rest => some (rest.foldl f a)

/-! ## Program state -/

/-- The globals the search reads and writes: `size`, the tiles of `.grid`,
`start` and `end`. -/
structure World where
  size : Nat
  tiles : List Tile
  start : Option Node
  end_ : Option Node

/-- The tile `document.querySelector('.grid > div:nth-child(index + 1)')`. -/
def World.element (w : World) (index : Nat) : Option Tile :=
  w.tiles[index]?

/-- Locals of `findNode`. -/
structure SearchState where
  open_ : OpenMap
  closed : List Nat
  updateQueue : List Node

/-- How a call of `findNode` ended: it returned `undefined`, `null` or a
node, or it threw the `TypeError` raised inside `updateNodes`. -/
inductive Returned where
  | undefined
  | null
  | node (n : Node)
  | threw

/-! ## `findNode` -/

/-- The callback `(a, b) => a.getFCost() < b.getFCost() ? a : b`. -/
def pickLower (a b : Node) : Node :=
  if jsLt a.getFCost b.getFCost then a else b

/-- The selection at the top of the loop:
`Array.from(open.values()).reduce((a, b) => a.getFCost() < b.getFCost() ? a : b)`. -/
def selectBest (open_ : OpenMap) : Option Node :=
  reduce pickLower open_.values

/-- The three assignments `neighborNode.gCost = tentativeGCost`,
`neighborNode.hCost = neighborNode.manhattanDistance(end)` and
`neighborNode.parent = currentNode`. -/
def assignCosts (currentNode endNode neighborNode : Node) : Node :=
  { neighborNode with
    gCost := currentNode.gCost.map (· + 1)
    hCost := some (neighborNode.manhattanDistance endNode)
    parent := some currentNode }

/-- Body of `for (const [dx, dy] of offsets)` for one offset, acting on
`open` and `updateQueue`. -/
def visitNeighbor (w : World) (endNode : Node) (closed : List Nat) (currentNode : Node)
    (acc : OpenMap × List Node) (d : Int × Int) : OpenMap × List Node :=
  match currentNode.offset w.size d.1 d.2 with
  | none => acc
  | some neighborNode =>
    if isObstructed (w.element neighborNode.index) || closedHas closed neighborNode.index then
      acc
    else
      let tentativeGCost : Option Nat := currentNode.gCost.map (· + 1)
      if !acc.1.has neighborNode.index || jsLt tentativeGCost neighborNode.gCost then
        let written : Node := assignCosts currentNode endNode neighborNode
        if !acc.1.has written.index then
          (acc.1.set written.index written, acc.2 ++ [written])
        else
          acc
      else
        acc

/-- The whole `for` loop over `offsets` for the node being expanded. -/
def expand (w : World) (endNode : Node) (closed : List Nat) (currentNode : Node)
    (open_ : OpenMap) (updateQueue : List Node) : OpenMap × List Node :=
  offsets.foldl (visitNeighbor w endNode closed currentNode) (open_, updateQueue)

/-- Result of one iteration of the `while` loop. -/
inductive StepResult where
  | returned (r : Option Node) (st : SearchState)
  | expanded (st : SearchState)
  | threw

/-- One iteration of `while (open.size > 0)`, or the `return null` after it. -/
def searchStep (w : World) (endNode : Node) (st : SearchState) : StepResult :=
  if st.open_.length > 0 then
    match selectBest st.open_ with
    | none => StepResult.threw
    | some currentNode =>
      let open1 := st.open_.delete currentNode.index
      let closed1 := closedAdd st.closed currentNode.index
      if currentNode.index = endNode.index then
        StepResult.returned (some currentNode)
          { open_ := open1, closed := closed1, updateQueue := st.updateQueue }
      else
        let r := expand w endNode closed1 currentNode open1 st.updateQueue
        StepResult.expanded { open_ := r.1, closed := closed1, updateQueue := r.2 }
  else
    StepResult.returned none st

/-- The `while` loop; `none` when the fuel runs out or `reduce` throws.  The
loop reads only `size` and the tiles of the world. -/
def searchLoop (w : World) (endNode : Node) : Nat → SearchState → Option (Option Node × SearchState)
  | 0, _ => none
  | fuel + 1, st =>
    match searchStep w endNode st with
    | StepResult.returned r st1 => some (r, st1)
    | StepResult.expanded st1 => searchLoop w endNode fuel st1
    | StepResult.threw => none

/-- Embeds `updateNodes(nodes)`: colours every listed node other than start
and end.  `node.element.style.backgroundColor = 'lightblue'` throws a
`TypeError` when the node has no tile (`node.element` is `null`):
`Except.error` carries the tiles as recoloured up to the throw, `Except.ok`
the tiles after the whole loop. -/
def updateNodes (startIndex endIndex : Nat) :
    List Tile → List Node → Except (List Tile) (List Tile)
  | tiles, [] => Except.ok tiles
  | tiles, node :: rest =>
    if node.index ≠ startIndex ∧ node.index ≠ endIndex then
      match tiles[node.index]? with
      | none => Except.error tiles
      | some _ =>
        updateNodes startIndex endIndex
          (tiles.set node.index { backgroundColor := Colour.lightblue }) rest
    else
      updateNodes startIndex endIndex tiles rest

/-- Everything observable after `findNode`. -/
structure FindResult where
  ret : Returned
  alerted : Bool
  world : World
  search : Option SearchState

/-- The state `findNode` enters its loop with. -/
def initialState (start : Node) : SearchState :=
  { open_ := OpenMap.set [] start.index start, closed := [], updateQueue := [] }

/-- Embeds `start` after `start.gCost = 0; start.hCost = start.manhattanDistance(end)`. -/
def initStart (start endNode : Node) : Node :=
  { start with gCost := some 0, hCost := some (start.manhattanDistance endNode) }

/-- Embeds `findNode()`; `none` when the loop did not finish within `fuel`
iterations.  When `await updateNodes(updateQueue)` throws, `findNode` ends
with that `TypeError` instead of returning the node. -/
def findNode (fuel : Nat) (w : World) : Option FindResult :=
  match w.start, w.end_ with
  | some start, some endNode =>
    let start1 := initStart start endNode
    let w1 : World := { w with start := some start1 }
    match searchLoop w endNode fuel (initialState start1) with
    | none => none
    | some (some currentNode, st) =>
      match updateNodes start1.index endNode.index w1.tiles st.updateQueue with
      | Except.ok tiles =>
        some { ret := Returned.node currentNode, alerted := false,
               world := { w1 with tiles := tiles }, search := some st }
      | Except.error tiles =>
        some { ret := Returned.threw, alerted := false,
               world := { w1 with tiles := tiles }, search := some st }
    | some (none, st) =>
      some { ret := Returned.null, alerted := false, world := w1, search := some st }
  | _, _ =>
    some { ret := Returned.undefined, alerted := true, world := w, search := none }

/-! ## `findPath` -/

/-- The `while (node && node.index !== start.index)` walk of `findPath`,
started at `node`: the indices coloured `plum`, in order. -/
def Node.walk (startIndex : Nat) : Node → List Nat
  | ⟨index, _, _, _, _, none⟩ => if index ≠ startIndex then [index] else []
  | ⟨index, _, _, _, _, some p⟩ => if index ≠ startIndex then index :: p.walk startIndex else []

/-- Indices `findPath` colours for the value `findNode` returned. -/
def pathMarks (startIndex : Nat) : Returned → List Nat
  | Returned.node endNode =>
    match endNode.parent with
    | none => []
    | some node => node.walk startIndex
  | _ => []

/-- Everything observable after `findPath`. -/
structure PathResult where
  found : FindResult
  onPath : List Nat
  tiles : List Tile

/-- Embeds `findPath()`: the walk over `parent` references and the tiles
after colouring the walked nodes `plum`.  When `findNode` threw, `findPath`
ends with the same error and walks nothing.  A walked node lies strictly
between end and start on the chain of the returned node, so `updateNodes`
wrote its tile before and the tile exists. -/
def findPath (fuel : Nat) (w : World) : Option PathResult :=
  match findNode fuel w with
  | none => none
  | some r =>
    let startIndex := match r.world.start with
      | some s => s.index
      | none => 0
    let marks := pathMarks startIndex r.ret
    some { found := r, onPath := marks,
           tiles := marks.foldl (fun ts i => ts.set i { backgroundColor := Colour.plum })
             r.world.tiles }

/-! ## Test fixtures -/

/-- A `size × size` grid whose black tiles are those listed in `obstructed`. -/
def mkTiles (size : Nat) (obstructed : List Nat) : List Tile :=
  (List.range (size * size)).map fun i =>
    if i ∈ obstructed then { backgroundColor := Colour.black }
    else { backgroundColor := Colour.white }

/-- A world with designated `start` and `end` cells. -/
def mkWorld (size : Nat) (obstructed : List Nat) (start endIndex : Nat) : World :=
  { size := size, tiles := mkTiles size obstructed,
    start := some (Node.new size start), end_ := some (Node.new size endIndex) }

/-- The `gCost` of the node `findNode` returned, if it returned one. -/
def FindResult.gCost? (r : FindResult) : Option Nat :=
  match r.ret with
  | Returned.node n => n.gCost
  | _ => none

/-- The index of the node `findNode` returned, if it returned one. -/
def FindResult.index? (r : FindResult) : Option Nat :=
  match r.ret with
  | Returned.node n => some n.index
  | _ => none


/-- The locals of `findNode` after `k` further iterations of the loop (a
finished search stays where it is). -/
def runSteps (w : World) (endNode : Node) : Nat → SearchState → SearchState
  | 0, st => st
  | k + 1, st =>
    match searchStep w endNode st with
    | StepResult.expanded st1 => runSteps w endNode k st1
    | _ => st

/-! ## Specification vocabulary -/

/-- A node whose coordinates are those the constructor derives from its
in-bounds index on an `N × N` grid. -/
def Node.WF (N : Nat) (n : Node) : Prop :=
  n.x = n.index % N ∧ n.y = n.index / N ∧ n.index < N * N

/-- Cells `i` and `j` of the `N × N` grid are one cardinal move apart. -/
def Adjacent (N i j : Nat) : Prop :=
  i < N * N ∧ j < N * N ∧
    ((i / N = j / N ∧ (i % N + 1 = j % N ∨ j % N + 1 = i % N)) ∨
     (i % N = j % N ∧ (i / N + 1 = j / N ∨ j / N + 1 = i / N)))

instance (N i j : Nat) : Decidable (Adjacent N i j) := by
  unfold Adjacent; infer_instance

/-- One cardinal move from cell `i` onto the unobstructed cell `j`. -/
def Move (w : World) (i j : Nat) : Prop :=
  Adjacent w.size i j ∧ isObstructed (w.element j) = false

instance (w : World) (i j : Nat) : Decidable (Move w i j) := by
  unfold Move; infer_instance

/-- Cell `e` is reachable from cell `s` by cardinal moves over unobstructed
cells (every cell moved onto is unobstructed). -/
def Connected (w : World) (s e : Nat) : Prop :=
  Relation.ReflTransGen (Move w) s e

/-- The list of cells is a walk of cardinal moves over unobstructed cells:
each cell after the first is reached from its predecessor by one move. -/
def IsWalk (w : World) : List Nat → Prop
  | [] => True
  | [_] => True
  | i :: j :: rest => Move w i j ∧ IsWalk w (j :: rest)

instance IsWalk.decidable (w : World) : (cells : List Nat) → Decidable (IsWalk w cells)
  | [] => isTrue trivial
  | [_] => isTrue trivial
  | i :: j :: rest =>
    have : Decidable (IsWalk w (j :: rest)) := IsWalk.decidable w (j :: rest)
    inferInstanceAs (Decidable (Move w i j ∧ IsWalk w (j :: rest)))

/-- The coordinates of cell `i` shifted by `(dx, dy)` lie in
`[0, N) × [0, N)`. -/
def InsideGrid (N i : Nat) (dx dy : Int) : Prop :=
  0 ≤ ((i % N : Nat) : Int) + dx ∧ ((i % N : Nat) : Int) + dx < N ∧
  0 ≤ ((i / N : Nat) : Int) + dy ∧ ((i / N : Nat) : Int) + dy < N

/-- Manhattan distance between the cells with indices `i` and `j`. -/
def cellDistance (N i j : Nat) : Nat :=
  (Node.new N i).manhattanDistance (Node.new N j)

/-- Spec-worded tie-break of `selectBest`: the first node, in enumeration
order, among those of minimum `fCost`. -/
def firstMinimum (open_ : OpenMap) : Option Node :=
  open_.values.find? fun n => open_.values.all fun m => !jsLt m.getFCost n.getFCost

/-- The entries `expand` appends to `open` for a list of freshly written
nodes. -/
def entriesOf (nodes : List Node) : OpenMap :=
  nodes.map fun m => (m.index, m)

/-- Shape of the loop state that holds at the top of every iteration: every
entry of `open` is keyed by its node's index, the node is well formed with
both costs written, closed indices are in bounds and distinct, and no key of
`open` is closed. -/
structure InvBase (w : World) (e : Node) (st : SearchState) : Prop where
  entry : ∀ p ∈ st.open_, p.1 = p.2.index ∧ p.2.WF w.size ∧
    p.2.hCost = some (p.2.manhattanDistance e) ∧ ∃ g, p.2.gCost = some g
  closed_lt : ∀ i ∈ st.closed, i < w.size * w.size
  closed_nodup : st.closed.Nodup
  disjoint : ∀ p ∈ st.open_, p.1 ∉ st.closed

/-- Invariant of the search used for soundness: every key of `open` is
reachable from the start cell. -/
def InvSound (w : World) (a e : Node) (st : SearchState) : Prop :=
  InvBase w e st ∧ ∀ p ∈ st.open_, Connected w a.index p.1

/-- Invariant of the search used for completeness: every free neighbour of a
closed cell is closed or in `open`, the start cell is closed or in `open`,
and the end cell is not closed. -/
def InvComplete (w : World) (a e : Node) (st : SearchState) : Prop :=
  InvBase w e st ∧
  (∀ i ∈ st.closed, ∀ j, Move w i j → j ∈ st.closed ∨ st.open_.has j = true) ∧
  (a.index ∈ st.closed ∨ st.open_.has a.index = true) ∧
  e.index ∉ st.closed

/-- Invariant of the search on a grid without obstructed cells, at the top of
iteration `k` (counted from 0): the node about to be selected has `gCost = k`
and lies `k` steps closer to the end than the start does, no node of `open`
has an `fCost` below the start-to-end Manhattan distance or lies more than
`k` steps closer to the end, every closed cell lies less than `k` steps
closer, and the `parent` chain of every node of `open` has `gCost` links and
ends in the start node. -/
def InvFree (w : World) (a b : Node) (k : Nat) (st : SearchState) : Prop :=
  InvBase w b st ∧
  (∃ c, selectBest st.open_ = some c ∧ c.gCost = some k ∧
    c.manhattanDistance b + k = a.manhattanDistance b) ∧
  (∀ p ∈ st.open_,
    (∃ g, p.2.gCost = some g ∧ a.manhattanDistance b ≤ g + p.2.manhattanDistance b) ∧
    a.manhattanDistance b ≤ p.2.manhattanDistance b + k ∧
    p.2.gCost = some p.2.depth ∧ p.2.root = initStart a b) ∧
  (∀ i ∈ st.closed, a.manhattanDistance b < cellDistance w.size i b.index + k)

/-! ## Concrete scenarios -/

/-- The 5 × 5 grid whose only obstructed cell is 8, with start 0 and end 9. -/
def detourWorld : World := mkWorld 5 [8] 0 9

/-- Locals of `findNode` on `detourWorld` after `k` iterations. -/
def detourState (k : Nat) : SearchState :=
  runSteps detourWorld (Node.new 5 9) k (initialState (initStart (Node.new 5 0) (Node.new 5 9)))

/-- The unobstructed 3 × 3 grid with start 0 and end 8. -/
def cornerWorld : World := mkWorld 3 [] 0 8

/-- Locals of `findNode` on `cornerWorld` after `k` iterations. -/
def cornerState (k : Nat) : SearchState :=
  runSteps cornerWorld (Node.new 3 8) k (initialState (initStart (Node.new 3 0) (Node.new 3 8)))

/-- A 3 × 3 grid on which only the end has been designated. -/
def noStartWorld : World :=
  { size := 3, tiles := mkTiles 3 [], start := none, end_ := some (Node.new 3 8) }

/-- The globals after the slider set `size` to 3 while the grid still holds
the 4 tiles of a 2 × 2 grid, with start 0 and end 8. -/
def shortGridWorld : World :=
  { size := 3, tiles := mkTiles 2 [], start := some (Node.new 3 0),
    end_ := some (Node.new 3 8) }

/-! ## Vocabulary for traces of the search -/

/-- The cell indices met along the `parent` references, from the node itself
to the node without parent. -/
def Node.chain : Node → List Nat
  | ⟨index, _, _, _, _, none⟩ => [index]
  | ⟨index, _, _, _, _, some p⟩ => index :: p.chain

/-- The list of cells is a 4-connected walk on the `N × N` grid: consecutive
cells are one cardinal move apart (obstruction is not looked at). -/
def IsGridWalk (N : Nat) : List Nat → Prop
  | [] => True
  | [_] => True
  | i :: j :: rest => Adjacent N i j ∧ IsGridWalk N (j :: rest)

instance IsGridWalk.decidableGrid (N : Nat) : (cells : List Nat) → Decidable (IsGridWalk N cells)
  | [] => isTrue trivial
  | [_] => isTrue trivial
  | i :: j :: rest =>
    have : Decidable (IsGridWalk N (j :: rest)) := IsGridWalk.decidableGrid N (j :: rest)
    inferInstanceAs (Decidable (Adjacent N i j ∧ IsGridWalk N (j :: rest)))

/-- The state `findNode` enters its loop with, for designated `start` and
`end`. -/
def loopStart (a b : Node) : SearchState :=
  initialState (initStart a b)

/-- The globals a run of `findPath` leaves behind: the tiles as recoloured
and `start` with its costs written. -/
def worldAfter (p : PathResult) : World :=
  { p.found.world with tiles := p.tiles }

/-- The relation between an offset and the node `visitNeighbor` appends for
it while expanding `c`. -/
def AppendedFor (w : World) (e c : Node) (d : Int × Int) (n : Node) : Prop :=
  ∃ m, c.offset w.size d.1 d.2 = some m ∧ n = assignCosts c e m

/-- Facts about a node of `updateQueue`: it is a free in-bounds cell whose
parent is an adjacent, already closed node put into `open` before it, with
`gCost` one above the parent's and `hCost` its Manhattan distance to the
end. -/
structure Discovered (w : World) (a b : Node) (st : SearchState) (n : Node) : Prop where
  wf : n.WF w.size
  free : isObstructed (w.element n.index) = false
  parent : ∃ p g, n.parent = some p ∧ p.index ∈ st.closed ∧
    Adjacent w.size p.index n.index ∧ p.gCost = some g ∧ n.gCost = some (g + 1) ∧
    (p = initStart a b ∨ p ∈ st.updateQueue)
  hCost : n.hCost = some (n.manhattanDistance b)

/-- Invariant relating `open`, `closed` and `updateQueue`: keys of `open` are
distinct, `open` lists its nodes in the order they were queued, the start
and the queued cells are exactly the closed cells and the keys of `open`,
without repetition, and every queued node is `Discovered`. -/
structure InvQueue (w : World) (a b : Node) (st : SearchState) : Prop where
  base : InvBase w b st
  keys_nodup : (st.open_.map Prod.fst).Nodup
  sublist : List.Sublist st.open_.values (initStart a b :: st.updateQueue)
  seen : ∀ i, i ∈ a.index :: st.updateQueue.map (fun n => n.index) ↔
    (i ∈ st.closed ∨ st.open_.has i = true)
  queue_nodup : (a.index :: st.updateQueue.map (fun n => n.index)).Nodup
  discovered : ∀ n ∈ st.updateQueue, Discovered w a b st n

/-- Facts about the `parent` chain of a node: its cells are distinct, all
but the node itself are closed, it ends in the start cell, it has `gCost`
links, consecutive cells are adjacent, all cells are in bounds and all but
the last are free. -/
structure ChainOK (w : World) (a : Node) (closed : List Nat) (n : Node) : Prop where
  nodup : n.chain.Nodup
  closed_tail : ∀ i ∈ n.chain.tail, i ∈ closed
  last : n.chain.getLast? = some a.index
  gCost_eq : n.gCost = some (n.chain.length - 1)
  walk : IsGridWalk w.size n.chain
  inBounds : ∀ i ∈ n.chain, i < w.size * w.size
  free : ∀ i ∈ n.chain.dropLast, isObstructed (w.element i) = false

/-- Invariant of the search on `parent` chains: `InvQueue`, and the chain of
the start node and of every queued node is `ChainOK`. -/
structure InvChains (w : World) (a b : Node) (st : SearchState) : Prop where
  queue : InvQueue w a b st
  chains : ∀ n ∈ initStart a b :: st.updateQueue, ChainOK w a st.closed n

/-- The locals of `findNode` at the top of iteration `k` (counted from 0) of
the search from `a` to `b`; once the loop has returned, the state it
returned from. -/
def stateAt (w : World) (a b : Node) (k : Nat) : SearchState :=
  runSteps w b k (loopStart a b)

/-! ## Grid arithmetic -/

theorem rowcol_mod (N r c : Nat) (hc : c < N) : (r * N + c) % N = c := by
  rw [Nat.add_comm, Nat.add_mul_mod_self_right]
  exact Nat.mod_eq_of_lt hc

theorem rowcol_div (N r c : Nat) (hc : c < N) : (r * N + c) / N = r := by
  have hN : 0 < N := by omega
  rw [Nat.add_comm, Nat.add_mul_div_right _ _ hN, Nat.div_eq_of_lt hc]
  simp

theorem rowcol_lt (N r c : Nat) (hc : c < N) (hr : r < N) : r * N + c < N * N := by
  have h1 : (r + 1) * N ≤ N * N := Nat.mul_le_mul_right N hr
  have h2 : (r + 1) * N = r * N + N := by ring
  omega

theorem Node.WF_new (N i : Nat) (hi : i < N * N) : (Node.new N i).WF N :=
  ⟨rfl, rfl, hi⟩

theorem Node.WF_coords {N : Nat} {n : Node} (h : n.WF N) : n.x < N ∧ n.y < N := by
  obtain ⟨hx, hy, hi⟩ := h
  have hN : 0 < N := by
    rcases Nat.eq_zero_or_pos N with h0 | h0
    · subst h0; simp at hi
    · exact h0
  refine ⟨hx ▸ Nat.mod_lt _ hN, ?_⟩
  rw [hy]
  exact Nat.div_lt_of_lt_mul hi

/-- What `offset` returns, in terms of natural-number coordinates. -/
theorem Node.offset_eq_some {N : Nat} {n m : Node} {dx dy : Int}
    (h : n.offset N dx dy = some m) :
    ∃ c r : Nat, (c : Int) = (n.x : Int) + dx ∧ (r : Int) = (n.y : Int) + dy ∧ c < N ∧ r < N ∧
      m = { index := r * N + c, x := c, y := r, gCost := none, hCost := none,
            parent := some n } := by
  unfold Node.offset at h
  simp only at h
  split at h
  · exact absurd h (by simp)
  · rename_i hb
    simp only [not_or, not_lt, ge_iff_le, not_le] at hb
    obtain ⟨h1, h2, h3, h4⟩ := hb
    obtain ⟨c, hc⟩ := Int.eq_ofNat_of_zero_le h1
    obtain ⟨r, hr⟩ := Int.eq_ofNat_of_zero_le h3
    have hcN : c < N := by omega
    have hrN : r < N := by omega
    refine ⟨c, r, hc.symm, hr.symm, hcN, hrN, ?_⟩
    have hidx : ((n.y : Int) + dy) * (N : Int) + ((n.x : Int) + dx) = ((r * N + c : Nat) : Int) := by
      rw [hc, hr]; push_cast; ring
    simp only [Option.some.injEq] at h
    rw [← h, hidx, Int.toNat_ofNat]
    simp [Node.new, rowcol_mod N r c hcN, rowcol_div N r c hcN]

theorem Node.offset_eq_none_iff (N : Nat) (n : Node) (dx dy : Int) :
    n.offset N dx dy = none ↔
      ¬ (0 ≤ (n.x : Int) + dx ∧ (n.x : Int) + dx < N ∧ 0 ≤ (n.y : Int) + dy ∧ (n.y : Int) + dy < N) := by
  by_cases hb : (n.x : Int) + dx < 0 ∨ (n.x : Int) + dx ≥ (N : Int) ∨ (n.y : Int) + dy < 0 ∨
      (n.y : Int) + dy ≥ (N : Int)
  · simp only [Node.offset, hb, if_true, true_iff]
    omega
  · have hs : n.offset N dx dy ≠ none := by simp [Node.offset, hb]
    simp only [hs, false_iff, not_not]
    omega

theorem Node.offset_isSome {N : Nat} {n : Node} {dx dy : Int}
    (h : 0 ≤ (n.x : Int) + dx ∧ (n.x : Int) + dx < N ∧ 0 ≤ (n.y : Int) + dy ∧ (n.y : Int) + dy < N) :
    ∃ m, n.offset N dx dy = some m := by
  cases hm : n.offset N dx dy with
  | none => exact absurd h ((Node.offset_eq_none_iff N n dx dy).1 hm)
  | some m => exact ⟨m, rfl⟩

theorem Node.offset_WF {N : Nat} {n m : Node} {dx dy : Int}
    (h : n.offset N dx dy = some m) : m.WF N := by
  obtain ⟨c, r, _, _, hc, hr, rfl⟩ := Node.offset_eq_some h
  exact ⟨(rowcol_mod N r c hc).symm, (rowcol_div N r c hc).symm, rowcol_lt N r c hc hr⟩

/-- C10: for every cell of an `N × N` grid and every cardinal unit offset,
`offset` returns `null` exactly when the shifted coordinates leave
`[0, N) × [0, N)`; otherwise it returns the node with index
`(y + dy) * N + (x + dx)`, whose coordinates are `x + dx` and `y + dy`, whose
index is in bounds and which is at Manhattan distance 1 from the original. -/
theorem C10_offset_spec (N i : Nat) (dx dy : Int)
    (hd : (dx, dy) ∈ offsets) :
    ((Node.new N i).offset N dx dy = none ↔ ¬ InsideGrid N i dx dy) ∧
    (InsideGrid N i dx dy → ∃ m, (Node.new N i).offset N dx dy = some m ∧
      (m.index : Int) = (((i / N : Nat) : Int) + dy) * N + (((i % N : Nat) : Int) + dx) ∧
      (m.x : Int) = ((i % N : Nat) : Int) + dx ∧ (m.y : Int) = ((i / N : Nat) : Int) + dy ∧
      m.x = m.index % N ∧ m.y = m.index / N ∧ m.index < N * N ∧
      m.manhattanDistance (Node.new N i) = 1 ∧ (Node.new N i).manhattanDistance m = 1) := by
  unfold InsideGrid
  refine ⟨Node.offset_eq_none_iff N (Node.new N i) dx dy, ?_⟩
  intro hin
  obtain ⟨m, hm⟩ := Node.offset_isSome (n := Node.new N i) hin
  refine ⟨m, hm, ?_⟩
  have hwf := Node.offset_WF hm
  obtain ⟨c, r, hc, hr, hcN, hrN, rfl⟩ := Node.offset_eq_some hm
  simp only [Node.new] at hc hr
  refine ⟨?_, hc, hr, hwf.1, hwf.2.1, hwf.2.2, ?_, ?_⟩
  · show ((r * N + c : Nat) : Int) = _
    rw [← hc, ← hr]; push_cast; ring
  · simp only [Node.manhattanDistance, Node.new, offsets, List.mem_cons, Prod.mk.injEq,
      List.mem_singleton, List.not_mem_nil, or_false] at hd ⊢
    omega
  · simp only [Node.manhattanDistance, Node.new, offsets, List.mem_cons, Prod.mk.injEq,
      List.mem_singleton, List.not_mem_nil, or_false] at hd ⊢
    omega

theorem C10_offset_spec_witness :
    (1, 0) ∈ offsets ∧ InsideGrid 3 4 1 0 ∧ ¬ InsideGrid 3 2 1 0 ∧
    ((Node.new 3 4).offset 3 1 0).map (fun m => m.index) = some 5 ∧
    ((Node.new 3 2).offset 3 1 0 = none ↔ ¬ InsideGrid 3 2 1 0) :=
  ⟨by decide, by unfold InsideGrid; decide, by unfold InsideGrid; decide, by decide,
    (C10_offset_spec 3 2 1 0 (by decide)).1⟩

/-! ## Selection of the node to expand -/

theorem selectBest_eq (open_ : OpenMap) : selectBest open_ = reduce pickLower open_.values := rfl

theorem pickLower_cases (a b : Node) {fa fb : Nat} (ha : a.getFCost = some fa)
    (hb : b.getFCost = some fb) :
    (fa < fb ∧ pickLower a b = a) ∨ (fb ≤ fa ∧ pickLower a b = b) := by
  unfold pickLower
  rw [ha, hb]
  by_cases h : fa < fb
  · left; exact ⟨h, by simp [jsLt, h]⟩
  · right; exact ⟨by omega, by simp [jsLt, h]⟩

/-- Folding `pickLower` from `a` over `l` ends on the last node of minimal
`fCost` of `a :: l`. -/
theorem foldl_pickLower_last_min (a : Node) (l : List Node)
    (hs : ∀ m ∈ a :: l, m.getFCost ≠ none) :
    ∃ pre post f, a :: l = pre ++ l.foldl pickLower a :: post ∧
      (l.foldl pickLower a).getFCost = some f ∧
      (∀ m ∈ pre, ∃ fm, m.getFCost = some fm ∧ f ≤ fm) ∧
      (∀ m ∈ post, ∃ fm, m.getFCost = some fm ∧ f < fm) := by
  induction l using List.reverseRecOn with
  | nil =>
    obtain ⟨f, hf⟩ := Option.ne_none_iff_exists'.1 (hs a (by simp))
    exact ⟨[], [], f, by simp, hf, by simp, by simp⟩
  | append_singleton l b ih =>
    have hs' : ∀ m ∈ a :: l, m.getFCost ≠ none := by
      intro m hm
      apply hs
      simp only [List.mem_cons, List.mem_append, List.mem_singleton] at hm ⊢
      tauto
    obtain ⟨pre, post, f, hl, hf, hpre, hpost⟩ := ih hs'
    obtain ⟨fb, hfb⟩ := Option.ne_none_iff_exists'.1 (hs b (by simp))
    rw [List.foldl_append, List.foldl_cons, List.foldl_nil]
    rcases pickLower_cases (l.foldl pickLower a) b hf hfb with ⟨hlt, hp⟩ | ⟨hle, hp⟩
    · rw [hp]
      refine ⟨pre, post ++ [b], f, ?_, hf, hpre, ?_⟩
      · rw [← List.cons_append, hl]; simp
      · intro m hm
        rcases List.mem_append.1 hm with h | h
        · exact hpost m h
        · rw [List.mem_singleton.1 h]; exact ⟨fb, hfb, hlt⟩
    · rw [hp]
      refine ⟨a :: l, [], fb, by simp, hfb, ?_, by simp⟩
      intro m hm
      rw [hl] at hm
      rcases List.mem_append.1 hm with h | h
      · obtain ⟨fm, h1, h2⟩ := hpre m h
        exact ⟨fm, h1, by omega⟩
      · rcases List.mem_cons.1 h with h | h
        · rw [h]; exact ⟨f, hf, hle⟩
        · obtain ⟨fm, h1, h2⟩ := hpost m h
          exact ⟨fm, h1, by omega⟩

/-- The selected node of a non-empty map of scored nodes, with the entries
before and after it. -/
theorem selectBest_last_min (open_ : OpenMap) (hne : open_ ≠ [])
    (hs : ∀ m ∈ open_.values, m.getFCost ≠ none) :
    ∃ n pre post f, selectBest open_ = some n ∧ open_.values = pre ++ n :: post ∧
      n.getFCost = some f ∧
      (∀ m ∈ pre, ∃ fm, m.getFCost = some fm ∧ f ≤ fm) ∧
      (∀ m ∈ post, ∃ fm, m.getFCost = some fm ∧ f < fm) := by
  rw [selectBest_eq]
  cases hv : open_.values with
  | nil =>
    have : open_ = [] := by simpa [OpenMap.values] using hv
    exact absurd this hne
  | cons a l =>
    rw [hv] at hs
    obtain ⟨pre, post, f, h1, h2, h3, h4⟩ := foldl_pickLower_last_min a l hs
    exact ⟨l.foldl pickLower a, pre, post, f, rfl, h1, h2, h3, h4⟩

/-- The value of `selectBest` on a split map: the fold continues over the
later entries. -/
theorem foldl_pickLower_mem (a : Node) (l : List Node) :
    l.foldl pickLower a = a ∨ l.foldl pickLower a ∈ l := by
  induction l using List.reverseRecOn with
  | nil => left; rfl
  | append_singleton l b ih =>
    rw [List.foldl_append, List.foldl_cons, List.foldl_nil]
    unfold pickLower
    split
    · rcases ih with h | h
      · left; exact h
      · right; exact List.mem_append_left _ h
    · right; simp

/-! ## Adjacency and `offset` -/

theorem mem_offsets {d : Int × Int} (h : d ∈ offsets) :
    d = (1, 0) ∨ d = (0, 1) ∨ d = (-1, 0) ∨ d = (0, -1) := by
  simpa [offsets] using h

/-- A neighbour returned by `offset` for a cardinal offset is adjacent. -/
theorem offset_adjacent {N : Nat} {c m : Node} {d : Int × Int} (hc : c.WF N)
    (hd : d ∈ offsets) (h : c.offset N d.1 d.2 = some m) : Adjacent N c.index m.index := by
  have hm := Node.offset_WF h
  obtain ⟨col, row, h1, h2, h3, h4, rfl⟩ := Node.offset_eq_some h
  obtain ⟨hx, hy, hi⟩ := hc
  refine ⟨hi, hm.2.2, ?_⟩
  show (c.index / N = (row * N + col) / N ∧ _) ∨ (c.index % N = (row * N + col) % N ∧ _)
  rw [rowcol_mod N row col h3, rowcol_div N row col h3, ← hx, ← hy]
  rcases mem_offsets hd with rfl | rfl | rfl | rfl <;> simp only at h1 h2 <;> omega

/-- Every adjacent cell is returned by `offset` for one of the four offsets. -/
theorem adjacent_offset {N : Nat} {c : Node} {j : Nat} (hc : c.WF N)
    (h : Adjacent N c.index j) :
    ∃ d ∈ offsets, ∃ m, c.offset N d.1 d.2 = some m ∧ m.index = j := by
  obtain ⟨hx, hy, hi⟩ := hc
  obtain ⟨_, hj, hadj⟩ := h
  have hN : 0 < N := by
    rcases Nat.eq_zero_or_pos N with h0 | h0
    · subst h0; simp at hi
    · exact h0
  have hjm : j % N < N := Nat.mod_lt _ hN
  have hjd : j / N < N := Nat.div_lt_of_lt_mul hj
  have hcm : c.index % N < N := Nat.mod_lt _ hN
  have hcd : c.index / N < N := Nat.div_lt_of_lt_mul hi
  have hjeq : j / N * N + j % N = j := by
    rw [Nat.mul_comm]; exact Nat.div_add_mod j N
  have key : ∀ dx dy : Int, (dx, dy) ∈ offsets → ((j % N : Nat) : Int) = (c.x : Int) + dx →
      ((j / N : Nat) : Int) = (c.y : Int) + dy →
      ∃ d ∈ offsets, ∃ m, c.offset N d.1 d.2 = some m ∧ m.index = j := by
    intro dx dy hd h1 h2
    have hin : 0 ≤ (c.x : Int) + dx ∧ (c.x : Int) + dx < N ∧ 0 ≤ (c.y : Int) + dy ∧
        (c.y : Int) + dy < N := by
      rw [← h1, ← h2]
      exact ⟨Int.natCast_nonneg _, by exact_mod_cast hjm, Int.natCast_nonneg _,
        by exact_mod_cast hjd⟩
    obtain ⟨m, hm⟩ := Node.offset_isSome hin
    refine ⟨(dx, dy), hd, m, hm, ?_⟩
    obtain ⟨col, row, h3, h4, _, _, rfl⟩ := Node.offset_eq_some hm
    have e1 : col = j % N := by omega
    have e2 : row = j / N := by omega
    show row * N + col = j
    rw [e1, e2, hjeq]
  rcases hadj with ⟨hrow, hcol | hcol⟩ | ⟨hcol, hrow | hrow⟩
  · exact key 1 0 (by simp [offsets]) (by omega) (by omega)
  · exact key (-1) 0 (by simp [offsets]) (by omega) (by omega)
  · exact key 0 1 (by simp [offsets]) (by omega) (by omega)
  · exact key 0 (-1) (by simp [offsets]) (by omega) (by omega)

/-! ## The open map -/

theorem OpenMap.has_eq_true_iff (m : OpenMap) (k : Nat) :
    m.has k = true ↔ ∃ n, (k, n) ∈ m := by
  unfold OpenMap.has
  rw [List.any_eq_true]
  constructor
  · rintro ⟨⟨k', n⟩, hmem, hk⟩
    have : k' = k := by simpa using hk
    subst this
    exact ⟨n, hmem⟩
  · rintro ⟨n, hmem⟩
    exact ⟨(k, n), hmem, by simp⟩

theorem OpenMap.has_eq_false_iff (m : OpenMap) (k : Nat) :
    m.has k = false ↔ ∀ n, (k, n) ∉ m := by
  rw [← Bool.not_eq_true, OpenMap.has_eq_true_iff]
  simp

theorem OpenMap.set_of_not_has (m : OpenMap) (k : Nat) (v : Node) (h : m.has k = false) :
    m.set k v = m ++ [(k, v)] := by
  simp [OpenMap.set, h]

theorem OpenMap.mem_delete (m : OpenMap) (k : Nat) (e : Nat × Node) :
    e ∈ m.delete k ↔ e ∈ m ∧ e.1 ≠ k := by
  simp [OpenMap.delete, List.mem_filter]

theorem OpenMap.has_append (m m' : OpenMap) (k : Nat) :
    (m ++ m').has k = (m.has k || m'.has k) := by
  simp [OpenMap.has, List.any_append]

theorem closedHas_eq_true_iff (closed : List Nat) (i : Nat) :
    closedHas closed i = true ↔ i ∈ closed := by
  simp [closedHas]

theorem mem_closedAdd (closed : List Nat) (i j : Nat) :
    j ∈ closedAdd closed i ↔ j ∈ closed ∨ j = i := by
  unfold closedAdd
  split
  · constructor
    · intro h; exact Or.inl h
    · rintro (h | h)
      · exact h
      · rw [h]; assumption
  · simp

/-! ## One neighbour, and the whole expansion -/

/-- The function `visitNeighbor` either leaves `open` and `updateQueue` alone, or appends
the freshly written neighbour to both. -/
theorem visitNeighbor_cases (w : World) (e : Node) (closed : List Nat) (c : Node)
    (o : OpenMap) (q : List Node) (d : Int × Int) :
    (visitNeighbor w e closed c (o, q) d = (o, q) ∧
      ∀ m, c.offset w.size d.1 d.2 = some m → isObstructed (w.element m.index) = false →
        m.index ∉ closed → o.has m.index = true) ∨
    (∃ m, c.offset w.size d.1 d.2 = some m ∧ isObstructed (w.element m.index) = false ∧
      m.index ∉ closed ∧ o.has m.index = false ∧
      visitNeighbor w e closed c (o, q) d =
        (o ++ [(m.index, assignCosts c e m)], q ++ [assignCosts c e m])) := by
  unfold visitNeighbor
  cases hoff : c.offset w.size d.1 d.2 with
  | none => left; exact ⟨rfl, by intro m hm; cases hm⟩
  | some m =>
    simp only
    by_cases hobs : isObstructed (w.element m.index) = true
    · left
      refine ⟨by simp [hobs], ?_⟩
      intro m' hm' h1
      cases hm'
      rw [hobs] at h1; cases h1
    · by_cases hcl : m.index ∈ closed
      · left
        refine ⟨by simp [closedHas, hcl], ?_⟩
        intro m' hm' _ h2
        cases hm'
        exact absurd hcl h2
      · have hobs' : isObstructed (w.element m.index) = false := by simpa using hobs
        have hidx : (assignCosts c e m).index = m.index := rfl
        cases hhas : OpenMap.has o m.index with
        | true =>
          left
          refine ⟨?_, ?_⟩
          · simp [hobs', closedHas, hcl, hhas, hidx]
          · intro m' hm' _ _
            cases hm'
            exact hhas
        | false =>
          right
          refine ⟨m, rfl, hobs', hcl, hhas, ?_⟩
          simp [hobs', closedHas, hcl, hhas, hidx, OpenMap.set_of_not_has]

/-- What the `for` loop over a list of offsets does to `open` and
`updateQueue`: it appends the same freshly written nodes to both, leaves all
earlier entries untouched, and afterwards every free, unclosed neighbour is a
key of `open`. -/
theorem foldl_visitNeighbor_spec (w : World) (e : Node) (closed : List Nat) (c : Node)
    (ds : List (Int × Int)) (o : OpenMap) (q : List Node) :
    ∃ app : List Node,
      ds.foldl (visitNeighbor w e closed c) (o, q) = (o ++ entriesOf app, q ++ app) ∧
      (∀ m' ∈ app, ∃ d ∈ ds, ∃ m, c.offset w.size d.1 d.2 = some m ∧
        m' = assignCosts c e m ∧ isObstructed (w.element m.index) = false ∧
        m.index ∉ closed ∧ o.has m.index = false) ∧
      (∀ d ∈ ds, ∀ m, c.offset w.size d.1 d.2 = some m →
        isObstructed (w.element m.index) = false → m.index ∉ closed →
        (o ++ entriesOf app).has m.index = true) := by
  induction ds generalizing o q with
  | nil => exact ⟨[], by simp [entriesOf], by simp, by simp⟩
  | cons d ds ih =>
    rw [List.foldl_cons]
    rcases visitNeighbor_cases w e closed c o q d with ⟨hv, hkeep⟩ | ⟨m, hoff, hobs, hcl, hhas, hv⟩
    · rw [hv]
      obtain ⟨app, h1, h2, h3⟩ := ih o q
      refine ⟨app, h1, ?_, ?_⟩
      · intro m' hm'
        obtain ⟨d', hd', rest⟩ := h2 m' hm'
        exact ⟨d', List.mem_cons_of_mem _ hd', rest⟩
      · intro d' hd' m hoff hobs hcl
        rcases List.mem_cons.1 hd' with rfl | hd'
        · rw [OpenMap.has_append, hkeep m hoff hobs hcl]; rfl
        · exact h3 d' hd' m hoff hobs hcl
    · rw [hv]
      obtain ⟨app, h1, h2, h3⟩ := ih (o ++ [(m.index, assignCosts c e m)]) (q ++ [assignCosts c e m])
      refine ⟨assignCosts c e m :: app, ?_, ?_, ?_⟩
      · rw [h1]
        have hidx : (assignCosts c e m).index = m.index := rfl
        simp [entriesOf, hidx]
      · intro m' hm'
        rcases List.mem_cons.1 hm' with rfl | hm'
        · exact ⟨d, List.mem_cons_self _ _, m, hoff, rfl, hobs, hcl, hhas⟩
        · obtain ⟨d', hd', m0, g1, g2, g3, g4, g5⟩ := h2 m' hm'
          refine ⟨d', List.mem_cons_of_mem _ hd', m0, g1, g2, g3, g4, ?_⟩
          rw [OpenMap.has_append] at g5
          simpa using (Bool.or_eq_false_iff.1 g5).1
      · have hre : o ++ entriesOf (assignCosts c e m :: app) =
            (o ++ [(m.index, assignCosts c e m)]) ++ entriesOf app := by
          simp [entriesOf]; rfl
        intro d' hd' m0 hoff0 hobs0 hcl0
        rw [hre]
        rcases List.mem_cons.1 hd' with rfl | hd'
        · have : m0 = m := by rw [hoff] at hoff0; exact (Option.some.inj hoff0).symm
          subst this
          rw [OpenMap.has_append, OpenMap.has_append]
          simp [OpenMap.has]
        · exact h3 d' hd' m0 hoff0 hobs0 hcl0


/-! ## One iteration of the loop -/

theorem selectBest_isSome_of_ne_nil (o : OpenMap) (h : o ≠ []) :
    ∃ c, selectBest o = some c := by
  cases o with
  | nil => exact absurd rfl h
  | cons p rest => exact ⟨_, rfl⟩

theorem selectBest_mem {o : OpenMap} {c : Node} (h : selectBest o = some c) :
    c ∈ o.values := by
  rw [selectBest_eq] at h
  cases hv : o.values with
  | nil => rw [hv] at h; cases h
  | cons a l =>
    rw [hv] at h
    have h' : l.foldl pickLower a = c := Option.some.inj h
    rcases foldl_pickLower_mem a l with h1 | h1
    · rw [← h', h1]; exact List.mem_cons_self _ _
    · rw [← h']; exact List.mem_cons_of_mem _ h1

theorem mem_values_iff (o : OpenMap) (c : Node) : c ∈ o.values ↔ ∃ k, (k, c) ∈ o := by
  simp [OpenMap.values]

/-- The three ways an iteration can go: `open` is empty and `null` is
returned; the selected node is the end node and is returned; or the selected
node is expanded. -/
theorem searchStep_cases (w : World) (e : Node) (st : SearchState) :
    (st.open_ = [] ∧ searchStep w e st = StepResult.returned none st) ∨
    (∃ c, st.open_ ≠ [] ∧ selectBest st.open_ = some c ∧ c.index = e.index ∧
      searchStep w e st = StepResult.returned (some c)
        { open_ := st.open_.delete c.index, closed := closedAdd st.closed c.index,
          updateQueue := st.updateQueue }) ∨
    (∃ c app, st.open_ ≠ [] ∧ selectBest st.open_ = some c ∧ c.index ≠ e.index ∧
      searchStep w e st = StepResult.expanded
        { open_ := st.open_.delete c.index ++ entriesOf app,
          closed := closedAdd st.closed c.index,
          updateQueue := st.updateQueue ++ app } ∧
      (∀ m' ∈ app, ∃ d ∈ offsets, ∃ m, c.offset w.size d.1 d.2 = some m ∧
        m' = assignCosts c e m ∧ isObstructed (w.element m.index) = false ∧
        m.index ∉ closedAdd st.closed c.index ∧
        (st.open_.delete c.index).has m.index = false) ∧
      (∀ d ∈ offsets, ∀ m, c.offset w.size d.1 d.2 = some m →
        isObstructed (w.element m.index) = false →
        m.index ∉ closedAdd st.closed c.index →
        (st.open_.delete c.index ++ entriesOf app).has m.index = true)) := by
  by_cases hne : st.open_ = []
  · left
    refine ⟨hne, ?_⟩
    simp [searchStep, hne]
  · right
    obtain ⟨c, hc⟩ := selectBest_isSome_of_ne_nil st.open_ hne
    have hlen : st.open_.length > 0 := List.length_pos.2 hne
    by_cases hend : c.index = e.index
    · left
      refine ⟨c, hne, hc, hend, ?_⟩
      simp [searchStep, hlen, hc, hend]
    · right
      obtain ⟨app, h1, h2, h3⟩ := foldl_visitNeighbor_spec w e (closedAdd st.closed c.index) c
        offsets (st.open_.delete c.index) st.updateQueue
      refine ⟨c, app, hne, hc, hend, ?_, h2, h3⟩
      simp only [searchStep, hlen, hc, hend, if_true, if_false, expand, h1]

/-! ## The base invariant -/

theorem assignCosts_WF {N : Nat} (c e m : Node) (h : m.WF N) : (assignCosts c e m).WF N := h

theorem InvBase.selected {w : World} {e : Node} {st : SearchState} (h : InvBase w e st)
    {c : Node} (hc : selectBest st.open_ = some c) :
    (c.index, c) ∈ st.open_ ∧ c.WF w.size ∧ c.hCost = some (c.manhattanDistance e) ∧
      (∃ g, c.gCost = some g) ∧ c.index ∉ st.closed := by
  obtain ⟨k, hk⟩ := (mem_values_iff _ _).1 (selectBest_mem hc)
  obtain ⟨h1, h2, h3, h4⟩ := h.entry _ hk
  have hkc : k = c.index := h1
  subst hkc
  exact ⟨hk, h2, h3, h4, h.disjoint _ hk⟩

theorem closedAdd_of_not_mem {closed : List Nat} {i : Nat} (h : i ∉ closed) :
    closedAdd closed i = closed ++ [i] := by
  simp [closedAdd, h]

/-- The base invariant survives an expansion. -/
theorem InvBase.base_step {w : World} {e : Node} {st st1 : SearchState} (h : InvBase w e st)
    (hs : searchStep w e st = StepResult.expanded st1) :
    InvBase w e st1 ∧ st1.closed.length = st.closed.length + 1 := by
  rcases searchStep_cases w e st with ⟨_, h0⟩ | ⟨c, _, _, _, h0⟩ | ⟨c, app, _, hc, _, h0, happ, _⟩
  · rw [h0] at hs; cases hs
  · rw [h0] at hs; cases hs
  · rw [h0] at hs
    cases hs
    obtain ⟨hmem, hwf, hh, ⟨g, hg⟩, hncl⟩ := h.selected hc
    have hcl : closedAdd st.closed c.index = st.closed ++ [c.index] := closedAdd_of_not_mem hncl
    refine ⟨⟨?_, ?_, ?_, ?_⟩, ?_⟩
    · intro p hp
      rcases List.mem_append.1 hp with hp | hp
      · exact h.entry p ((OpenMap.mem_delete _ _ _).1 hp).1
      · obtain ⟨m', hm', rfl⟩ := List.mem_map.1 hp
        obtain ⟨d, _, m, hoff, rfl, _, _, _⟩ := happ m' hm'
        refine ⟨rfl, assignCosts_WF c e m (Node.offset_WF hoff), rfl, g + 1, ?_⟩
        simp [assignCosts, hg]
    · intro i hi
      rcases (mem_closedAdd _ _ _).1 hi with hi | hi
      · exact h.closed_lt i hi
      · rw [hi]; exact hwf.2.2
    · show (closedAdd st.closed c.index).Nodup
      rw [hcl]
      exact List.Nodup.append h.closed_nodup (List.nodup_singleton _)
        (by
          intro i hi hi'
          rw [List.mem_singleton.1 hi'] at hi
          exact hncl hi)
    · intro p hp
      show p.1 ∉ closedAdd st.closed c.index
      rcases List.mem_append.1 hp with hp | hp
      · obtain ⟨hp1, hp2⟩ := (OpenMap.mem_delete _ _ _).1 hp
        intro hcontra
        rcases (mem_closedAdd _ _ _).1 hcontra with hx | hx
        · exact h.disjoint p hp1 hx
        · exact hp2 hx
      · obtain ⟨m', hm', rfl⟩ := List.mem_map.1 hp
        obtain ⟨d, _, m, hoff, rfl, _, hnc, _⟩ := happ m' hm'
        exact hnc
    · show (closedAdd st.closed c.index).length = _
      rw [hcl]; simp

theorem InvBase.closed_length_le {w : World} {e : Node} {st : SearchState}
    (h : InvBase w e st) : st.closed.length ≤ w.size * w.size := by
  have hsub : st.closed.toFinset ⊆ Finset.range (w.size * w.size) := by
    intro i hi
    rw [List.mem_toFinset] at hi
    exact Finset.mem_range.2 (h.closed_lt i hi)
  have hcard := Finset.card_le_card hsub
  rw [List.toFinset_card_of_nodup h.closed_nodup, Finset.card_range] at hcard
  exact hcard

theorem searchStep_ne_threw (w : World) (e : Node) (st : SearchState) :
    searchStep w e st ≠ StepResult.threw := by
  rcases searchStep_cases w e st with ⟨_, h0⟩ | ⟨c, _, _, _, h0⟩ | ⟨c, app, _, _, _, h0, _⟩ <;>
    rw [h0] <;> intro h <;> cases h

/-- Loop rule: an invariant `P` that implies the base invariant and survives
every expansion holds in the state of the iteration that returns, and that
iteration is reached within `size * size + 1` iterations. -/
theorem searchLoop_returns (w : World) (e : Node) (P : SearchState → Prop)
    (hbase : ∀ st, P st → InvBase w e st)
    (hstep : ∀ st st1, P st → searchStep w e st = StepResult.expanded st1 → P st1) :
    ∀ (fuel : Nat) (st : SearchState), P st → w.size * w.size < fuel + st.closed.length →
      ∃ r st0 st1, searchLoop w e fuel st = some (r, st1) ∧ P st0 ∧
        searchStep w e st0 = StepResult.returned r st1 := by
  intro fuel
  induction fuel with
  | zero =>
    intro st hP hlt
    have := (hbase st hP).closed_length_le
    omega
  | succ fuel ih =>
    intro st hP hlt
    cases hs : searchStep w e st with
    | returned r st1 =>
      exact ⟨r, st, st1, by simp [searchLoop, hs], hP, hs⟩
    | expanded st1 =>
      obtain ⟨_, hlen⟩ := (hbase st hP).base_step hs
      obtain ⟨r, st0, st2, h1, h2, h3⟩ := ih st1 (hstep st st1 hP hs) (by omega)
      exact ⟨r, st0, st2, by simp [searchLoop, hs, h1], h2, h3⟩
    | threw => exact absurd hs (searchStep_ne_threw w e st)

/-- The iteration that returns either found `open` empty or selected the end
node. -/
theorem searchStep_returned {w : World} {e : Node} {st st1 : SearchState} {r : Option Node}
    (h : searchStep w e st = StepResult.returned r st1) :
    (r = none ∧ st.open_ = [] ∧ st1 = st) ∨
    (∃ c, r = some c ∧ st.open_ ≠ [] ∧ selectBest st.open_ = some c ∧ c.index = e.index ∧
      st1.updateQueue = st.updateQueue) := by
  rcases searchStep_cases w e st with ⟨h1, h0⟩ | ⟨c, h1, h2, h3, h0⟩ | ⟨c, app, _, _, _, h0, _⟩
  · rw [h0] at h; cases h; left; exact ⟨rfl, h1, rfl⟩
  · rw [h0] at h; cases h; right; exact ⟨c, rfl, h1, h2, h3, rfl⟩
  · rw [h0] at h; cases h

/-- The state the loop starts in satisfies the base invariant. -/
theorem InvBase.base_initial (w : World) (a b : Node) (ha : a.WF w.size) :
    InvBase w b (initialState (initStart a b)) := by
  refine ⟨?_, ?_, ?_, ?_⟩
  · intro p hp
    have : p = ((initStart a b).index, initStart a b) := by
      simpa [initialState, OpenMap.set, OpenMap.has] using hp
    subst this
    exact ⟨rfl, ha, rfl, 0, rfl⟩
  · intro i hi; simp [initialState] at hi
  · simp [initialState]
  · intro p _; simp [initialState]


/-! ## `findNode` in terms of the loop -/

/-- The loop of `updateNodes` finishes without throwing when every listed node
has a tile. -/
theorem updateNodes_ok_of_lt (s e : Nat) (nodes : List Node) :
    ∀ tiles : List Tile, (∀ n ∈ nodes, n.index < tiles.length) →
      ∃ ts, updateNodes s e tiles nodes = Except.ok ts ∧ ts.length = tiles.length := by
  induction nodes with
  | nil => intro tiles _; exact ⟨tiles, rfl, rfl⟩
  | cons n rest ih =>
    intro tiles h
    have hn := h n (List.mem_cons_self _ _)
    have hrest : ∀ ts : List Tile, ts.length = tiles.length →
        ∀ m ∈ rest, m.index < ts.length := by
      intro ts hlen m hm
      rw [hlen]
      exact h m (List.mem_cons_of_mem _ hm)
    by_cases hc : n.index ≠ s ∧ n.index ≠ e
    · have hget : tiles[n.index]? = some tiles[n.index] := List.getElem?_eq_getElem hn
      obtain ⟨ts, h1, h2⟩ := ih (tiles.set n.index (Tile.mk Colour.lightblue))
        (hrest _ (List.length_set _ _ _))
      refine ⟨ts, ?_, by rw [h2, List.length_set]⟩
      rw [updateNodes, if_pos hc, hget]
      exact h1
    · obtain ⟨ts, h1, h2⟩ := ih tiles (hrest _ rfl)
      refine ⟨ts, ?_, h2⟩
      rw [updateNodes, if_neg hc]
      exact h1

theorem findNode_of_found {w : World} {a b c : Node} {fuel : Nat} {st : SearchState}
    {ts : List Tile} (hs : w.start = some a) (he : w.end_ = some b)
    (h : searchLoop w b fuel (initialState (initStart a b)) = some (some c, st))
    (hu : updateNodes a.index b.index w.tiles st.updateQueue = Except.ok ts) :
    findNode fuel w = some
      { ret := Returned.node c, alerted := false,
        world := { w with
          start := some (initStart a b)
          tiles := ts },
        search := some st } := by
  have hu' : updateNodes (initStart a b).index b.index w.tiles st.updateQueue = Except.ok ts :=
    hu
  simp [findNode, hs, he, h, hu']

theorem findNode_of_null {w : World} {a b : Node} {fuel : Nat} {st : SearchState}
    (hs : w.start = some a) (he : w.end_ = some b)
    (h : searchLoop w b fuel (initialState (initStart a b)) = some (none, st)) :
    findNode fuel w = some
      { ret := Returned.null, alerted := false,
        world := { w with start := some (initStart a b) }, search := some st } := by
  simp [findNode, hs, he, h]

theorem initialState_open (s : Node) : (initialState s).open_ = [(s.index, s)] := by
  simp [initialState, OpenMap.set, OpenMap.has]

/-! ## Soundness: only reachable cells enter `open` -/

theorem InvSound.sound_initial (w : World) (a b : Node) (ha : a.WF w.size) :
    InvSound w a b (initialState (initStart a b)) := by
  refine ⟨InvBase.base_initial w a b ha, ?_⟩
  intro p hp
  rw [initialState_open] at hp
  rw [List.mem_singleton.1 hp]
  exact Relation.ReflTransGen.refl

theorem InvSound.sound_step {w : World} {a e : Node} {st st1 : SearchState}
    (h : InvSound w a e st) (hs : searchStep w e st = StepResult.expanded st1) :
    InvSound w a e st1 := by
  refine ⟨(h.1.base_step hs).1, ?_⟩
  rcases searchStep_cases w e st with ⟨_, h0⟩ | ⟨c, _, _, _, h0⟩ | ⟨c, app, _, hc, _, h0, happ, _⟩
  · rw [h0] at hs; cases hs
  · rw [h0] at hs; cases hs
  · rw [h0] at hs
    cases hs
    obtain ⟨hmem, hwf, _, _, _⟩ := h.1.selected hc
    intro p hp
    rcases List.mem_append.1 hp with hp | hp
    · exact h.2 p ((OpenMap.mem_delete _ _ _).1 hp).1
    · obtain ⟨m', hm', rfl⟩ := List.mem_map.1 hp
      obtain ⟨d, hd, m, hoff, rfl, hobs, _, _⟩ := happ m' hm'
      have hadj : Adjacent w.size c.index m.index := offset_adjacent hwf hd hoff
      exact Relation.ReflTransGen.tail (h.2 _ hmem) ⟨hadj, hobs⟩

/-! ## Completeness: the closed set is closed under free moves -/

theorem InvComplete.complete_initial (w : World) (a b : Node) (ha : a.WF w.size) :
    InvComplete w a b (initialState (initStart a b)) := by
  refine ⟨InvBase.base_initial w a b ha, ?_, ?_, ?_⟩
  · intro i hi; simp [initialState] at hi
  · right
    rw [initialState_open]
    simp [OpenMap.has, initStart]
  · simp [initialState]

theorem has_after_delete {o : OpenMap} {j k : Nat} (app : List Node)
    (h : o.has j = true) (hjk : j ≠ k) : (o.delete k ++ entriesOf app).has j = true := by
  obtain ⟨n, hn⟩ := (OpenMap.has_eq_true_iff _ _).1 h
  rw [OpenMap.has_append]
  have : (o.delete k).has j = true :=
    (OpenMap.has_eq_true_iff _ _).2 ⟨n, (OpenMap.mem_delete _ _ _).2 ⟨hn, hjk⟩⟩
  rw [this]; rfl

theorem InvComplete.complete_step {w : World} {a e : Node} {st st1 : SearchState}
    (h : InvComplete w a e st) (hs : searchStep w e st = StepResult.expanded st1) :
    InvComplete w a e st1 := by
  obtain ⟨hb, hfront, hstart, hend⟩ := h
  refine ⟨(hb.base_step hs).1, ?_⟩
  rcases searchStep_cases w e st with ⟨_, h0⟩ | ⟨c, _, _, _, h0⟩ | ⟨c, app, _, hc, hne, h0, _, hall⟩
  · rw [h0] at hs; cases hs
  · rw [h0] at hs; cases hs
  · rw [h0] at hs
    cases hs
    obtain ⟨hmem, hwf, _, _, _⟩ := hb.selected hc
    have keep : ∀ j, (j ∈ st.closed ∨ st.open_.has j = true) →
        j ∈ closedAdd st.closed c.index ∨
          (st.open_.delete c.index ++ entriesOf app).has j = true := by
      intro j hj
      rcases hj with hj | hj
      · exact Or.inl ((mem_closedAdd _ _ _).2 (Or.inl hj))
      · by_cases hjc : j = c.index
        · exact Or.inl ((mem_closedAdd _ _ _).2 (Or.inr hjc))
        · exact Or.inr (has_after_delete app hj hjc)
    refine ⟨?_, keep _ hstart, ?_⟩
    · intro i hi j hmove
      rcases (mem_closedAdd _ _ _).1 hi with hi | hi
      · exact keep j (hfront i hi j hmove)
      · subst hi
        obtain ⟨d, hd, m, hoff, rfl⟩ := adjacent_offset hwf hmove.1
        by_cases hcl : m.index ∈ closedAdd st.closed c.index
        · exact Or.inl hcl
        · exact Or.inr (hall d hd m hoff hmove.2 hcl)
    · intro hcontra
      rcases (mem_closedAdd _ _ _).1 hcontra with hx | hx
      · exact hend hx
      · exact hne hx.symm

/-- With `open` empty, everything reachable from the start cell is closed. -/
theorem InvComplete.closed_of_connected {w : World} {a e : Node} {st : SearchState}
    (h : InvComplete w a e st) (hopen : st.open_ = []) {j : Nat}
    (hj : Connected w a.index j) : j ∈ st.closed := by
  obtain ⟨_, hfront, hstart, _⟩ := h
  have hno : ∀ k, st.open_.has k = false := by
    intro k; rw [hopen]; rfl
  induction hj with
  | refl =>
    rcases hstart with h1 | h1
    · exact h1
    · rw [hno] at h1; cases h1
  | tail _ hmove ih =>
    rcases hfront _ ih _ hmove with h1 | h1
    · exact h1
    · rw [hno] at h1; cases h1

/-- C4: when no sequence of cardinal moves over unobstructed cells connects
the start cell to the end cell, `findNode` returns `null` within
`size * size + 1` iterations, and `findPath` marks no cell as on-path and
leaves every tile as it was. -/
theorem C4_unreachable_is_null (w : World) (a b : Node) (fuel : Nat)
    (hs : w.start = some a) (he : w.end_ = some b) (ha : a.WF w.size)
    (hnot : ¬ Connected w a.index b.index) (hfuel : w.size * w.size < fuel) :
    ∃ r p, findNode fuel w = some r ∧ r.ret = Returned.null ∧ r.alerted = false ∧
      findPath fuel w = some p ∧ p.onPath = [] ∧ p.tiles = w.tiles := by
  obtain ⟨r, st0, st1, hloop, hinv, hret⟩ :=
    searchLoop_returns w b (InvSound w a b) (fun _ h => h.1)
      (fun _ _ h hs => h.sound_step hs)
      fuel (initialState (initStart a b)) (InvSound.sound_initial w a b ha)
      (by simpa [initialState] using hfuel)
  rcases searchStep_returned hret with ⟨rfl, _, _⟩ | ⟨c, _, _, hsel, hidx, _⟩
  · have hfind := findNode_of_null hs he hloop
    have hpath : findPath fuel w = some
        { found :=
            { ret := Returned.null, alerted := false,
              world := { w with start := some (initStart a b) }, search := some st1 },
          onPath := [], tiles := w.tiles } := by
      simp [findPath, hfind, pathMarks]
    exact ⟨_, _, hfind, rfl, rfl, hpath, rfl, rfl⟩
  · obtain ⟨hmem, _⟩ := hinv.1.selected hsel
    have := hinv.2 _ hmem
    rw [show (c.index, c).1 = b.index from hidx] at this
    exact absurd this hnot


/-! ## Manhattan distance on the grid -/

theorem md_eq_cellDistance {N : Nat} {n b : Node} (hn : n.WF N) (hb : b.WF N) :
    n.manhattanDistance b = cellDistance N n.index b.index := by
  simp [cellDistance, Node.manhattanDistance, Node.new, hn.1, hn.2.1, hb.1, hb.2.1]

theorem md_eq_zero_iff {N : Nat} {n b : Node} (hn : n.WF N) (hb : b.WF N) :
    n.manhattanDistance b = 0 ↔ n.index = b.index := by
  obtain ⟨hx, hy, _⟩ := hn
  obtain ⟨hbx, hby, _⟩ := hb
  unfold Node.manhattanDistance
  constructor
  · intro h
    have h1 : n.x = b.x := by omega
    have h2 : n.y = b.y := by omega
    rw [hx, hbx] at h1
    rw [hy, hby] at h2
    rw [← Nat.div_add_mod n.index N, ← Nat.div_add_mod b.index N, h1, h2]
  · intro h
    rw [hx, hy, hbx, hby, h]
    simp

/-- A neighbour is one step closer to, or one step farther from, any cell. -/
theorem offset_md {N : Nat} {c m : Node} (b : Node) {d : Int × Int} (hd : d ∈ offsets)
    (h : c.offset N d.1 d.2 = some m) :
    m.manhattanDistance b + 1 = c.manhattanDistance b ∨
      m.manhattanDistance b = c.manhattanDistance b + 1 := by
  obtain ⟨col, row, h1, h2, _, _, rfl⟩ := Node.offset_eq_some h
  unfold Node.manhattanDistance
  rcases mem_offsets hd with rfl | rfl | rfl | rfl <;> simp only at h1 h2 ⊢ <;> omega

/-- A cell other than the end has a neighbour one step closer to the end. -/
theorem closer_offset {N : Nat} {c b : Node} (hc : c.WF N) (hb : b.WF N)
    (hpos : 0 < c.manhattanDistance b) :
    ∃ d ∈ offsets, ∃ m, c.offset N d.1 d.2 = some m ∧
      m.manhattanDistance b + 1 = c.manhattanDistance b := by
  obtain ⟨hcx, hcy⟩ := Node.WF_coords hc
  obtain ⟨hbx, hby⟩ := Node.WF_coords hb
  have key : ∀ dx dy : Int, (dx, dy) ∈ offsets →
      (0 ≤ (c.x : Int) + dx ∧ (c.x : Int) + dx < N ∧ 0 ≤ (c.y : Int) + dy ∧
        (c.y : Int) + dy < N) →
      Int.natAbs ((c.x : Int) + dx - b.x) + Int.natAbs ((c.y : Int) + dy - b.y) + 1 =
        c.manhattanDistance b →
      ∃ d ∈ offsets, ∃ m, c.offset N d.1 d.2 = some m ∧
        m.manhattanDistance b + 1 = c.manhattanDistance b := by
    intro dx dy hd hin hless
    obtain ⟨m, hm⟩ := Node.offset_isSome hin
    refine ⟨(dx, dy), hd, m, hm, ?_⟩
    obtain ⟨col, row, h1, h2, _, _, rfl⟩ := Node.offset_eq_some hm
    rw [← hless]
    simp only [Node.manhattanDistance, h1, h2]
  unfold Node.manhattanDistance at hpos
  by_cases hx : c.x < b.x
  · exact key 1 0 (by simp [offsets]) (by omega) (by unfold Node.manhattanDistance; omega)
  · by_cases hx' : b.x < c.x
    · exact key (-1) 0 (by simp [offsets]) (by omega) (by unfold Node.manhattanDistance; omega)
    · by_cases hy : c.y < b.y
      · exact key 0 1 (by simp [offsets]) (by omega) (by unfold Node.manhattanDistance; omega)
      · exact key 0 (-1) (by simp [offsets]) (by omega)
          (by unfold Node.manhattanDistance; omega)

/-! ## Selection after an expansion -/

theorem getFCost_of_costs {n : Node} {g h : Nat} (hg : n.gCost = some g)
    (hh : n.hCost = some h) : n.getFCost = some (h + g) := by
  simp [Node.getFCost, hg, hh]

/-- Folding `pickLower` over later entries that contain a node of the least
possible `fCost` ends on one of those later entries, with that `fCost`. -/
theorem foldl_pickLower_tail (D : Nat) (a : Node) (l : List Node)
    (hs : ∀ m ∈ a :: l, ∃ f, m.getFCost = some f ∧ D ≤ f)
    (hx : ∃ x ∈ l, x.getFCost = some D) :
    l.foldl pickLower a ∈ l ∧ (l.foldl pickLower a).getFCost = some D := by
  induction l using List.reverseRecOn with
  | nil => obtain ⟨x, hx, _⟩ := hx; cases hx
  | append_singleton l b ih =>
    have hs' : ∀ m ∈ a :: l, ∃ f, m.getFCost = some f ∧ D ≤ f := by
      intro m hm
      apply hs
      simp only [List.mem_cons, List.mem_append, List.mem_singleton] at hm ⊢
      tauto
    obtain ⟨fb, hfb, hDb⟩ := hs b (by simp)
    have hr : ∃ fr, (l.foldl pickLower a).getFCost = some fr ∧ D ≤ fr := by
      rcases foldl_pickLower_mem a l with h | h
      · rw [h]; exact hs a (by simp)
      · exact hs' _ (List.mem_cons_of_mem _ h)
    obtain ⟨fr, hfr, hDr⟩ := hr
    rw [List.foldl_append, List.foldl_cons, List.foldl_nil]
    obtain ⟨x, hxl, hxD⟩ := hx
    rcases List.mem_append.1 hxl with hxl | hxl
    · obtain ⟨ih1, ih2⟩ := ih hs' ⟨x, hxl, hxD⟩
      have : fr = D := by rw [hfr] at ih2; exact Option.some.inj ih2
      subst this
      rcases pickLower_cases _ b hfr hfb with ⟨_, hp⟩ | ⟨hle, hp⟩
      · rw [hp]; exact ⟨List.mem_append_left _ ih1, ih2⟩
      · rw [hp]
        have : fb = fr := by omega
        subst this
        exact ⟨by simp, hfb⟩
    · have hxb : x = b := List.mem_singleton.1 hxl
      subst hxb
      have : fb = D := by rw [hfb] at hxD; exact Option.some.inj hxD
      subst this
      rcases pickLower_cases _ x hfr hfb with ⟨hlt, _⟩ | ⟨_, hp⟩
      · omega
      · rw [hp]; exact ⟨by simp, hfb⟩

theorem values_append (o o' : OpenMap) : (o ++ o').values = o.values ++ o'.values := by
  simp [OpenMap.values]

theorem values_entriesOf (app : List Node) : (entriesOf app).values = app := by
  simp [OpenMap.values, entriesOf, Function.comp_def]

/-- The node selected after an expansion that appended a node of the least
possible `fCost` is one of the appended nodes and has that `fCost`. -/
theorem selectBest_append (D : Nat) (o : OpenMap) (app : List Node)
    (hs : ∀ m ∈ o.values ++ app, ∃ f, m.getFCost = some f ∧ D ≤ f)
    (hx : ∃ x ∈ app, x.getFCost = some D) :
    ∃ c, selectBest (o ++ entriesOf app) = some c ∧ c ∈ app ∧ c.getFCost = some D := by
  rw [selectBest_eq, values_append, values_entriesOf]
  cases hv : o.values with
  | nil =>
    rw [hv] at hs
    simp only [List.nil_append] at hs ⊢
    cases app with
    | nil => obtain ⟨x, hx, _⟩ := hx; cases hx
    | cons a l =>
      refine ⟨l.foldl pickLower a, rfl, ?_, ?_⟩
      · rcases foldl_pickLower_mem a l with h | h
        · rw [h]; exact List.mem_cons_self _ _
        · exact List.mem_cons_of_mem _ h
      · have hs0 : ∀ m ∈ a :: l, m.getFCost ≠ none := by
          intro m hm
          obtain ⟨f, hf, _⟩ := hs m hm
          rw [hf]; simp
        obtain ⟨pre, post, f, hl, hf, hpre, hpost⟩ := foldl_pickLower_last_min a l hs0
        obtain ⟨x, hxm, hxD⟩ := hx
        have hfD : D ≤ f := by
          have hmem : l.foldl pickLower a ∈ a :: l := by rw [hl]; simp
          obtain ⟨f', hf', hD⟩ := hs _ hmem
          rw [hf] at hf'
          cases hf'
          exact hD
        have hfx : f ≤ D := by
          rw [hl] at hxm
          rcases List.mem_append.1 hxm with h | h
          · obtain ⟨fm, h1, h2⟩ := hpre x h
            rw [hxD] at h1; cases h1; exact h2
          · rcases List.mem_cons.1 h with h | h
            · rw [h, hf] at hxD; cases hxD; exact le_refl _
            · obtain ⟨fm, h1, h2⟩ := hpost x h
              rw [hxD] at h1; cases h1; omega
        rw [hf]
        congr 1
        omega
  | cons a l =>
    rw [hv] at hs
    have hcons : (a :: l) ++ app = a :: (l ++ app) := rfl
    rw [hcons]
    show ∃ c, some ((l ++ app).foldl pickLower a) = some c ∧ _
    rw [List.foldl_append]
    have ha' : ∀ m ∈ l.foldl pickLower a :: app, ∃ f, m.getFCost = some f ∧ D ≤ f := by
      intro m hm
      rcases List.mem_cons.1 hm with h | h
      · rw [h]
        rcases foldl_pickLower_mem a l with h1 | h1
        · rw [h1]; exact hs a (by simp)
        · exact hs _ (by simp [h1])
      · exact hs _ (by simp [h])
    obtain ⟨h1, h2⟩ := foldl_pickLower_tail D _ app ha' hx
    exact ⟨_, rfl, h1, h2⟩


/-! ## The search on a grid without obstructed cells -/

theorem assignCosts_depth (c e m : Node) : (assignCosts c e m).depth = c.depth + 1 := by
  simp [assignCosts, Node.depth]

theorem assignCosts_root (c e m : Node) : (assignCosts c e m).root = c.root := by
  simp [assignCosts, Node.root]

theorem assignCosts_md (c e m b : Node) :
    (assignCosts c e m).manhattanDistance b = m.manhattanDistance b := rfl

theorem InvFree.free_initial (w : World) (a b : Node) (ha : a.WF w.size) (hp : a.parent = none) :
    InvFree w a b 0 (initialState (initStart a b)) := by
  have hdepth : (initStart a b).depth = 0 := by
    cases a; simp only at hp; subst hp; simp [initStart, Node.depth]
  have hroot : (initStart a b).root = initStart a b := by
    cases a; simp only at hp; subst hp; simp [initStart, Node.root]
  refine ⟨InvBase.base_initial w a b ha, ⟨initStart a b, ?_, rfl, rfl⟩, ?_, ?_⟩
  · rw [initialState_open]; rfl
  · intro p hp'
    rw [initialState_open] at hp'
    rw [List.mem_singleton.1 hp']
    refine ⟨⟨0, rfl, ?_⟩, ?_, ?_, hroot⟩
    · show a.manhattanDistance b ≤ 0 + a.manhattanDistance b
      omega
    · show a.manhattanDistance b ≤ a.manhattanDistance b + 0
      omega
    · show some 0 = some (initStart a b).depth
      rw [hdepth]
  · intro i hi; simp [initialState] at hi

theorem InvFree.free_step {w : World} {a b : Node} {k : Nat} {st st1 : SearchState}
    (hb : b.WF w.size) (hfree : ∀ i, isObstructed (w.element i) = false)
    (h : InvFree w a b k st) (hs : searchStep w b st = StepResult.expanded st1) :
    InvFree w a b (k + 1) st1 := by
  obtain ⟨hbase, ⟨c0, hc0, hg0, hk0⟩, hent, hclosed⟩ := h
  refine ⟨(hbase.base_step hs).1, ?_⟩
  rcases searchStep_cases w b st with ⟨_, h0⟩ | ⟨c, _, _, _, h0⟩ |
    ⟨c, app, _, hc, hne, h0, happ, hall⟩
  · rw [h0] at hs; cases hs
  · rw [h0] at hs; cases hs
  · rw [h0] at hs
    cases hs
    have : c0 = c := by rw [hc0] at hc; exact Option.some.inj hc
    subst this
    obtain ⟨hmem, hwf, hh, _, hncl⟩ := hbase.selected hc
    obtain ⟨_, _, hcdepth, hcroot⟩ := hent _ hmem
    have hdk : c0.depth = k := by
      rw [hg0] at hcdepth; exact (Option.some.inj hcdepth).symm
    have hpos : 0 < c0.manhattanDistance b := by
      rcases Nat.eq_zero_or_pos (c0.manhattanDistance b) with h1 | h1
      · exact absurd ((md_eq_zero_iff hwf hb).1 h1) hne
      · exact h1
    -- facts about every appended node
    have happ' : ∀ m' ∈ app, ∃ d ∈ offsets, ∃ m, c0.offset w.size d.1 d.2 = some m ∧
        m' = assignCosts c0 b m ∧ m'.gCost = some (k + 1) ∧
        m'.hCost = some (m.manhattanDistance b) ∧
        (m.manhattanDistance b + 1 = c0.manhattanDistance b ∨
          m.manhattanDistance b = c0.manhattanDistance b + 1) := by
      intro m' hm'
      obtain ⟨d, hd, m, hoff, rfl, _, _, _⟩ := happ m' hm'
      refine ⟨d, hd, m, hoff, rfl, ?_, rfl, offset_md b hd hoff⟩
      simp [assignCosts, hg0]
    -- every node of the new map is scored, at or above the start's estimate
    have hscored : ∀ m ∈ (st.open_.delete c0.index).values ++ app,
        ∃ f, m.getFCost = some f ∧ a.manhattanDistance b ≤ f := by
      intro m hm
      rcases List.mem_append.1 hm with hm | hm
      · obtain ⟨key, hkm⟩ := (mem_values_iff _ _).1 hm
        have hin := ((OpenMap.mem_delete _ _ _).1 hkm).1
        obtain ⟨⟨g, hg, hle⟩, _, _, _⟩ := hent _ hin
        obtain ⟨_, _, hh', _⟩ := hbase.entry _ hin
        exact ⟨_, getFCost_of_costs hg hh', by simp only at hle ⊢; omega⟩
      · obtain ⟨d, hd, m0, hoff, rfl, hg, hh', hmd⟩ := happ' m hm
        exact ⟨_, getFCost_of_costs hg hh', by omega⟩
    -- the neighbour one step closer to the end was appended
    obtain ⟨d, hd, ms, hoffs, hcloser⟩ := closer_offset hwf hb hpos
    have hmswf := Node.offset_WF hoffs
    have hmsncl : ms.index ∉ closedAdd st.closed c0.index := by
      intro hcontra
      rcases (mem_closedAdd _ _ _).1 hcontra with hx | hx
      · have := hclosed _ hx
        rw [← md_eq_cellDistance hmswf hb] at this
        omega
      · have e1 := md_eq_cellDistance hmswf hb
        have e2 := md_eq_cellDistance hwf hb
        rw [hx] at e1
        omega
    have hhas := hall d hd ms hoffs (hfree _) hmsncl
    obtain ⟨n, hn⟩ := (OpenMap.has_eq_true_iff _ _).1 hhas
    have hx : ∃ x ∈ app, x.getFCost = some (a.manhattanDistance b) := by
      rcases List.mem_append.1 hn with hn | hn
      · have hin := ((OpenMap.mem_delete _ _ _).1 hn).1
        obtain ⟨hkey, hnwf, _, _⟩ := hbase.entry _ hin
        obtain ⟨_, hfar, _, _⟩ := hent _ hin
        have hnwf' : n.WF w.size := hnwf
        have hfar' : a.manhattanDistance b ≤ n.manhattanDistance b + k := hfar
        have hkey' : ms.index = n.index := hkey
        have e1 := md_eq_cellDistance hmswf hb
        have e2 := md_eq_cellDistance hnwf' hb
        rw [← hkey'] at e2
        exfalso
        omega
      · obtain ⟨m', hm', heq⟩ := List.mem_map.1 hn
        obtain ⟨d', hd', m0, hoff0, rfl, hg, hh', _⟩ := happ' m' hm'
        have hidx : m0.index = ms.index := by
          have := congrArg Prod.fst heq
          exact this
        have e1 := md_eq_cellDistance hmswf hb
        have e2 := md_eq_cellDistance (Node.offset_WF hoff0) hb
        rw [hidx] at e2
        refine ⟨_, hm', ?_⟩
        rw [getFCost_of_costs hg hh']
        congr 1
        omega
    obtain ⟨c1, hc1, hc1app, hc1f⟩ := selectBest_append _ _ app hscored hx
    refine ⟨⟨c1, hc1, ?_, ?_⟩, ?_, ?_⟩
    · obtain ⟨_, _, _, _, _, hg, _, _⟩ := happ' c1 hc1app
      exact hg
    · obtain ⟨_, _, m0, _, rfl, hg, hh', _⟩ := happ' c1 hc1app
      rw [getFCost_of_costs hg hh'] at hc1f
      have := Option.some.inj hc1f
      rw [assignCosts_md]
      omega
    · intro p hp
      rcases List.mem_append.1 hp with hp | hp
      · have hin := ((OpenMap.mem_delete _ _ _).1 hp).1
        obtain ⟨h1, h2, h3, h4⟩ := hent _ hin
        exact ⟨h1, by omega, h3, h4⟩
      · obtain ⟨m', hm', rfl⟩ := List.mem_map.1 hp
        obtain ⟨_, _, m0, _, rfl, hg, _, hmd⟩ := happ' m' hm'
        refine ⟨⟨k + 1, hg, ?_⟩, ?_, ?_, ?_⟩
        · simp only [assignCosts_md]; omega
        · simp only [assignCosts_md]; omega
        · simp only [hg, assignCosts_depth, hdk]
        · simp only [assignCosts_root]; exact hcroot
    · intro i hi
      rcases (mem_closedAdd _ _ _).1 hi with hi | hi
      · have := hclosed i hi
        omega
      · rw [hi, ← md_eq_cellDistance hwf hb]
        omega


/-! ## Fixtures -/

theorem mkWorld_free (N s e i : Nat) :
    isObstructed ((mkWorld N [] s e).element i) = false := by
  unfold World.element mkWorld mkTiles
  simp only [List.not_mem_nil, if_false]
  rw [List.getElem?_map]
  cases (List.range (N * N))[i]? <;> rfl

/-- A set of cells that contains the start and is closed under free moves
contains every reachable cell. -/
theorem Connected.invariant {w : World} {s e : Nat} (S : Nat → Prop) (hs : S s)
    (hstep : ∀ i j, S i → Move w i j → S j) (h : Connected w s e) : S e := by
  induction h with
  | refl => exact hs
  | tail _ hmove ih => exact hstep _ _ ih hmove

/-- On the 3 × 3 grid with the middle row obstructed, nothing below the
middle row is reachable from the top-left cell. -/
theorem blocked_row_not_connected : ¬ Connected (mkWorld 3 [3, 4, 5] 0 8) 0 8 := by
  intro h
  have hstep : ∀ i j, i < 3 → Move (mkWorld 3 [3, 4, 5] 0 8) i j → j < 3 := by
    intro i j hi hmove
    have hj : j < 9 := hmove.1.2.1
    have hall : ∀ i < 3, ∀ j < 9, Move (mkWorld 3 [3, 4, 5] 0 8) i j → j < 3 := by decide
    exact hall i hi j hj hmove
  have := Connected.invariant (fun j => j < 3) (by decide) hstep h
  omega

/-! ## The claims -/

/-- C1 (evaluation at the failing input): on the 5 × 5 grid whose only
obstructed cell is 8, with start 0 and end 9, `findNode` returns the end
node with `gCost` 7 and `findPath` marks the six intermediate cells of a
seven-step path, although the walk 0, 1, 2, 3, 4, 9 over unobstructed cells
has five steps. -/
theorem C1_detour_grid_gCost :
    (findNode 26 detourWorld).bind FindResult.index? = some 9 ∧
    (findNode 26 detourWorld).bind FindResult.gCost? = some 7 ∧
    (findPath 26 detourWorld).map (fun p => p.onPath) = some [4, 3, 2, 7, 6, 5] ∧
    IsWalk detourWorld [0, 1, 2, 3, 4, 9] := by
  refine ⟨by decide, by decide, by decide, by decide⟩

/-- C5 (evaluation at the failing input): in the search on the 5 × 5 grid
with cell 8 obstructed, start 0 and end 9, the fifth iteration expands
cell 1 (`gCost` 1) whose neighbour 2 is in `open` with `gCost` 4 and parent 7;
after that iteration the entry of cell 2 still has `gCost` 4 and parent 7. -/
theorem C5_open_entry_not_updated :
    (selectBest (detourState 4).open_).map (fun c => (c.index, c.gCost)) = some (1, some 1) ∧
    ((selectBest (detourState 4).open_).bind fun c => (c.offset 5 1 0).map fun m => m.index)
      = some 2 ∧
    ((detourState 4).open_.lookup 2).map (fun n => (n.gCost, n.parent.map fun p => p.index))
      = some (some 4, some 7) ∧
    ((detourState 5).open_.lookup 2).map
      (fun n => (n.gCost, n.hCost, n.parent.map fun p => p.index))
      = some (some 4, some 3, some 7) := by
  refine ⟨by decide, by decide, by decide, by decide⟩

/-- C6 (counterexample): in the search on the unobstructed 3 × 3 grid from
cell 0 to cell 8, after the first iteration `open` holds cells 1 and 3, both
with `fCost` 4; the first of them in enumeration order is cell 1, but the
node selected for expansion is cell 3. -/
theorem C6_first_minimum_not_selected :
    (cornerState 1).open_.map (fun p => (p.1, p.2.getFCost)) = [(1, some 4), (3, some 4)] ∧
    (firstMinimum (cornerState 1).open_).map (fun n => n.index) = some 1 ∧
    (selectBest (cornerState 1).open_).map (fun n => n.index) = some 3 := by
  refine ⟨by decide, by decide, by decide⟩

/-- C6 (amended): for every non-empty `open` whose nodes all have a defined
`fCost`, the node selected for expansion is the last node of minimum `fCost`
in enumeration order: every entry before it has an `fCost` at least as large
and every entry after it has a strictly larger `fCost`. -/
theorem C6_last_minimum_selected (open_ : OpenMap) (hne : open_ ≠ [])
    (hs : ∀ m ∈ open_.values, m.getFCost ≠ none) :
    ∃ n pre post f, selectBest open_ = some n ∧ open_.values = pre ++ n :: post ∧
      n.getFCost = some f ∧
      (∀ m ∈ pre, ∃ fm, m.getFCost = some fm ∧ f ≤ fm) ∧
      (∀ m ∈ post, ∃ fm, m.getFCost = some fm ∧ f < fm) :=
  selectBest_last_min open_ hne hs

theorem C6_last_minimum_selected_witness :
    (cornerState 1).open_ ≠ [] ∧ (∀ m ∈ (cornerState 1).open_.values, m.getFCost ≠ none) ∧
    ∃ n pre post f, selectBest (cornerState 1).open_ = some n ∧
      (cornerState 1).open_.values = pre ++ n :: post ∧
      n.getFCost = some f ∧
      (∀ m ∈ pre, ∃ fm, m.getFCost = some fm ∧ f ≤ fm) ∧
      (∀ m ∈ post, ∃ fm, m.getFCost = some fm ∧ f < fm) :=
  ⟨List.ne_nil_of_length_pos (by decide), by decide,
    C6_last_minimum_selected _ (List.ne_nil_of_length_pos (by decide)) (by decide)⟩

/-- C7: for every non-empty `open` whose nodes all have a defined `fCost`,
the node selected for expansion is the value of an entry of `open` and its
`fCost` is at most the `fCost` of every node in `open`.  (`selectBest` only
reads `open`; the removal is the caller's `open.delete`.) -/
theorem C7_selected_is_minimum (open_ : OpenMap) (hne : open_ ≠ [])
    (hs : ∀ m ∈ open_.values, m.getFCost ≠ none) :
    ∃ n f, selectBest open_ = some n ∧ (∃ key, (key, n) ∈ open_) ∧
      n.getFCost = some f ∧ n.getFCost = (n.hCost.bind fun h => n.gCost.map fun g => g + h) ∧
      ∀ m ∈ open_.values, ∃ fm, m.getFCost = some fm ∧ f ≤ fm := by
  obtain ⟨n, pre, post, f, h1, h2, h3, h4, h5⟩ := selectBest_last_min open_ hne hs
  refine ⟨n, f, h1, (mem_values_iff _ _).1 (selectBest_mem h1), h3, ?_, ?_⟩
  · unfold Node.getFCost
    cases n.hCost <;> cases n.gCost <;> simp [Nat.add_comm]
  · intro m hm
    rw [h2] at hm
    rcases List.mem_append.1 hm with h | h
    · exact h4 m h
    · rcases List.mem_cons.1 h with h | h
      · rw [h]; exact ⟨f, h3, le_refl _⟩
      · obtain ⟨fm, e1, e2⟩ := h5 m h
        exact ⟨fm, e1, by omega⟩

theorem C7_selected_is_minimum_witness :
    (detourState 4).open_ ≠ [] ∧ (∀ m ∈ (detourState 4).open_.values, m.getFCost ≠ none) ∧
    ∃ n f, selectBest (detourState 4).open_ = some n ∧ (∃ key, (key, n) ∈ (detourState 4).open_) ∧
      n.getFCost = some f ∧ n.getFCost = (n.hCost.bind fun h => n.gCost.map fun g => g + h) ∧
      ∀ m ∈ (detourState 4).open_.values, ∃ fm, m.getFCost = some fm ∧ f ≤ fm :=
  ⟨List.ne_nil_of_length_pos (by decide), by decide,
    C7_selected_is_minimum _ (List.ne_nil_of_length_pos (by decide)) (by decide)⟩

/-- C8 (counterexample): on the unobstructed 3 × 3 grid with start and end
both designating cell 4, `findNode` raises no alert and returns the node of
cell 4 with `gCost` 0, having created its `open`/`closed` state. -/
theorem C8_same_cell_no_error :
    (findNode 10 (mkWorld 3 [] 4 4)).map
      (fun r => (r.alerted, r.index?, r.gCost?, r.search.map fun st => st.closed))
      = some (false, some 4, some 0, some [4]) := by
  decide

/-- C8 (amended): when start and end designate the same cell, `findNode`
(a node without parent, as the click handler creates it) raises no alert: it
writes the start's costs, and its first iteration moves
the start from `open` to `closed` and returns it, with `gCost` 0; nothing is
expanded, so `updateQueue` stays empty and no tile is recoloured, and
`findPath` marks nothing. -/
theorem C8_same_cell_returns_start (w : World) (a b : Node) (fuel : Nat)
    (hs : w.start = some a) (he : w.end_ = some b) (hidx : a.index = b.index)
    (hpar : a.parent = none) (hfuel : 0 < fuel) :
    ∃ r p, findNode fuel w = some r ∧ r.alerted = false ∧
      r.ret = Returned.node (initStart a b) ∧ (initStart a b).gCost = some 0 ∧
      (initStart a b).index = b.index ∧
      (∃ st, r.search = some st ∧ st.open_ = [] ∧ st.closed = [a.index] ∧
        st.updateQueue = []) ∧
      r.world.tiles = w.tiles ∧
      findPath fuel w = some p ∧ p.onPath = [] ∧ p.tiles = w.tiles := by
  obtain ⟨fuel, rfl⟩ : ∃ k, fuel = k + 1 := ⟨fuel - 1, by omega⟩
  have hsel : selectBest (initialState (initStart a b)).open_ = some (initStart a b) := by
    rw [initialState_open]; rfl
  have hdel : (initialState (initStart a b)).open_.delete (initStart a b).index = [] := by
    rw [initialState_open]; simp [OpenMap.delete]
  have hcl : closedAdd (initialState (initStart a b)).closed (initStart a b).index =
      [a.index] := by
    simp [initialState, closedAdd, initStart]
  have hstep : searchStep w b (initialState (initStart a b)) =
      StepResult.returned (some (initStart a b))
        { open_ := [], closed := [a.index], updateQueue := [] } := by
    rcases searchStep_cases w b (initialState (initStart a b)) with
      ⟨h1, _⟩ | ⟨c, _, h2, _, h0⟩ | ⟨c, _, _, h2, h3, _⟩
    · rw [initialState_open] at h1; cases h1
    · rw [hsel] at h2
      cases h2
      rw [h0, hdel, hcl]
      rfl
    · rw [hsel] at h2
      cases h2
      exact absurd hidx h3
  have hloop : searchLoop w b (fuel + 1) (initialState (initStart a b)) =
      some (some (initStart a b), { open_ := [], closed := [a.index], updateQueue := [] }) := by
    simp [searchLoop, hstep]
  have hfind := findNode_of_found hs he hloop
    (rfl : updateNodes a.index b.index w.tiles [] = Except.ok w.tiles)
  have hpar' : (initStart a b).parent = none := hpar
  have hpath : findPath (fuel + 1) w = some
      { found :=
          { ret := Returned.node (initStart a b), alerted := false,
            world := { w with
              start := some (initStart a b)
              tiles := w.tiles },
            search := some { open_ := [], closed := [a.index], updateQueue := [] } },
        onPath := pathMarks a.index (Returned.node (initStart a b)),
        tiles := (pathMarks a.index (Returned.node (initStart a b))).foldl
          (fun ts i => ts.set i { backgroundColor := Colour.plum }) w.tiles } := by
    simp only [findPath, hfind]
    rfl
  have hmarks : pathMarks a.index (Returned.node (initStart a b)) = [] := by
    simp [pathMarks, hpar']
  rw [hmarks] at hpath
  exact ⟨_, _, hfind, rfl, rfl, rfl, hidx.symm ▸ rfl, ⟨_, rfl, rfl, rfl, rfl⟩, rfl, hpath,
    rfl, rfl⟩

theorem C8_same_cell_returns_start_witness :
    (Node.new 3 4).index = (Node.new 3 4).index ∧
    ∃ r p, findNode 10 (mkWorld 3 [] 4 4) = some r ∧ r.alerted = false ∧
      r.ret = Returned.node (initStart (Node.new 3 4) (Node.new 3 4)) ∧
      (initStart (Node.new 3 4) (Node.new 3 4)).gCost = some 0 ∧
      (initStart (Node.new 3 4) (Node.new 3 4)).index = 4 ∧
      (∃ st, r.search = some st ∧ st.open_ = [] ∧ st.closed = [4] ∧ st.updateQueue = []) ∧
      r.world.tiles = mkTiles 3 [] ∧
      findPath 10 (mkWorld 3 [] 4 4) = some p ∧ p.onPath = [] ∧ p.tiles = mkTiles 3 [] :=
  ⟨rfl, C8_same_cell_returns_start (mkWorld 3 [] 4 4) (Node.new 3 4) (Node.new 3 4) 10
    rfl rfl rfl rfl (by decide)⟩

/-- C9: when the start or the end is not designated, `findNode` raises the
alert and returns `undefined` before any search work: the globals (hence
every node's `gCost`, `hCost` and `parent`) and all tiles are unchanged and
no loop state was created, whatever the fuel; `findPath` then marks no cell. -/
theorem C9_missing_endpoint (w : World) (fuel : Nat) (h : w.start = none ∨ w.end_ = none) :
    ∃ r p, findNode fuel w = some r ∧ r.ret = Returned.undefined ∧ r.alerted = true ∧
      r.world = w ∧ r.search.isNone = true ∧
      findPath fuel w = some p ∧ p.onPath = [] ∧ p.tiles = w.tiles ∧ p.found = r := by
  have hfind : findNode fuel w =
      some { ret := Returned.undefined, alerted := true, world := w, search := none } := by
    unfold findNode
    rcases h with h | h
    · rw [h]
    · rw [h]
      cases w.start <;> rfl
  have hpath : findPath fuel w = some
      { found := { ret := Returned.undefined, alerted := true, world := w, search := none },
        onPath := [], tiles := w.tiles } := by
    simp only [findPath, hfind]
    rfl
  exact ⟨_, _, hfind, rfl, rfl, rfl, rfl, hpath, rfl, rfl, rfl⟩

theorem C9_missing_endpoint_witness :
    (noStartWorld.start = none ∨ noStartWorld.end_ = none) ∧
    ∃ r p, findNode 10 noStartWorld = some r ∧ r.ret = Returned.undefined ∧ r.alerted = true ∧
      r.world = noStartWorld ∧ r.search.isNone = true ∧
      findPath 10 noStartWorld = some p ∧ p.onPath = [] ∧ p.tiles = noStartWorld.tiles ∧
      p.found = r :=
  ⟨Or.inl rfl, C9_missing_endpoint noStartWorld 10 (Or.inl rfl)⟩

theorem C4_unreachable_is_null_witness :
    ¬ Connected (mkWorld 3 [3, 4, 5] 0 8) 0 8 ∧
    ∃ r p, findNode 10 (mkWorld 3 [3, 4, 5] 0 8) = some r ∧ r.ret = Returned.null ∧
      r.alerted = false ∧ findPath 10 (mkWorld 3 [3, 4, 5] 0 8) = some p ∧ p.onPath = [] ∧
      p.tiles = mkTiles 3 [3, 4, 5] :=
  ⟨blocked_row_not_connected,
    C4_unreachable_is_null (mkWorld 3 [3, 4, 5] 0 8) (Node.new 3 0) (Node.new 3 8) 10 rfl rfl
      (Node.WF_new 3 0 (by decide)) blocked_row_not_connected (by decide)⟩

/-! ## The Manhattan heuristic -/

theorem adjacent_md_le {N i j : Nat} (e : Nat) (h : Adjacent N i j) :
    (Node.new N i).manhattanDistance (Node.new N e) ≤
      1 + (Node.new N j).manhattanDistance (Node.new N e) := by
  obtain ⟨_, _, hadj⟩ := h
  simp only [Node.manhattanDistance, Node.new]
  generalize i % N = xi at hadj ⊢
  generalize i / N = yi at hadj ⊢
  generalize j % N = xj at hadj ⊢
  generalize j / N = yj at hadj ⊢
  generalize e % N = xe
  generalize e / N = ye
  omega

theorem md_self (n : Node) : n.manhattanDistance n = 0 := by
  simp [Node.manhattanDistance]

theorem gridWalk_md_le (N : Nat) (e : Nat) :
    ∀ (cells : List Nat) (c : Nat), IsGridWalk N cells → cells.head? = some c →
      cells.getLast? = some e →
      (Node.new N c).manhattanDistance (Node.new N e) + 1 ≤ cells.length
  | [], c, _, hh, _ => by cases hh
  | [i], c, _, hh, hl => by
    simp only [List.head?_cons, Option.some.injEq] at hh
    simp only [List.getLast?_singleton, Option.some.injEq] at hl
    subst hh; subst hl
    simp [md_self]
  | i :: j :: rest, c, hw, hh, hl => by
    simp only [List.head?_cons, Option.some.injEq] at hh
    subst hh
    have hl' : (j :: rest).getLast? = some e := by
      rw [List.getLast?_cons_cons] at hl; exact hl
    have ih := gridWalk_md_le N e (j :: rest) j hw.2 rfl hl'
    have h1 := adjacent_md_le e hw.1
    simp only [List.length_cons] at ih ⊢
    omega

/-- C14: the Manhattan heuristic is consistent and admissible under unit
step cost: for cardinally adjacent cells `i` and `j` and any end cell `e`,
the distance from `i` to `e` is at most one more than that from `j`; the
distance from `e` to itself is 0; hence the distance from a cell `c` to `e`
never exceeds the number of steps of a 4-connected walk from `c` to `e`. -/
theorem C14_manhattan_consistent (N : Nat) :
    (∀ i j e, Adjacent N i j →
      (Node.new N i).manhattanDistance (Node.new N e) ≤
        1 + (Node.new N j).manhattanDistance (Node.new N e)) ∧
    (∀ e, (Node.new N e).manhattanDistance (Node.new N e) = 0) ∧
    (∀ cells c e, IsGridWalk N cells → cells.head? = some c → cells.getLast? = some e →
      (Node.new N c).manhattanDistance (Node.new N e) + 1 ≤ cells.length) :=
  ⟨fun _ _ e h => adjacent_md_le e h, fun _ => md_self _,
    fun cells c e hw hh hl => gridWalk_md_le N e cells c hw hh hl⟩

theorem C14_manhattan_consistent_witness :
    Adjacent 3 0 1 ∧ IsGridWalk 3 [0, 1, 4, 7, 8] ∧
    (Node.new 3 0).manhattanDistance (Node.new 3 8) ≤
      1 + (Node.new 3 1).manhattanDistance (Node.new 3 8) ∧
    (Node.new 3 0).manhattanDistance (Node.new 3 8) + 1 ≤ [0, 1, 4, 7, 8].length :=
  ⟨by decide, by decide, (C14_manhattan_consistent 3).1 0 1 8 (by decide),
    (C14_manhattan_consistent 3).2.2 [0, 1, 4, 7, 8] 0 8 (by decide) rfl rfl⟩

/-! ## Iterating the loop step -/

theorem runSteps_succ_of_expanded {w : World} {e : Node} {st st1 : SearchState} (k : Nat)
    (h : searchStep w e st = StepResult.expanded st1) :
    runSteps w e (k + 1) st = runSteps w e k st1 := by
  simp [runSteps, h]

theorem runSteps_of_returned {w : World} {e : Node} {st st1 : SearchState} {r : Option Node}
    (k : Nat) (h : searchStep w e st = StepResult.returned r st1) :
    runSteps w e k st = st := by
  cases k with
  | zero => rfl
  | succ k => simp [runSteps, h]

theorem runSteps_add (w : World) (e : Node) (j k : Nat) (st : SearchState) :
    runSteps w e (j + k) st = runSteps w e k (runSteps w e j st) := by
  induction j generalizing st with
  | zero => simp [runSteps]
  | succ j ih =>
    have hjk : j + 1 + k = (j + k) + 1 := by omega
    rw [hjk]
    cases hs : searchStep w e st with
    | returned r st1 =>
      rw [runSteps_of_returned _ hs, runSteps_of_returned _ hs, runSteps_of_returned _ hs]
    | expanded st1 =>
      rw [runSteps_succ_of_expanded _ hs, runSteps_succ_of_expanded _ hs, ih]
    | threw => exact absurd hs (searchStep_ne_threw w e st)

/-- An invariant of the expanding step holds in every state of the run. -/
theorem runSteps_invariant (w : World) (e : Node) (P : SearchState → Prop)
    (hstep : ∀ st st1, P st → searchStep w e st = StepResult.expanded st1 → P st1) :
    ∀ (k : Nat) (st : SearchState), P st → P (runSteps w e k st) := by
  intro k
  induction k with
  | zero => intro st h; exact h
  | succ k ih =>
    intro st h
    cases hs : searchStep w e st with
    | returned r st1 => rw [runSteps_of_returned _ hs]; exact h
    | expanded st1 => rw [runSteps_succ_of_expanded _ hs]; exact ih st1 (hstep st st1 h hs)
    | threw => exact absurd hs (searchStep_ne_threw w e st)

theorem InvBase.base_run {w : World} {a b : Node} (ha : a.WF w.size) (k : Nat) :
    InvBase w b (runSteps w b k (loopStart a b)) :=
  runSteps_invariant w b (InvBase w b) (fun _ _ h hs => (h.base_step hs).1) k _
    (InvBase.base_initial w a b ha)

/-- The loop returns what the first returning step of the run returns. -/
theorem searchLoop_of_runSteps (w : World) (e : Node) :
    ∀ (k fuel : Nat) (st st1 : SearchState) (r : Option Node), k < fuel →
      (∀ j < k, ∃ st2, searchStep w e (runSteps w e j st) = StepResult.expanded st2) →
      searchStep w e (runSteps w e k st) = StepResult.returned r st1 →
      searchLoop w e fuel st = some (r, st1) := by
  intro k
  induction k with
  | zero =>
    intro fuel st st1 r hk _ hret
    obtain ⟨f, rfl⟩ : ∃ f, fuel = f + 1 := ⟨fuel - 1, by omega⟩
    have hret' : searchStep w e st = StepResult.returned r st1 := hret
    simp [searchLoop, hret']
  | succ k ih =>
    intro fuel st st1 r hk hexp hret
    obtain ⟨f, rfl⟩ : ∃ f, fuel = f + 1 := ⟨fuel - 1, by omega⟩
    obtain ⟨st2, hs⟩ := hexp 0 (by omega)
    have hs' : searchStep w e st = StepResult.expanded st2 := hs
    have hrec := ih f st2 st1 r (by omega)
      (by
        intro j hj
        have := hexp (j + 1) (by omega)
        rw [runSteps_succ_of_expanded _ hs'] at this
        exact this)
      (by rw [runSteps_succ_of_expanded _ hs'] at hret; exact hret)
    simp [searchLoop, hs', hrec]

/-- From a state satisfying the base invariant the run reaches a returning
step, and each earlier step closed one more cell. -/
theorem exists_returning_step (w : World) (e : Node) :
    ∀ (n : Nat) (st : SearchState), InvBase w e st → w.size * w.size < n + st.closed.length →
      ∃ k r st1, (∀ j < k, ∃ st2, searchStep w e (runSteps w e j st) = StepResult.expanded st2) ∧
        searchStep w e (runSteps w e k st) = StepResult.returned r st1 ∧
        (runSteps w e k st).closed.length = st.closed.length + k := by
  intro n
  induction n with
  | zero =>
    intro st h hlt
    have := h.closed_length_le
    omega
  | succ n ih =>
    intro st h hlt
    cases hs : searchStep w e st with
    | returned r st1 => exact ⟨0, r, st1, by intro j hj; omega, hs, rfl⟩
    | expanded st1 =>
      obtain ⟨h1, hlen⟩ := h.base_step hs
      obtain ⟨k, r, st2, hexp, hret, hcl⟩ := ih st1 h1 (by omega)
      refine ⟨k + 1, r, st2, ?_, ?_, ?_⟩
      · intro j hj
        cases j with
        | zero => exact ⟨st1, hs⟩
        | succ j =>
          rw [runSteps_succ_of_expanded _ hs]
          exact hexp j (by omega)
      · rw [runSteps_succ_of_expanded _ hs]; exact hret
      · rw [runSteps_succ_of_expanded _ hs, hcl, hlen]; omega
    | threw => exact absurd hs (searchStep_ne_threw w e st)

theorem length_le_of_nodup_lt {l : List Nat} {M : Nat} (hn : l.Nodup) (hlt : ∀ i ∈ l, i < M) :
    l.length ≤ M := by
  have hsub : l.toFinset ⊆ Finset.range M := by
    intro i hi
    rw [List.mem_toFinset] at hi
    exact Finset.mem_range.2 (hlt i hi)
  have hcard := Finset.card_le_card hsub
  rw [List.toFinset_card_of_nodup hn, Finset.card_range] at hcard
  exact hcard

/-- An expanding iteration moves the selected cell from `open` to `closed`. -/
theorem InvBase.step_moves {w : World} {e : Node} {st st1 : SearchState} (h : InvBase w e st)
    (hs : searchStep w e st = StepResult.expanded st1) :
    ∃ c, selectBest st.open_ = some c ∧ (c.index, c) ∈ st.open_ ∧ c.index ∉ st.closed ∧
      st1.closed = st.closed ++ [c.index] ∧ st1.open_.has c.index = false := by
  rcases searchStep_cases w e st with ⟨_, h0⟩ | ⟨c, _, _, _, h0⟩ | ⟨c, app, _, hc, _, h0, happ, _⟩
  · rw [h0] at hs; cases hs
  · rw [h0] at hs; cases hs
  · rw [h0] at hs
    cases hs
    obtain ⟨hmem, _, _, _, hncl⟩ := h.selected hc
    refine ⟨c, hc, hmem, hncl, closedAdd_of_not_mem hncl, ?_⟩
    rw [OpenMap.has_eq_false_iff]
    intro n hn
    rcases List.mem_append.1 hn with hn | hn
    · exact ((OpenMap.mem_delete _ _ _).1 hn).2 rfl
    · obtain ⟨m', hm', heq⟩ := List.mem_map.1 hn
      obtain ⟨d, _, m, _, rfl, _, hnc, _⟩ := happ m' hm'
      have hidx : m.index = c.index := congrArg Prod.fst heq
      exact hnc ((mem_closedAdd _ _ _).2 (Or.inr hidx))

/-- C17: for every grid, start and end, the loop of `findNode` terminates:
each of the first `k` iterations moves the selected cell from `open` to
`closed`, which it was not in and which it never leaves, the next step
returns `null` or the end node, the number of iterations executed (the
length of `closed` at the return) is at most `size * size`, and the loop
returns that result for every fuel above `size * size`. -/
theorem C17_loop_terminates (w : World) (a b : Node) (ha : a.WF w.size) :
    ∃ k r st1,
      (∀ j < k, ∃ c, selectBest (runSteps w b j (loopStart a b)).open_ = some c ∧
        (c.index, c) ∈ (runSteps w b j (loopStart a b)).open_ ∧
        c.index ∉ (runSteps w b j (loopStart a b)).closed ∧
        (runSteps w b (j + 1) (loopStart a b)).closed =
          (runSteps w b j (loopStart a b)).closed ++ [c.index] ∧
        (runSteps w b (j + 1) (loopStart a b)).open_.has c.index = false) ∧
      searchStep w b (runSteps w b k (loopStart a b)) = StepResult.returned r st1 ∧
      (r = none ∨ ∃ c, r = some c ∧ c.index = b.index) ∧
      (r = none → st1.closed.length = k) ∧ (r ≠ none → st1.closed.length = k + 1) ∧
      st1.closed.length ≤ w.size * w.size ∧
      ∀ fuel, w.size * w.size < fuel → searchLoop w b fuel (loopStart a b) = some (r, st1) := by
  have hinit : InvBase w b (loopStart a b) := InvBase.base_initial w a b ha
  obtain ⟨k, r, st1, hexp, hret, hlen⟩ :=
    exists_returning_step w b (w.size * w.size + 1) (loopStart a b) hinit (by omega)
  have hk : (runSteps w b k (loopStart a b)).closed.length = k := by
    rw [hlen]; simp [loopStart, initialState]
  have hinvk := InvBase.base_run (b := b) ha k
  have hkle : k ≤ w.size * w.size := by
    have := hinvk.closed_length_le
    omega
  have hfinal : (r = none ∨ ∃ c, r = some c ∧ c.index = b.index) ∧
      (r = none → st1.closed.length = k) ∧ (r ≠ none → st1.closed.length = k + 1) ∧
      st1.closed.length ≤ w.size * w.size := by
    rcases searchStep_cases w b (runSteps w b k (loopStart a b)) with
      ⟨_, h0⟩ | ⟨c, _, hc, hidx, h0⟩ | ⟨c, app, _, _, _, h0, _⟩
    · rw [h0] at hret
      cases hret
      exact ⟨Or.inl rfl, fun _ => hk, fun h => absurd rfl h, by omega⟩
    · rw [h0] at hret
      cases hret
      obtain ⟨_, hwf, _, _, hncl⟩ := hinvk.selected hc
      have hcl := closedAdd_of_not_mem hncl
      have hlen1 : (closedAdd (runSteps w b k (loopStart a b)).closed c.index).length = k + 1 := by
        rw [hcl, List.length_append, hk]; rfl
      refine ⟨Or.inr ⟨c, rfl, hidx⟩, (fun h => by cases h), fun _ => hlen1, ?_⟩
      show (closedAdd (runSteps w b k (loopStart a b)).closed c.index).length ≤ _
      apply length_le_of_nodup_lt
      · rw [hcl]
        exact List.Nodup.append hinvk.closed_nodup (List.nodup_singleton _)
          (by
            intro i hi hi'
            rw [List.mem_singleton.1 hi'] at hi
            exact hncl hi)
      · intro i hi
        rcases (mem_closedAdd _ _ _).1 hi with hi | hi
        · exact hinvk.closed_lt i hi
        · rw [hi]; exact hwf.2.2
    · rw [h0] at hret; cases hret
  refine ⟨k, r, st1, ?_, hret, hfinal.1, hfinal.2.1, hfinal.2.2.1, hfinal.2.2.2, ?_⟩
  · intro j hj
    obtain ⟨st2, hs⟩ := hexp j hj
    obtain ⟨c, h1, h2, h3, h4, h5⟩ := (InvBase.base_run (b := b) ha j).step_moves hs
    have hnext : runSteps w b (j + 1) (loopStart a b) = st2 := by
      rw [runSteps_add, show runSteps w b 1 (runSteps w b j (loopStart a b)) = st2 from by
        simp [runSteps, hs]]
    rw [hnext]
    exact ⟨c, h1, h2, h3, h4, h5⟩
  · intro fuel hfuel
    exact searchLoop_of_runSteps w b k fuel _ st1 r (by omega) hexp hret

theorem C17_loop_terminates_witness :
    (Node.new 3 0).WF 3 ∧
    ∃ k r st1,
      (∀ j < k, ∃ c, selectBest (runSteps cornerWorld (Node.new 3 8) j
          (loopStart (Node.new 3 0) (Node.new 3 8))).open_ = some c ∧
        (c.index, c) ∈ (runSteps cornerWorld (Node.new 3 8) j
          (loopStart (Node.new 3 0) (Node.new 3 8))).open_ ∧
        c.index ∉ (runSteps cornerWorld (Node.new 3 8) j
          (loopStart (Node.new 3 0) (Node.new 3 8))).closed ∧
        (runSteps cornerWorld (Node.new 3 8) (j + 1)
          (loopStart (Node.new 3 0) (Node.new 3 8))).closed =
          (runSteps cornerWorld (Node.new 3 8) j
            (loopStart (Node.new 3 0) (Node.new 3 8))).closed ++ [c.index] ∧
        (runSteps cornerWorld (Node.new 3 8) (j + 1)
          (loopStart (Node.new 3 0) (Node.new 3 8))).open_.has c.index = false) ∧
      searchStep cornerWorld (Node.new 3 8) (runSteps cornerWorld (Node.new 3 8) k
        (loopStart (Node.new 3 0) (Node.new 3 8))) = StepResult.returned r st1 ∧
      (r = none ∨ ∃ c, r = some c ∧ c.index = (Node.new 3 8).index) ∧
      (r = none → st1.closed.length = k) ∧ (r ≠ none → st1.closed.length = k + 1) ∧
      st1.closed.length ≤ cornerWorld.size * cornerWorld.size ∧
      ∀ fuel, cornerWorld.size * cornerWorld.size < fuel →
        searchLoop cornerWorld (Node.new 3 8) fuel (loopStart (Node.new 3 0) (Node.new 3 8)) =
          some (r, st1) :=
  ⟨Node.WF_new 3 0 (by decide),
    C17_loop_terminates cornerWorld (Node.new 3 0) (Node.new 3 8) (Node.WF_new 3 0 (by decide))⟩

/-! ## Monotone `fCost` of the selected nodes -/

/-- After expanding the selected node `c`, every node of `open` has an
`fCost` at least that of `c`. -/
theorem InvBase.step_fCost_le {w : World} {e : Node} {st st1 : SearchState} {c : Node}
    (h : InvBase w e st) (hs : searchStep w e st = StepResult.expanded st1)
    (hc : selectBest st.open_ = some c) :
    ∃ f, c.getFCost = some f ∧ ∀ p ∈ st1.open_, ∃ fp, p.2.getFCost = some fp ∧ f ≤ fp := by
  have hscored : ∀ m ∈ st.open_.values, m.getFCost ≠ none := by
    intro m hm
    obtain ⟨key, hk⟩ := (mem_values_iff _ _).1 hm
    obtain ⟨_, _, hh, g, hg⟩ := h.entry _ hk
    rw [getFCost_of_costs hg hh]; simp
  rcases searchStep_cases w e st with ⟨_, h0⟩ | ⟨c', _, _, _, h0⟩ |
    ⟨c', app, hne, hc', _, h0, happ, _⟩
  · rw [h0] at hs; cases hs
  · rw [h0] at hs; cases hs
  · rw [h0] at hs
    cases hs
    have : c' = c := by rw [hc'] at hc; exact Option.some.inj hc
    subst this
    obtain ⟨n, pre, post, f, h1, h2, h3, h4, h5⟩ := selectBest_last_min st.open_ hne hscored
    have : n = c' := by rw [h1] at hc'; exact Option.some.inj hc'
    subst this
    obtain ⟨_, _, hh, ⟨g, hg⟩, _⟩ := h.selected hc'
    have hf : f = n.manhattanDistance e + g := by
      rw [getFCost_of_costs hg hh] at h3; exact (Option.some.inj h3).symm
    refine ⟨f, h3, ?_⟩
    intro p hp
    rcases List.mem_append.1 hp with hp | hp
    · have hin := ((OpenMap.mem_delete _ _ _).1 hp).1
      have hv : p.2 ∈ st.open_.values := (mem_values_iff _ _).2 ⟨p.1, hin⟩
      rw [h2] at hv
      rcases List.mem_append.1 hv with hv | hv
      · exact h4 _ hv
      · rcases List.mem_cons.1 hv with hv | hv
        · rw [hv]; exact ⟨f, h3, le_refl _⟩
        · obtain ⟨fm, e1, e2⟩ := h5 _ hv
          exact ⟨fm, e1, by omega⟩
    · obtain ⟨m', hm', rfl⟩ := List.mem_map.1 hp
      obtain ⟨d, hd, m, hoff, rfl, _, _, _⟩ := happ m' hm'
      have hg' : (assignCosts n e m).gCost = some (g + 1) := by simp [assignCosts, hg]
      have hh' : (assignCosts n e m).hCost = some (m.manhattanDistance e) := rfl
      refine ⟨_, getFCost_of_costs hg' hh', ?_⟩
      have := offset_md e hd hoff
      omega

theorem runSteps_one_of_expanded {w : World} {e : Node} {st st1 : SearchState}
    (h : searchStep w e st = StepResult.expanded st1) : runSteps w e 1 st = st1 := by
  simp [runSteps, h]

/-- The selected `fCost` does not decrease from one state of the run to the
next. -/
theorem selected_fCost_succ {w : World} {a b : Node} (ha : a.WF w.size) (k : Nat) {c c1 : Node}
    (hc : selectBest (runSteps w b k (loopStart a b)).open_ = some c)
    (hc1 : selectBest (runSteps w b (k + 1) (loopStart a b)).open_ = some c1) :
    ∃ f f1, c.getFCost = some f ∧ c1.getFCost = some f1 ∧ f ≤ f1 := by
  have hinv := InvBase.base_run (b := b) ha k
  rw [runSteps_add] at hc1
  cases hs : searchStep w b (runSteps w b k (loopStart a b)) with
  | returned r st1 =>
    rw [runSteps_of_returned _ hs, hc] at hc1
    cases hc1
    obtain ⟨_, _, hh, ⟨g, hg⟩, _⟩ := hinv.selected hc
    exact ⟨_, _, getFCost_of_costs hg hh, getFCost_of_costs hg hh, le_refl _⟩
  | expanded st1 =>
    rw [runSteps_one_of_expanded hs] at hc1
    obtain ⟨f, hf, hall⟩ := hinv.step_fCost_le hs hc
    obtain ⟨key, hk⟩ := (mem_values_iff _ _).1 (selectBest_mem hc1)
    obtain ⟨f1, hf1, hle⟩ := hall _ hk
    exact ⟨f, f1, hf, hf1, hle⟩
  | threw => exact absurd hs (searchStep_ne_threw w b _)

theorem selectBest_nil : selectBest [] = none := rfl

/-- If a state of the run has a selected node, so has the state before it. -/
theorem selected_of_succ {w : World} {b : Node} (st : SearchState) {c1 : Node}
    (hc1 : selectBest (runSteps w b 1 st).open_ = some c1) :
    ∃ c, selectBest st.open_ = some c := by
  by_cases hne : st.open_ = []
  · rcases searchStep_cases w b st with ⟨_, h0⟩ | ⟨c, h1, _⟩ | ⟨c, app, h1, _⟩
    · rw [runSteps_of_returned _ h0, hne] at hc1
      cases hc1
    · exact absurd hne h1
    · exact absurd hne h1
  · exact selectBest_isSome_of_ne_nil _ hne

theorem selected_fCost_mono {w : World} {a b : Node} (ha : a.WF w.size) (j : Nat) :
    ∀ (d : Nat) (c c1 : Node), selectBest (runSteps w b j (loopStart a b)).open_ = some c →
      selectBest (runSteps w b (j + d) (loopStart a b)).open_ = some c1 →
      ∃ f f1, c.getFCost = some f ∧ c1.getFCost = some f1 ∧ f ≤ f1 := by
  intro d
  induction d with
  | zero =>
    intro c c1 hc hc1
    rw [Nat.add_zero, hc] at hc1
    cases hc1
    obtain ⟨_, _, hh, ⟨g, hg⟩, _⟩ := (InvBase.base_run (b := b) ha j).selected hc
    exact ⟨_, _, getFCost_of_costs hg hh, getFCost_of_costs hg hh, le_refl _⟩
  | succ d ih =>
    intro c c1 hc hc1
    have hc1' : selectBest (runSteps w b (j + d + 1) (loopStart a b)).open_ = some c1 := hc1
    have hmid : ∃ cm, selectBest (runSteps w b (j + d) (loopStart a b)).open_ = some cm := by
      rw [runSteps_add w b (j + d) 1] at hc1'
      exact selected_of_succ _ hc1'
    obtain ⟨cm, hcm⟩ := hmid
    obtain ⟨f, fm, h1, h2, h3⟩ := ih c cm hc hcm
    obtain ⟨fm', f1, h4, h5, h6⟩ := selected_fCost_succ ha (j + d) hcm hc1'
    rw [h2] at h4
    cases h4
    exact ⟨f, f1, h1, h5, by omega⟩

/-- C18: the `fCost` values of the nodes successively selected by `findNode`
are non-decreasing.  When the node `c` selected in a state of the run is
expanded, every node of `open` afterwards, in particular every node inserted
by that expansion, has `fCost` at least that of `c`; and a node selected in
a later state never has a smaller `fCost` than one selected earlier. -/
theorem C18_selected_fCost_monotone (w : World) (a b : Node) (ha : a.WF w.size) :
    (∀ k st1 c, searchStep w b (runSteps w b k (loopStart a b)) = StepResult.expanded st1 →
      selectBest (runSteps w b k (loopStart a b)).open_ = some c →
      ∃ f, c.getFCost = some f ∧ ∀ p ∈ st1.open_, ∃ fp, p.2.getFCost = some fp ∧ f ≤ fp) ∧
    (∀ j k c c1, j ≤ k → selectBest (runSteps w b j (loopStart a b)).open_ = some c →
      selectBest (runSteps w b k (loopStart a b)).open_ = some c1 →
      ∃ f f1, c.getFCost = some f ∧ c1.getFCost = some f1 ∧ f ≤ f1) := by
  refine ⟨?_, ?_⟩
  · intro k st1 c hs hc
    exact (InvBase.base_run (b := b) ha k).step_fCost_le hs hc
  · intro j k c c1 hjk hc hc1
    obtain ⟨d, rfl⟩ : ∃ d, k = j + d := ⟨k - j, by omega⟩
    exact selected_fCost_mono ha j d c c1 hc hc1

theorem C18_selected_fCost_monotone_witness :
    (Node.new 3 0).WF 3 ∧
    ∀ c c1, selectBest (cornerState 0).open_ = some c →
      selectBest (cornerState 3).open_ = some c1 →
      ∃ f f1, c.getFCost = some f ∧ c1.getFCost = some f1 ∧ f ≤ f1 :=
  ⟨Node.WF_new 3 0 (by decide), fun c c1 =>
    (C18_selected_fCost_monotone cornerWorld (Node.new 3 0) (Node.new 3 8)
      (Node.WF_new 3 0 (by decide))).2 0 3 c c1 (by decide)⟩

/-! ## More on the expansion: distinct keys and offset order -/

theorem keys_append (o o' : OpenMap) :
    (o ++ o').map Prod.fst = o.map Prod.fst ++ o'.map Prod.fst := by
  simp

theorem keys_entriesOf (app : List Node) :
    (entriesOf app).map Prod.fst = app.map (fun n => n.index) := by
  simp [entriesOf, Function.comp_def]

theorem mem_keys_iff (o : OpenMap) (k : Nat) : k ∈ o.map Prod.fst ↔ o.has k = true := by
  rw [OpenMap.has_eq_true_iff]
  simp

theorem foldl_visitNeighbor_keys_nodup (w : World) (e : Node) (closed : List Nat) (c : Node)
    (ds : List (Int × Int)) (o : OpenMap) (q : List Node) (h : (o.map Prod.fst).Nodup) :
    ((ds.foldl (visitNeighbor w e closed c) (o, q)).1.map Prod.fst).Nodup := by
  induction ds generalizing o q with
  | nil => exact h
  | cons d ds ih =>
    rw [List.foldl_cons]
    rcases visitNeighbor_cases w e closed c o q d with ⟨hv, _⟩ | ⟨m, _, _, _, hhas, hv⟩
    · rw [hv]; exact ih o q h
    · rw [hv]
      apply ih
      rw [keys_append]
      apply List.Nodup.append h (List.nodup_singleton _)
      intro i hi hi'
      have : i = m.index := by simpa using hi'
      subst this
      rw [mem_keys_iff, hhas] at hi
      cases hi

/-- The nodes one expansion appends to `updateQueue` follow the order of the
offsets they were found for. -/
theorem foldl_visitNeighbor_order (w : World) (e : Node) (closed : List Nat) (c : Node)
    (ds : List (Int × Int)) (o : OpenMap) (q : List Node) :
    ∃ used app, List.Sublist used ds ∧ List.Forall₂ (AppendedFor w e c) used app ∧
      (ds.foldl (visitNeighbor w e closed c) (o, q)).2 = q ++ app := by
  induction ds generalizing o q with
  | nil => exact ⟨[], [], List.Sublist.slnil, List.Forall₂.nil, by simp⟩
  | cons d ds ih =>
    rw [List.foldl_cons]
    rcases visitNeighbor_cases w e closed c o q d with ⟨hv, _⟩ | ⟨m, hoff, _, _, _, hv⟩
    · rw [hv]
      obtain ⟨used, app, h1, h2, h3⟩ := ih o q
      exact ⟨used, app, List.Sublist.cons d h1, h2, h3⟩
    · rw [hv]
      obtain ⟨used, app, h1, h2, h3⟩ :=
        ih (o ++ [(m.index, assignCosts c e m)]) (q ++ [assignCosts c e m])
      refine ⟨d :: used, assignCosts c e m :: app, List.Sublist.cons₂ d h1,
        List.Forall₂.cons ⟨m, hoff, rfl⟩ h2, ?_⟩
      rw [h3]; simp

/-- Everything known about an expanding iteration. -/
theorem searchStep_expanded {w : World} {e : Node} {st st1 : SearchState}
    (hs : searchStep w e st = StepResult.expanded st1) :
    ∃ c app, st.open_ ≠ [] ∧ selectBest st.open_ = some c ∧ c.index ≠ e.index ∧
      st1.open_ = st.open_.delete c.index ++ entriesOf app ∧
      st1.closed = closedAdd st.closed c.index ∧
      st1.updateQueue = st.updateQueue ++ app ∧
      (∀ m' ∈ app, ∃ d ∈ offsets, ∃ m, c.offset w.size d.1 d.2 = some m ∧
        m' = assignCosts c e m ∧ isObstructed (w.element m.index) = false ∧
        m.index ∉ closedAdd st.closed c.index ∧
        (st.open_.delete c.index).has m.index = false) ∧
      (∀ d ∈ offsets, ∀ m, c.offset w.size d.1 d.2 = some m →
        isObstructed (w.element m.index) = false →
        m.index ∉ closedAdd st.closed c.index →
        (st.open_.delete c.index ++ entriesOf app).has m.index = true) ∧
      ((st.open_.map Prod.fst).Nodup → (st1.open_.map Prod.fst).Nodup) ∧
      (∃ used, List.Sublist used offsets ∧ List.Forall₂ (AppendedFor w e c) used app) := by
  by_cases hne : st.open_ = []
  · have : searchStep w e st = StepResult.returned none st := by simp [searchStep, hne]
    rw [this] at hs; cases hs
  · obtain ⟨c, hc⟩ := selectBest_isSome_of_ne_nil st.open_ hne
    have hlen : st.open_.length > 0 := List.length_pos.2 hne
    by_cases hend : c.index = e.index
    · have : searchStep w e st = StepResult.returned (some c)
          { open_ := st.open_.delete c.index, closed := closedAdd st.closed c.index,
            updateQueue := st.updateQueue } := by
        simp [searchStep, hlen, hc, hend]
      rw [this] at hs; cases hs
    · obtain ⟨app, h1, h2, h3⟩ := foldl_visitNeighbor_spec w e (closedAdd st.closed c.index) c
        offsets (st.open_.delete c.index) st.updateQueue
      obtain ⟨used, app', g1, g2, g3⟩ := foldl_visitNeighbor_order w e
        (closedAdd st.closed c.index) c offsets (st.open_.delete c.index) st.updateQueue
      have hkeys := foldl_visitNeighbor_keys_nodup w e (closedAdd st.closed c.index) c
        offsets (st.open_.delete c.index) st.updateQueue
      have happ : app' = app := by
        rw [h1] at g3
        exact (List.append_cancel_left g3).symm
      subst happ
      simp only [searchStep, hlen, hc, hend, if_true, if_false, expand] at hs
      cases hs
      refine ⟨c, app', hne, hc, hend, ?_, rfl, ?_, h2, h3, ?_, used, g1, g2⟩
      · simp only [h1]
      · simp only [h1]
      · intro hn
        apply hkeys
        have hsub : List.Sublist ((st.open_.delete c.index).map Prod.fst)
            (st.open_.map Prod.fst) :=
          List.Sublist.map _ (List.filter_sublist _)
        exact List.Nodup.sublist hsub hn

/-! ## The queue invariant -/

theorem has_delete_iff (o : OpenMap) (k i : Nat) :
    (o.delete k).has i = true ↔ o.has i = true ∧ i ≠ k := by
  rw [OpenMap.has_eq_true_iff, OpenMap.has_eq_true_iff]
  constructor
  · rintro ⟨n, hn⟩
    obtain ⟨h1, h2⟩ := (OpenMap.mem_delete _ _ _).1 hn
    exact ⟨⟨n, h1⟩, h2⟩
  · rintro ⟨⟨n, hn⟩, hne⟩
    exact ⟨n, (OpenMap.mem_delete _ _ _).2 ⟨hn, hne⟩⟩

theorem has_entriesOf_iff (app : List Node) (i : Nat) :
    (entriesOf app).has i = true ↔ i ∈ app.map (fun n => n.index) := by
  rw [← mem_keys_iff, keys_entriesOf]

theorem Discovered.discovered_mono {w : World} {a b : Node} {st st1 : SearchState} {n : Node}
    (h : Discovered w a b st n) (hcl : ∀ i ∈ st.closed, i ∈ st1.closed)
    (hq : ∀ m ∈ st.updateQueue, m ∈ st1.updateQueue) : Discovered w a b st1 n := by
  obtain ⟨h1, h2, ⟨p, g, e1, e2, e3, e4, e5, e6⟩, h4⟩ := h
  refine ⟨h1, h2, ⟨p, g, e1, hcl _ e2, e3, e4, e5, ?_⟩, h4⟩
  rcases e6 with e6 | e6
  · exact Or.inl e6
  · exact Or.inr (hq _ e6)

theorem InvQueue.queue_initial (w : World) (a b : Node) (ha : a.WF w.size) :
    InvQueue w a b (loopStart a b) := by
  have hopen : (loopStart a b).open_ = [((initStart a b).index, initStart a b)] :=
    initialState_open _
  refine ⟨InvBase.base_initial w a b ha, ?_, ?_, ?_, ?_, ?_⟩
  · rw [hopen]; simp
  · rw [hopen]
    show List.Sublist [initStart a b] (initStart a b :: [])
    exact List.Sublist.refl _
  · intro i
    rw [hopen]
    show i ∈ a.index :: [] ↔ i ∈ ([] : List Nat) ∨ _
    simp [OpenMap.has, initStart, eq_comm]
  · show (a.index :: ([] : List Nat)).Nodup
    simp
  · intro n hn
    cases hn

theorem InvQueue.selected_mem {w : World} {a b : Node} {st : SearchState} {c : Node}
    (h : InvQueue w a b st) (hc : selectBest st.open_ = some c) :
    c ∈ initStart a b :: st.updateQueue :=
  h.sublist.subset (selectBest_mem hc)

theorem InvQueue.queue_step {w : World} {a b : Node} {st st1 : SearchState}
    (h : InvQueue w a b st) (hs : searchStep w b st = StepResult.expanded st1) :
    InvQueue w a b st1 := by
  obtain ⟨c, app, _, hc, _, ho, hcl, hq, happ, _, hkeys, _⟩ := searchStep_expanded hs
  obtain ⟨hmem, hwf, _, ⟨g, hg⟩, hncl⟩ := h.base.selected hc
  have hhasc : st.open_.has c.index = true := (OpenMap.has_eq_true_iff _ _).2 ⟨c, hmem⟩
  have hcmem := h.selected_mem hc
  have hkeys1 := hkeys h.keys_nodup
  have happidx : ∀ i ∈ app.map (fun n => n.index), i ∉ closedAdd st.closed c.index ∧
      (st.open_.delete c.index).has i = false := by
    intro i hi
    obtain ⟨m', hm', rfl⟩ := List.mem_map.1 hi
    obtain ⟨d, _, m, _, rfl, _, h1, h2⟩ := happ m' hm'
    exact ⟨h1, h2⟩
  refine ⟨(h.base.base_step hs).1, hkeys1, ?_, ?_, ?_, ?_⟩
  · rw [ho, hq, values_append, values_entriesOf]
    have h1 : List.Sublist (st.open_.delete c.index).values st.open_.values :=
      List.Sublist.map _ (List.filter_sublist _)
    exact List.Sublist.append (h1.trans h.sublist) (List.Sublist.refl app)
  · intro i
    rw [ho, hq, hcl, OpenMap.has_append, Bool.or_eq_true, has_delete_iff, has_entriesOf_iff,
      mem_closedAdd, List.map_append, ← List.cons_append, List.mem_append]
    have hseen := h.seen i
    constructor
    · rintro (hi | hi)
      · rcases hseen.1 hi with h1 | h1
        · exact Or.inl (Or.inl h1)
        · by_cases hic : i = c.index
          · exact Or.inl (Or.inr hic)
          · exact Or.inr (Or.inl ⟨h1, hic⟩)
      · exact Or.inr (Or.inr hi)
    · rintro ((h1 | h1) | (⟨h1, _⟩ | h1))
      · exact Or.inl (hseen.2 (Or.inl h1))
      · rw [h1]; exact Or.inl ((h.seen c.index).2 (Or.inr hhasc))
      · exact Or.inl (hseen.2 (Or.inr h1))
      · exact Or.inr h1
  · rw [hq, List.map_append, ← List.cons_append]
    apply List.Nodup.append h.queue_nodup
    · rw [ho, keys_append, keys_entriesOf] at hkeys1
      exact List.Nodup.of_append_right hkeys1
    · intro i hi hi'
      obtain ⟨h1, h2⟩ := happidx i hi'
      rcases (h.seen i).1 hi with h3 | h3
      · exact h1 ((mem_closedAdd _ _ _).2 (Or.inl h3))
      · by_cases hic : i = c.index
        · exact h1 ((mem_closedAdd _ _ _).2 (Or.inr hic))
        · rw [(has_delete_iff _ _ _).2 ⟨h3, hic⟩] at h2
          cases h2
  · intro n hn
    rw [hq] at hn
    have hclmono : ∀ i ∈ st.closed, i ∈ st1.closed := by
      intro i hi; rw [hcl]; exact (mem_closedAdd _ _ _).2 (Or.inl hi)
    have hqmono : ∀ m ∈ st.updateQueue, m ∈ st1.updateQueue := by
      intro m hm; rw [hq]; exact List.mem_append_left _ hm
    rcases List.mem_append.1 hn with hn | hn
    · exact (h.discovered n hn).discovered_mono hclmono hqmono
    · obtain ⟨d, hd, m, hoff, rfl, hfree, _, _⟩ := happ n hn
      refine ⟨assignCosts_WF c b m (Node.offset_WF hoff), hfree, ⟨c, g, rfl, ?_, ?_, hg, ?_, ?_⟩,
        rfl⟩
      · rw [hcl]; exact (mem_closedAdd _ _ _).2 (Or.inr rfl)
      · exact (offset_adjacent hwf hd hoff : Adjacent w.size c.index m.index)
      · simp [assignCosts, hg]
      · rcases List.mem_cons.1 hcmem with h1 | h1
        · exact Or.inl h1
        · exact Or.inr (hqmono _ h1)

theorem InvQueue.queue_run {w : World} {a b : Node} (ha : a.WF w.size) (k : Nat) :
    InvQueue w a b (runSteps w b k (loopStart a b)) :=
  runSteps_invariant w b (InvQueue w a b) (fun _ _ h hs => h.queue_step hs) k _
    (InvQueue.queue_initial w a b ha)

/-! ## Partition of the discovered cells, and the discovery sequence -/

theorem runSteps_closed_mono (w : World) (e : Node) (k : Nat) (st : SearchState) :
    ∀ i ∈ st.closed, i ∈ (runSteps w e k st).closed :=
  runSteps_invariant w e (fun st' => ∀ i ∈ st.closed, i ∈ st'.closed)
    (fun s s1 h hs i hi => by
      obtain ⟨c, app, _, _, _, _, hcl, _⟩ := searchStep_expanded hs
      rw [hcl]
      exact (mem_closedAdd _ _ _).2 (Or.inl (h i hi)))
    k st (fun _ hi => hi)

theorem InvBase.closed_not_open {w : World} {e : Node} {st : SearchState} (h : InvBase w e st)
    {i : Nat} (hi : i ∈ st.closed) : st.open_.has i = false := by
  rw [OpenMap.has_eq_false_iff]
  intro n hn
  exact h.disjoint _ hn hi

/-- C11: at the top of every iteration of `findNode`'s loop no closed index
is a key of `open`, the keys of `open` are pairwise distinct (each entry keyed
by its node's index), and every index closed by then is still closed and not
a key of `open` at the top of every later iteration. -/
theorem C11_open_closed_partition (w : World) (a b : Node) (ha : a.WF w.size) (k : Nat) :
    (∀ i ∈ (stateAt w a b k).closed, (stateAt w a b k).open_.has i = false) ∧
    ((stateAt w a b k).open_.map Prod.fst).Nodup ∧
    (∀ p ∈ (stateAt w a b k).open_, p.1 = p.2.index) ∧
    (∀ j, k ≤ j → ∀ i ∈ (stateAt w a b k).closed,
      i ∈ (stateAt w a b j).closed ∧ (stateAt w a b j).open_.has i = false) := by
  have hk := InvQueue.queue_run (b := b) ha k
  refine ⟨fun i hi => hk.base.closed_not_open hi, hk.keys_nodup,
    fun p hp => (hk.base.entry p hp).1, ?_⟩
  intro j hkj i hi
  obtain ⟨d, rfl⟩ : ∃ d, j = k + d := ⟨j - k, by omega⟩
  have hmem : i ∈ (stateAt w a b (k + d)).closed := by
    unfold stateAt
    rw [runSteps_add]
    exact runSteps_closed_mono w b d _ i hi
  exact ⟨hmem, (InvQueue.queue_run (b := b) ha (k + d)).base.closed_not_open hmem⟩

theorem C11_open_closed_partition_witness :
    (Node.new 5 0).WF 5 ∧
    ((stateAt detourWorld (Node.new 5 0) (Node.new 5 9) 4).open_.map Prod.fst).Nodup ∧
    (∀ i ∈ (stateAt detourWorld (Node.new 5 0) (Node.new 5 9) 4).closed,
      (stateAt detourWorld (Node.new 5 0) (Node.new 5 9) 4).open_.has i = false) ∧
    (∀ j, 4 ≤ j → ∀ i ∈ (stateAt detourWorld (Node.new 5 0) (Node.new 5 9) 4).closed,
      i ∈ (stateAt detourWorld (Node.new 5 0) (Node.new 5 9) j).closed ∧
      (stateAt detourWorld (Node.new 5 0) (Node.new 5 9) j).open_.has i = false) :=
  ⟨Node.WF_new 5 0 (by decide),
    (C11_open_closed_partition detourWorld (Node.new 5 0) (Node.new 5 9)
      (Node.WF_new 5 0 (by decide)) 4).2.1,
    (C11_open_closed_partition detourWorld (Node.new 5 0) (Node.new 5 9)
      (Node.WF_new 5 0 (by decide)) 4).1,
    (C11_open_closed_partition detourWorld (Node.new 5 0) (Node.new 5 9)
      (Node.WF_new 5 0 (by decide)) 4).2.2.2⟩

/-- The loop returned from some state of the run. -/
theorem searchLoop_some_runSteps (w : World) (e : Node) :
    ∀ (fuel : Nat) (st st1 : SearchState) (r : Option Node),
      searchLoop w e fuel st = some (r, st1) →
      ∃ k, searchStep w e (runSteps w e k st) = StepResult.returned r st1 := by
  intro fuel
  induction fuel with
  | zero => intro st st1 r h; simp [searchLoop] at h
  | succ fuel ih =>
    intro st st1 r h
    cases hs : searchStep w e st with
    | returned r' st' =>
      simp only [searchLoop, hs, Option.some.injEq, Prod.mk.injEq] at h
      obtain ⟨rfl, rfl⟩ := h
      exact ⟨0, hs⟩
    | expanded st' =>
      simp only [searchLoop, hs] at h
      obtain ⟨k, hk⟩ := ih st' st1 r h
      exact ⟨k + 1, by rw [runSteps_succ_of_expanded _ hs]; exact hk⟩
    | threw => simp [searchLoop, hs] at h

/-- What `findNode` ended with, in terms of the loop. -/
theorem findNode_some {w : World} {a b : Node} {fuel : Nat} {r : FindResult}
    (hs : w.start = some a) (he : w.end_ = some b) (h : findNode fuel w = some r) :
    ∃ ro st1, searchLoop w b fuel (loopStart a b) = some (ro, st1) ∧ r.search = some st1 ∧
      (∀ c, r.ret = Returned.node c → ro = some c) ∧
      r.world.start = some (initStart a b) := by
  cases hloop : searchLoop w b fuel (loopStart a b) with
  | none =>
    have hloop' : searchLoop w b fuel (initialState (initStart a b)) = none := hloop
    simp [findNode, hs, he, hloop'] at h
  | some res =>
    obtain ⟨ro, st1⟩ := res
    have hloop' : searchLoop w b fuel (initialState (initStart a b)) = some (ro, st1) := hloop
    cases ro with
    | none =>
      rw [findNode_of_null hs he hloop] at h
      cases h
      exact ⟨none, st1, rfl, rfl, (fun c hc => by cases hc), rfl⟩
    | some c =>
      cases hu : updateNodes (initStart a b).index b.index w.tiles st1.updateQueue with
      | ok ts =>
        rw [findNode_of_found hs he hloop hu] at h
        cases h
        exact ⟨some c, st1, rfl, rfl, (fun c' hc => by cases hc; rfl), rfl⟩
      | error ts =>
        simp only [findNode, hs, he, hloop', hu] at h
        cases h
        exact ⟨some c, st1, rfl, rfl, (fun c' hc => by cases hc), rfl⟩

/-- Every node of the queue the loop ends with is an in-bounds free cell. -/
theorem loop_queue_facts {w : World} {a b : Node} {fuel : Nat} {ro : Option Node}
    {st1 : SearchState} (ha : a.WF w.size)
    (hloop : searchLoop w b fuel (loopStart a b) = some (ro, st1)) :
    ∀ n ∈ st1.updateQueue,
      n.index < w.size * w.size ∧ isObstructed (w.element n.index) = false := by
  obtain ⟨k, hk⟩ := searchLoop_some_runSteps w b fuel _ _ _ hloop
  have hq : st1.updateQueue = (runSteps w b k (loopStart a b)).updateQueue := by
    rcases searchStep_returned hk with ⟨_, _, h1⟩ | ⟨_, _, _, _, _, h1⟩
    · rw [h1]
    · exact h1
  intro n hn
  rw [hq] at hn
  have := (InvQueue.queue_run (b := b) ha k).discovered n hn
  exact ⟨this.wf.2.2, this.free⟩

/-- On a grid that holds a tile for every in-bounds index, `updateNodes` does
not throw and `findNode` returns the node the loop returned. -/
theorem findNode_found_of_tiles {w : World} {a b c : Node} {fuel : Nat} {st : SearchState}
    (hs : w.start = some a) (he : w.end_ = some b) (ha : a.WF w.size)
    (htiles : w.size * w.size ≤ w.tiles.length)
    (hloop : searchLoop w b fuel (loopStart a b) = some (some c, st)) :
    ∃ ts, updateNodes a.index b.index w.tiles st.updateQueue = Except.ok ts ∧
      ts.length = w.tiles.length ∧
      findNode fuel w = some
        { ret := Returned.node c, alerted := false,
          world := { w with
            start := some (initStart a b)
            tiles := ts },
          search := some st } := by
  obtain ⟨ts, h1, h2⟩ := updateNodes_ok_of_lt a.index b.index st.updateQueue w.tiles
    (fun n hn => Nat.lt_of_lt_of_le (loop_queue_facts ha hloop n hn).1 htiles)
  exact ⟨ts, h1, h2, findNode_of_found hs he hloop h1⟩

/-- C13: at the top of every iteration `updateQueue` lists, without
repetition, exactly the cells other than start that are closed or in `open`
(the cells ever put into `open`); every listed cell is in bounds and free;
`open` keeps its nodes in the order of the queue; an expanding iteration
appends to `updateQueue` and to `open` the same nodes, found for a
subsequence of the offsets `(1,0), (0,1), (-1,0), (0,-1)` in that order; and
the queue `findNode` ends with is the queue of one of these states. -/
theorem C13_discovery_sequence (w : World) (a b : Node) (hs : w.start = some a)
    (he : w.end_ = some b) (ha : a.WF w.size) (k : Nat) :
    ((stateAt w a b k).updateQueue.map (fun n => n.index)).Nodup ∧
    a.index ∉ (stateAt w a b k).updateQueue.map (fun n => n.index) ∧
    (∀ n ∈ (stateAt w a b k).updateQueue,
      n.index < w.size * w.size ∧ isObstructed (w.element n.index) = false) ∧
    (∀ i, i ∈ (stateAt w a b k).updateQueue.map (fun n => n.index) ↔
      i ≠ a.index ∧ (i ∈ (stateAt w a b k).closed ∨ (stateAt w a b k).open_.has i = true)) ∧
    List.Sublist (stateAt w a b k).open_.values (initStart a b :: (stateAt w a b k).updateQueue) ∧
    (∀ st1, searchStep w b (stateAt w a b k) = StepResult.expanded st1 →
      ∃ c used app, selectBest (stateAt w a b k).open_ = some c ∧
        List.Sublist used offsets ∧ List.Forall₂ (AppendedFor w b c) used app ∧
        st1.updateQueue = (stateAt w a b k).updateQueue ++ app ∧
        st1.open_ = (stateAt w a b k).open_.delete c.index ++ entriesOf app) ∧
    (∀ fuel r st, findNode fuel w = some r → r.search = some st →
      ∃ j, st.updateQueue = (stateAt w a b j).updateQueue) := by
  have hk := InvQueue.queue_run (b := b) ha k
  have hnd := List.nodup_cons.1 hk.queue_nodup
  refine ⟨hnd.2, hnd.1, ?_, ?_, hk.sublist, ?_, ?_⟩
  · intro n hn
    have := hk.discovered n hn
    exact ⟨this.wf.2.2, this.free⟩
  · intro i
    constructor
    · intro hi
      refine ⟨?_, (hk.seen i).1 (List.mem_cons_of_mem _ hi)⟩
      intro hia
      rw [hia] at hi
      exact hnd.1 hi
    · rintro ⟨hne, hi⟩
      rcases List.mem_cons.1 ((hk.seen i).2 hi) with h1 | h1
      · exact absurd h1 hne
      · exact h1
  · intro st1 hstep
    obtain ⟨c, app, _, hc, _, ho, _, hq, _, _, _, used, hu1, hu2⟩ := searchStep_expanded hstep
    exact ⟨c, used, app, hc, hu1, hu2, hq, ho⟩
  · intro fuel r st hfind hsearch
    obtain ⟨ro, st1, hloop, hsr, _⟩ := findNode_some hs he hfind
    rw [hsr] at hsearch
    cases hsearch
    obtain ⟨j, hj⟩ := searchLoop_some_runSteps w b fuel _ _ _ hloop
    refine ⟨j, ?_⟩
    rcases searchStep_returned hj with ⟨_, _, h1⟩ | ⟨_, _, _, _, _, h1⟩
    · rw [h1]; rfl
    · exact h1

theorem C13_discovery_sequence_witness :
    detourWorld.start = some (Node.new 5 0) ∧ detourWorld.end_ = some (Node.new 5 9) ∧
    (Node.new 5 0).WF 5 ∧
    (stateAt detourWorld (Node.new 5 0) (Node.new 5 9) 5).updateQueue.map (fun n => n.index)
      = [1, 5, 6, 10, 7, 11, 12, 2] ∧
    ((stateAt detourWorld (Node.new 5 0) (Node.new 5 9) 5).updateQueue.map
      (fun n => n.index)).Nodup ∧
    (∀ n ∈ (stateAt detourWorld (Node.new 5 0) (Node.new 5 9) 5).updateQueue,
      n.index < detourWorld.size * detourWorld.size ∧
      isObstructed (detourWorld.element n.index) = false) :=
  ⟨rfl, rfl, Node.WF_new 5 0 (by decide), by decide,
    (C13_discovery_sequence detourWorld (Node.new 5 0) (Node.new 5 9) rfl rfl
      (Node.WF_new 5 0 (by decide)) 5).1,
    (C13_discovery_sequence detourWorld (Node.new 5 0) (Node.new 5 9) rfl rfl
      (Node.WF_new 5 0 (by decide)) 5).2.2.1⟩

/-! ## Runs that return a node -/

/-- C3: on a grid that holds a tile for every in-bounds index, whenever some
sequence of cardinal moves over in-bounds unobstructed cells leads from the
start cell to the end cell, `findNode` does not end in the exhausted outcome:
within `size * size + 1` iterations it returns a non-null node whose index is
`end.index`. -/
theorem C3_reachable_is_found (w : World) (a b : Node) (fuel : Nat)
    (hs : w.start = some a) (he : w.end_ = some b) (ha : a.WF w.size)
    (htiles : w.size * w.size ≤ w.tiles.length)
    (hconn : Connected w a.index b.index) (hfuel : w.size * w.size < fuel) :
    ∃ r n, findNode fuel w = some r ∧ r.ret = Returned.node n ∧ r.alerted = false ∧
      n.index = b.index := by
  obtain ⟨r, st0, st1, hloop, hinv, hret⟩ :=
    searchLoop_returns w b (InvComplete w a b) (fun _ h => h.1)
      (fun _ _ h hs => h.complete_step hs)
      fuel (initialState (initStart a b)) (InvComplete.complete_initial w a b ha)
      (by simpa [initialState] using hfuel)
  rcases searchStep_returned hret with ⟨_, hopen, _⟩ | ⟨c, rfl, _, _, hidx, _⟩
  · exact absurd (hinv.closed_of_connected hopen hconn) hinv.2.2.2
  · obtain ⟨ts, _, _, hfind⟩ := findNode_found_of_tiles hs he ha htiles hloop
    exact ⟨_, c, hfind, rfl, rfl, hidx⟩

theorem C3_reachable_is_found_witness :
    3 * 3 ≤ (mkWorld 3 [4] 0 8).tiles.length ∧ Connected (mkWorld 3 [4] 0 8) 0 8 ∧
    ∃ r n, findNode 10 (mkWorld 3 [4] 0 8) = some r ∧ r.ret = Returned.node n ∧
      r.alerted = false ∧ n.index = 8 :=
  have h01 : Move (mkWorld 3 [4] 0 8) 0 1 := by decide
  have h12 : Move (mkWorld 3 [4] 0 8) 1 2 := by decide
  have h25 : Move (mkWorld 3 [4] 0 8) 2 5 := by decide
  have h58 : Move (mkWorld 3 [4] 0 8) 5 8 := by decide
  have hconn : Connected (mkWorld 3 [4] 0 8) 0 8 :=
    (((Relation.ReflTransGen.single h01).tail h12).tail h25).tail h58
  ⟨by decide, hconn,
    C3_reachable_is_found (mkWorld 3 [4] 0 8) (Node.new 3 0) (Node.new 3 8) 10 rfl rfl
      (Node.WF_new 3 0 (by decide)) (by decide) hconn (by decide)⟩

/-- C2: on a grid that holds a tile for every in-bounds index and has no
obstructed cell, for every start and end cell `findNode` returns, within
`size * size + 1` iterations, the end node with `gCost` equal to the Manhattan distance `|start.x - end.x| + |start.y - end.y|`,
and the `parent` chain of the returned node has exactly that many links and
ends in the start node. -/
theorem C2_free_grid_manhattan (w : World) (a b : Node) (fuel : Nat)
    (hs : w.start = some a) (he : w.end_ = some b) (ha : a.WF w.size) (hb : b.WF w.size)
    (hpar : a.parent = none) (htiles : w.size * w.size ≤ w.tiles.length)
    (hfree : ∀ i, isObstructed (w.element i) = false) (hfuel : w.size * w.size < fuel) :
    ∃ r n, findNode fuel w = some r ∧ r.ret = Returned.node n ∧ n.index = b.index ∧
      n.gCost = some (Int.natAbs ((a.x : Int) - b.x) + Int.natAbs ((a.y : Int) - b.y)) ∧
      n.depth = Int.natAbs ((a.x : Int) - b.x) + Int.natAbs ((a.y : Int) - b.y) ∧
      n.root = initStart a b ∧ n.root.index = a.index := by
  obtain ⟨r, st0, st1, hloop, ⟨k, hinv⟩, hret⟩ :=
    searchLoop_returns w b (fun st => ∃ k, InvFree w a b k st) (fun _ h => h.choose_spec.1)
      (fun _ _ h hs => ⟨_, h.choose_spec.free_step hb hfree hs⟩)
      fuel (initialState (initStart a b)) ⟨0, InvFree.free_initial w a b ha hpar⟩
      (by simpa [initialState] using hfuel)
  obtain ⟨hbase, ⟨c0, hc0, hg0, hk0⟩, hent, _⟩ := hinv
  rcases searchStep_returned hret with ⟨_, hopen, _⟩ | ⟨c, rfl, _, hsel, hidx, _⟩
  · rw [hopen] at hc0; cases hc0
  · have : c0 = c := by rw [hc0] at hsel; exact Option.some.inj hsel
    subst this
    obtain ⟨hmem, hwf, _, _, _⟩ := hbase.selected hsel
    obtain ⟨_, _, hdepth, hroot⟩ := hent _ hmem
    have hz := (md_eq_zero_iff hwf hb).2 hidx
    have hk : k = a.manhattanDistance b := by omega
    subst hk
    have hd : c0.depth = a.manhattanDistance b := by
      rw [hg0] at hdepth; exact (Option.some.inj hdepth).symm
    obtain ⟨ts, _, _, hfind⟩ := findNode_found_of_tiles hs he ha htiles hloop
    refine ⟨_, c0, hfind, rfl, hidx, hg0, hd, hroot, ?_⟩
    rw [show c0.root = initStart a b from hroot]
    rfl


theorem C2_free_grid_manhattan_witness :
    3 * 3 ≤ (mkWorld 3 [] 0 8).tiles.length ∧
    (∀ i, isObstructed ((mkWorld 3 [] 0 8).element i) = false) ∧
    ∃ r n, findNode 10 (mkWorld 3 [] 0 8) = some r ∧ r.ret = Returned.node n ∧ n.index = 8 ∧
      n.gCost = some 4 ∧ n.depth = 4 ∧
      n.root = initStart (Node.new 3 0) (Node.new 3 8) ∧ n.root.index = 0 :=
  ⟨by decide, mkWorld_free 3 0 8,
    C2_free_grid_manhattan (mkWorld 3 [] 0 8) (Node.new 3 0) (Node.new 3 8) 10 rfl rfl
      (Node.WF_new 3 0 (by decide)) (Node.WF_new 3 8 (by decide)) rfl (by decide)
      (mkWorld_free 3 0 8) (by decide)⟩

/-! ## Parent chains -/

theorem Node.chain_cons (n : Node) : ∃ t, n.chain = n.index :: t := by
  cases n with
  | mk i x y g h p =>
    cases p with
    | none => exact ⟨[], rfl⟩
    | some p => exact ⟨p.chain, by simp [Node.chain]⟩

theorem chain_assignCosts (c e m : Node) : (assignCosts c e m).chain = m.index :: c.chain := by
  simp [assignCosts, Node.chain]

theorem Node.chain_of_parent_none {n : Node} (h : n.parent = none) : n.chain = [n.index] := by
  cases n with
  | mk i x y g hc p =>
    simp only at h
    subst h
    simp [Node.chain]

theorem Node.chain_of_parent_some {n p : Node} (h : n.parent = some p) :
    n.chain = n.index :: p.chain := by
  cases n with
  | mk i x y g hc q =>
    simp only at h
    subst h
    simp [Node.chain]

theorem Node.chain_length (n : Node) : n.chain.length = n.depth + 1 := by
  match n with
  | ⟨_, _, _, _, _, none⟩ => simp [Node.chain, Node.depth]
  | ⟨_, _, _, _, _, some p⟩ =>
    have ih := Node.chain_length p
    simp [Node.chain, Node.depth, ih]

theorem Adjacent.symm {N i j : Nat} (h : Adjacent N i j) : Adjacent N j i := by
  obtain ⟨h1, h2, h3⟩ := h
  refine ⟨h2, h1, ?_⟩
  rcases h3 with ⟨e, h | h⟩ | ⟨e, h | h⟩
  · exact Or.inl ⟨e.symm, Or.inr h⟩
  · exact Or.inl ⟨e.symm, Or.inl h⟩
  · exact Or.inr ⟨e.symm, Or.inr h⟩
  · exact Or.inr ⟨e.symm, Or.inl h⟩

/-- The walk of `findPath` from a node whose chain has distinct cells and
ends in the start cell visits the chain without its last cell. -/
theorem Node.walk_eq_dropLast (s : Nat) (n : Node) (hn : n.chain.Nodup)
    (hl : n.chain.getLast? = some s) : n.walk s = n.chain.dropLast := by
  match n with
  | ⟨i, _, _, _, _, none⟩ =>
    simp only [Node.chain, List.getLast?_singleton, Option.some.injEq] at hl
    simp [Node.walk, Node.chain, hl]
  | ⟨i, _, _, _, _, some p⟩ =>
    obtain ⟨t, ht⟩ := Node.chain_cons p
    simp only [Node.chain] at hn hl
    have hl' : p.chain.getLast? = some s := by
      rw [ht] at hl ⊢
      rw [List.getLast?_cons_cons] at hl
      exact hl
    have hn' := (List.nodup_cons.1 hn)
    have hs : s ∈ p.chain := List.mem_of_getLast?_eq_some hl'
    have his : i ≠ s := by
      intro h
      rw [h] at hn'
      exact hn'.1 hs
    have ih := Node.walk_eq_dropLast s p hn'.2 hl'
    simp only [Node.walk, Node.chain, his, ne_eq, not_false_eq_true, if_true, ih]
    rw [ht]
    rfl

theorem ChainOK.chain_mono {w : World} {a n : Node} {closed closed1 : List Nat}
    (h : ChainOK w a closed n) (hcl : ∀ i ∈ closed, i ∈ closed1) : ChainOK w a closed1 n :=
  ⟨h.nodup, fun i hi => hcl i (h.closed_tail i hi), h.last, h.gCost_eq, h.walk, h.inBounds,
    h.free⟩

theorem ChainOK.start (w : World) (a b : Node) (ha : a.WF w.size) (hp : a.parent = none) :
    ChainOK w a [] (initStart a b) := by
  have hch : (initStart a b).chain = [a.index] :=
    Node.chain_of_parent_none (n := initStart a b) hp
  refine ⟨?_, ?_, ?_, ?_, ?_, ?_, ?_⟩
  · rw [hch]; simp
  · rw [hch]; simp
  · rw [hch]; rfl
  · rw [hch]; rfl
  · rw [hch]; trivial
  · rw [hch]
    intro i hi
    rw [List.mem_singleton.1 hi]
    exact ha.2.2
  · rw [hch]
    intro i hi
    cases hi

/-- The chain of a freshly written neighbour of a closed node with a good
chain is good. -/
theorem ChainOK.child {w : World} {a b c m : Node} {closed : List Nat} {d : Int × Int}
    (hc : ChainOK w a closed c) (hwf : c.WF w.size) (hcin : c.index ∈ closed)
    (hd : d ∈ offsets) (hoff : c.offset w.size d.1 d.2 = some m)
    (hfree : isObstructed (w.element m.index) = false) (hncl : m.index ∉ closed) :
    ChainOK w a closed (assignCosts c b m) := by
  obtain ⟨t, ht⟩ := Node.chain_cons c
  have hsub : ∀ i ∈ c.chain, i ∈ closed := by
    intro i hi
    rw [ht] at hi
    rcases List.mem_cons.1 hi with h | h
    · rw [h]; exact hcin
    · apply hc.closed_tail
      rw [ht]; exact h
  have hadj : Adjacent w.size c.index m.index := offset_adjacent hwf hd hoff
  have hmwf := Node.offset_WF hoff
  have hch := chain_assignCosts c b m
  refine ⟨?_, ?_, ?_, ?_, ?_, ?_, ?_⟩
  · rw [hch]
    exact List.nodup_cons.2 ⟨fun h => hncl (hsub _ h), hc.nodup⟩
  · rw [hch]
    exact hsub
  · rw [hch, ht, List.getLast?_cons_cons, ← ht]
    exact hc.last
  · rw [hch]
    have hg := hc.gCost_eq
    have hlen : 0 < c.chain.length := by rw [ht]; simp
    simp only [assignCosts, hg, Option.map_some', List.length_cons]
    congr 1
    omega
  · rw [hch, ht]
    refine ⟨hadj.symm, ?_⟩
    rw [← ht]
    exact hc.walk
  · rw [hch]
    intro i hi
    rcases List.mem_cons.1 hi with h | h
    · rw [h]; exact hmwf.2.2
    · exact hc.inBounds i h
  · rw [hch, ht]
    intro i hi
    have hdl : (m.index :: c.index :: t).dropLast = m.index :: (c.index :: t).dropLast := rfl
    rw [hdl] at hi
    rcases List.mem_cons.1 hi with h | h
    · rw [h]; exact hfree
    · apply hc.free
      rw [ht]; exact h

theorem InvChains.chains_initial (w : World) (a b : Node) (ha : a.WF w.size)
    (hp : a.parent = none) : InvChains w a b (loopStart a b) := by
  refine ⟨InvQueue.queue_initial w a b ha, ?_⟩
  intro n hn
  have : n = initStart a b := by
    simpa [loopStart, initialState] using hn
  rw [this]
  exact ChainOK.start w a b ha hp

theorem InvChains.chains_step {w : World} {a b : Node} {st st1 : SearchState}
    (h : InvChains w a b st) (hs : searchStep w b st = StepResult.expanded st1) :
    InvChains w a b st1 := by
  refine ⟨h.queue.queue_step hs, ?_⟩
  obtain ⟨c, app, _, hc, _, _, hcl, hq, happ, _, _, _⟩ := searchStep_expanded hs
  obtain ⟨_, hwf, _, _, _⟩ := h.queue.base.selected hc
  have hcmem := h.queue.selected_mem hc
  have hclmono : ∀ i ∈ st.closed, i ∈ st1.closed := by
    intro i hi; rw [hcl]; exact (mem_closedAdd _ _ _).2 (Or.inl hi)
  have hcin : c.index ∈ st1.closed := by
    rw [hcl]; exact (mem_closedAdd _ _ _).2 (Or.inr rfl)
  intro n hn
  rw [hq, ← List.cons_append] at hn
  rcases List.mem_append.1 hn with hn | hn
  · exact (h.chains n hn).chain_mono hclmono
  · obtain ⟨d, hd, m, hoff, rfl, hfree, hncl, _⟩ := happ n hn
    rw [← hcl] at hncl
    exact ChainOK.child ((h.chains c hcmem).chain_mono hclmono) hwf hcin hd hoff hfree hncl

theorem InvChains.chains_run {w : World} {a b : Node} (ha : a.WF w.size) (hp : a.parent = none)
    (k : Nat) : InvChains w a b (runSteps w b k (loopStart a b)) :=
  runSteps_invariant w b (InvChains w a b) (fun _ _ h hs => h.chains_step hs) k _
    (InvChains.chains_initial w a b ha hp)

/-! ## The chain of the returned node -/

theorem InvChains.selected_chain {w : World} {a b : Node} {st : SearchState} {c : Node}
    (h : InvChains w a b st) (hc : selectBest st.open_ = some c) :
    ChainOK w a st.closed c :=
  h.chains c (h.queue.selected_mem hc)

theorem ChainOK.gCost_depth {w : World} {a n : Node} {closed : List Nat}
    (h : ChainOK w a closed n) :
    ∃ g, n.gCost = some g ∧ n.chain.length = g + 1 ∧ n.depth = g := by
  have hlen := Node.chain_length n
  refine ⟨n.chain.length - 1, h.gCost_eq, by omega, by omega⟩

theorem not_mem_dropLast_of_nodup {l : List Nat} {s : Nat} (hn : l.Nodup)
    (hl : l.getLast? = some s) : s ∉ l.dropLast := by
  have happ := List.dropLast_append_getLast? s (by rw [hl]; exact rfl : s ∈ l.getLast?)
  rw [← happ] at hn
  intro hmem
  exact (List.disjoint_of_nodup_append hn) hmem (List.mem_singleton_self s)

/-- For a node whose chain has distinct cells and ends in the start cell,
`findPath` marks the chain without its first and last cell. -/
theorem pathMarks_eq (s : Nat) (n : Node) (hn : n.chain.Nodup)
    (hl : n.chain.getLast? = some s) :
    pathMarks s (Returned.node n) = n.chain.tail.dropLast := by
  cases hp : n.parent with
  | none =>
    rw [Node.chain_of_parent_none hp]
    simp [pathMarks, hp]
  | some q =>
    have hch := Node.chain_of_parent_some hp
    obtain ⟨t, ht⟩ := Node.chain_cons q
    rw [hch] at hn hl ⊢
    have hl' : q.chain.getLast? = some s := by
      rw [ht] at hl ⊢
      rw [List.getLast?_cons_cons] at hl
      exact hl
    simp only [pathMarks, hp, List.tail_cons]
    exact Node.walk_eq_dropLast s q (List.nodup_cons.1 hn).2 hl'

/-- C12: when `findNode` returns a node, it is the end node, its `parent`
chain has pairwise distinct cells, starts at the end cell and ends at the
start cell, and `findPath` marks exactly the cells of that chain strictly
between the end and the start, each once, in the order from the end toward
the start; neither the start nor the end cell is marked, and with start and
end distinct the number of marked cells is the chain's number of links
minus one. -/
theorem C12_path_marks (w : World) (a b : Node) (fuel : Nat) (r : FindResult) (n : Node)
    (hs : w.start = some a) (he : w.end_ = some b) (ha : a.WF w.size) (hp : a.parent = none)
    (hfind : findNode fuel w = some r) (hret : r.ret = Returned.node n) :
    ∃ p, findPath fuel w = some p ∧ p.found = r ∧
      p.onPath = n.chain.tail.dropLast ∧ n.chain.Nodup ∧
      n.chain.head? = some b.index ∧ n.chain.getLast? = some a.index ∧
      p.onPath.Nodup ∧ a.index ∉ p.onPath ∧ b.index ∉ p.onPath ∧
      (a.index ≠ b.index → p.onPath.length + 1 = n.depth) ∧
      p.tiles = p.onPath.foldl (fun ts i => ts.set i (Tile.mk Colour.plum)) r.world.tiles := by
  obtain ⟨ro, st1, hloop, _, hnode, hstart⟩ := findNode_some hs he hfind
  have hro := hnode n hret
  subst hro
  obtain ⟨k, hk⟩ := searchLoop_some_runSteps w b fuel _ _ _ hloop
  have hinv := InvChains.chains_run (b := b) ha hp k
  rcases searchStep_returned hk with ⟨h1, _, _⟩ | ⟨c, h1, _, hsel, hidx, _⟩
  · cases h1
  · cases h1
    have hchain := hinv.selected_chain hsel
    obtain ⟨t, ht⟩ := Node.chain_cons n
    have hmarks := pathMarks_eq a.index n hchain.nodup hchain.last
    have hpath : findPath fuel w = some
        { found := r, onPath := pathMarks a.index r.ret,
          tiles := (pathMarks a.index r.ret).foldl
            (fun ts i => ts.set i (Tile.mk Colour.plum)) r.world.tiles } := by
      simp only [findPath, hfind, hstart]
      rfl
    rw [hret, hmarks] at hpath
    have hsub : List.Sublist n.chain.tail.dropLast n.chain :=
      (List.dropLast_sublist _).trans (List.tail_sublist _)
    have hlast' : t = [] ∨ t.getLast? = some a.index := by
      cases t with
      | nil => exact Or.inl rfl
      | cons x t' =>
        right
        have := hchain.last
        rw [ht, List.getLast?_cons_cons] at this
        exact this
    have hnd := hchain.nodup
    rw [ht] at hnd
    have htail : n.chain.tail = t := by rw [ht]; rfl
    refine ⟨_, hpath, rfl, rfl, hchain.nodup, ?_, hchain.last, List.Nodup.sublist hsub hchain.nodup,
      ?_, ?_, ?_, rfl⟩
    · rw [ht, ← hidx]; rfl
    · show a.index ∉ n.chain.tail.dropLast
      rw [htail]
      rcases hlast' with h | h
      · rw [h]; simp
      · exact not_mem_dropLast_of_nodup (List.nodup_cons.1 hnd).2 h
    · show b.index ∉ n.chain.tail.dropLast
      rw [htail, ← hidx]
      intro hmem
      exact (List.nodup_cons.1 hnd).1 (List.dropLast_subset _ hmem)
    · intro hab
      show n.chain.tail.dropLast.length + 1 = n.depth
      have hlen := Node.chain_length n
      rw [htail, List.length_dropLast]
      rw [ht, List.length_cons] at hlen
      have htne : t ≠ [] := by
        intro h
        have := hchain.last
        rw [ht, h] at this
        simp only [List.getLast?_singleton, Option.some.injEq] at this
        exact hab (this.symm.trans hidx)
      have : 0 < t.length := List.length_pos.2 htne
      omega

theorem C12_path_marks_witness :
    detourWorld.start = some (Node.new 5 0) ∧ detourWorld.end_ = some (Node.new 5 9) ∧
    (Node.new 5 0).WF 5 ∧
    (findPath 26 detourWorld).map (fun p => p.onPath) = some [4, 3, 2, 7, 6, 5] ∧
    ∀ r n, findNode 26 detourWorld = some r → r.ret = Returned.node n →
      ∃ p, findPath 26 detourWorld = some p ∧ p.found = r ∧
        p.onPath = n.chain.tail.dropLast ∧ n.chain.Nodup ∧
        n.chain.head? = some (Node.new 5 9).index ∧
        n.chain.getLast? = some (Node.new 5 0).index ∧
        p.onPath.Nodup ∧ (Node.new 5 0).index ∉ p.onPath ∧ (Node.new 5 9).index ∉ p.onPath ∧
        ((Node.new 5 0).index ≠ (Node.new 5 9).index → p.onPath.length + 1 = n.depth) ∧
        p.tiles = p.onPath.foldl (fun ts i => ts.set i (Tile.mk Colour.plum)) r.world.tiles :=
  ⟨rfl, rfl, Node.WF_new 5 0 (by decide), by decide, fun r n hfind hret =>
    C12_path_marks detourWorld (Node.new 5 0) (Node.new 5 9) 26 r n rfl rfl
      (Node.WF_new 5 0 (by decide)) rfl hfind hret⟩

/-- C16: on a grid that holds a tile for every in-bounds index, throughout
the search the start node has `gCost` 0; every other node ever put into `open` (every node of `updateQueue`, which holds all nodes
of `open` but the start) has a parent that is the start node or an earlier
such node, is cardinally adjacent and already closed, has `gCost` equal to
the parent's plus 1, `hCost` equal to its Manhattan distance to the end and a
defined, non-negative `fCost`; and `findNode` returns without throwing, within
`size * size + 1` iterations, and when it returns a node, following `parent`
from it reaches the start cell after exactly `gCost` links through pairwise
adjacent in-bounds cells of which all but the last (the start) are free. -/
theorem C16_costs_and_parent_chain (w : World) (a b : Node) (fuel : Nat)
    (hs : w.start = some a) (he : w.end_ = some b) (ha : a.WF w.size) (hp : a.parent = none)
    (htiles : w.size * w.size ≤ w.tiles.length) (hfuel : w.size * w.size < fuel) :
    (initStart a b).gCost = some 0 ∧
    (∀ k, ∀ n ∈ (stateAt w a b k).updateQueue, ∃ p g f, n.parent = some p ∧
      p.gCost = some g ∧ n.gCost = some (g + 1) ∧
      n.hCost = some (n.manhattanDistance b) ∧ n.getFCost = some f ∧ 0 ≤ f ∧
      Adjacent w.size p.index n.index ∧ p.index ∈ (stateAt w a b k).closed ∧
      (p = initStart a b ∨ p ∈ (stateAt w a b k).updateQueue)) ∧
    (∀ k, ∀ n ∈ (stateAt w a b k).open_.values,
      n = initStart a b ∨ n ∈ (stateAt w a b k).updateQueue) ∧
    ∃ r, findNode fuel w = some r ∧ r.ret ≠ Returned.threw ∧ ∀ n, r.ret = Returned.node n →
      ∃ g, n.gCost = some g ∧ n.chain.length = g + 1 ∧ n.depth = g ∧
        n.chain.getLast? = some a.index ∧ IsGridWalk w.size n.chain ∧
        (∀ i ∈ n.chain, i < w.size * w.size) ∧
        (∀ i ∈ n.chain.dropLast, isObstructed (w.element i) = false) := by
  refine ⟨rfl, ?_, ?_, ?_⟩
  · intro k n hn
    have hd := (InvQueue.queue_run (b := b) ha k).discovered n hn
    obtain ⟨p, g, h1, h2, h3, h4, h5, h6⟩ := hd.parent
    exact ⟨p, g, _, h1, h4, h5, hd.hCost, getFCost_of_costs h5 hd.hCost, Nat.zero_le _, h3, h2,
      h6⟩
  · intro k n hn
    exact List.mem_cons.1 ((InvQueue.queue_run (b := b) ha k).sublist.subset hn)
  · obtain ⟨r, st0, st1, hloop, hinv, hret⟩ :=
      searchLoop_returns w b (InvChains w a b) (fun _ h => h.queue.base)
        (fun _ _ h hs => h.chains_step hs) fuel (loopStart a b)
        (InvChains.chains_initial w a b ha hp) (by simpa [loopStart, initialState] using hfuel)
    rcases searchStep_returned hret with ⟨rfl, _, _⟩ | ⟨c, rfl, _, hsel, _, _⟩
    · refine ⟨_, findNode_of_null hs he hloop, (fun h => by cases h), ?_⟩
      intro n hn
      cases hn
    · obtain ⟨ts, _, _, hfind⟩ := findNode_found_of_tiles hs he ha htiles hloop
      refine ⟨_, hfind, (fun h => by cases h), ?_⟩
      intro n hn
      cases hn
      have hchain := hinv.selected_chain hsel
      obtain ⟨g, h1, h2, h3⟩ := hchain.gCost_depth
      exact ⟨g, h1, h2, h3, hchain.last, hchain.walk, hchain.inBounds, hchain.free⟩

theorem C16_costs_and_parent_chain_witness :
    detourWorld.start = some (Node.new 5 0) ∧ detourWorld.end_ = some (Node.new 5 9) ∧
    (Node.new 5 0).WF 5 ∧ detourWorld.size * detourWorld.size ≤ detourWorld.tiles.length ∧
    detourWorld.size * detourWorld.size < 26 ∧
    ∃ r, findNode 26 detourWorld = some r ∧ r.ret ≠ Returned.threw ∧
      ∀ n, r.ret = Returned.node n →
      ∃ g, n.gCost = some g ∧ n.chain.length = g + 1 ∧ n.depth = g ∧
        n.chain.getLast? = some (Node.new 5 0).index ∧ IsGridWalk detourWorld.size n.chain ∧
        (∀ i ∈ n.chain, i < detourWorld.size * detourWorld.size) ∧
        (∀ i ∈ n.chain.dropLast, isObstructed (detourWorld.element i) = false) :=
  ⟨rfl, rfl, Node.WF_new 5 0 (by decide), by decide, by decide,
    (C16_costs_and_parent_chain detourWorld (Node.new 5 0) (Node.new 5 9) 26 rfl rfl
      (Node.WF_new 5 0 (by decide)) rfl (by decide) (by decide)).2.2.2⟩

/-! ## A second run -/

theorem isObstructed_set {ts : List Tile} {i : Nat} {t : Tile}
    (ht : t.backgroundColor ≠ Colour.black) (hi : isObstructed ts[i]? = false) (j : Nat) :
    isObstructed (ts.set i t)[j]? = isObstructed ts[j]? := by
  rw [List.getElem?_set]
  by_cases hij : i = j
  · subst hij
    rw [if_pos rfl, hi]
    by_cases hlt : i < ts.length
    · rw [if_pos hlt]
      simp [isObstructed, ht]
    · rw [if_neg hlt]
      rfl
  · rw [if_neg hij]

/-- Colouring free cells `plum` leaves the obstruction pattern as it was. -/
theorem foldl_plum_obstructed (ts0 : List Tile) (marks : List Nat)
    (hfree : ∀ i ∈ marks, isObstructed ts0[i]? = false) :
    ∀ (ts : List Tile), (∀ j : Nat, isObstructed ts[j]? = isObstructed ts0[j]?) →
      ∀ j : Nat, isObstructed
        (marks.foldl (fun ts i => ts.set i (Tile.mk Colour.plum)) ts)[j]? =
          isObstructed ts0[j]? := by
  induction marks with
  | nil => intro ts h j; exact h j
  | cons i marks ih =>
    intro ts h j
    rw [List.foldl_cons]
    apply ih (fun k hk => hfree k (List.mem_cons_of_mem _ hk))
    intro k
    rw [isObstructed_set (by decide) (by rw [h]; exact hfree i (List.mem_cons_self _ _)), h]

/-- The recolouring of `updateNodes`, when it does not throw, leaves the
obstruction pattern as it was when all listed nodes are free cells. -/
theorem updateNodes_obstructed (s e : Nat) (ts0 : List Tile) (nodes : List Node)
    (hfree : ∀ n ∈ nodes, isObstructed ts0[n.index]? = false) :
    ∀ (ts ts1 : List Tile), (∀ j : Nat, isObstructed ts[j]? = isObstructed ts0[j]?) →
      updateNodes s e ts nodes = Except.ok ts1 →
      ∀ j : Nat, isObstructed ts1[j]? = isObstructed ts0[j]? := by
  induction nodes with
  | nil =>
    intro ts ts1 h hu j
    simp only [updateNodes, Except.ok.injEq] at hu
    rw [← hu]
    exact h j
  | cons n nodes ih =>
    intro ts ts1 h hu
    rw [updateNodes] at hu
    by_cases hc : n.index ≠ s ∧ n.index ≠ e
    · rw [if_pos hc] at hu
      cases hget : ts[n.index]? with
      | none => rw [hget] at hu; cases hu
      | some t =>
        rw [hget] at hu
        apply ih (fun m hm => hfree m (List.mem_cons_of_mem _ hm)) _ _ _ hu
        intro k
        rw [isObstructed_set (by decide)
          (by rw [h]; exact hfree n (List.mem_cons_self _ _)), h]
    · rw [if_neg hc] at hu
      exact ih (fun m hm => hfree m (List.mem_cons_of_mem _ hm)) _ _ h hu

theorem foldl_plum_length (marks : List Nat) :
    ∀ ts : List Tile,
      (marks.foldl (fun ts i => ts.set i (Tile.mk Colour.plum)) ts).length = ts.length := by
  induction marks with
  | nil => intro ts; rfl
  | cons i marks ih =>
    intro ts
    rw [List.foldl_cons, ih, List.length_set]

theorem visitNeighbor_congr {w w1 : World} (hsize : w1.size = w.size)
    (hobs : ∀ i, isObstructed (w1.element i) = isObstructed (w.element i))
    (e : Node) (closed : List Nat) (c : Node) (acc : OpenMap × List Node) (d : Int × Int) :
    visitNeighbor w1 e closed c acc d = visitNeighbor w e closed c acc d := by
  unfold visitNeighbor
  rw [hsize]
  cases c.offset w.size d.1 d.2 with
  | none => rfl
  | some m => simp only [hobs]

theorem searchStep_congr {w w1 : World} (hsize : w1.size = w.size)
    (hobs : ∀ i, isObstructed (w1.element i) = isObstructed (w.element i))
    (e : Node) (st : SearchState) : searchStep w1 e st = searchStep w e st := by
  have hv : ∀ closed c, visitNeighbor w1 e closed c = visitNeighbor w e closed c := by
    intro closed c
    funext acc d
    exact visitNeighbor_congr hsize hobs e closed c acc d
  unfold searchStep expand
  simp only [hv]

theorem searchLoop_congr {w w1 : World} (hsize : w1.size = w.size)
    (hobs : ∀ i, isObstructed (w1.element i) = isObstructed (w.element i))
    (e : Node) (fuel : Nat) (st : SearchState) :
    searchLoop w1 e fuel st = searchLoop w e fuel st := by
  induction fuel generalizing st with
  | zero => rfl
  | succ fuel ih =>
    unfold searchLoop
    rw [searchStep_congr hsize hobs]
    cases searchStep w e st with
    | returned r st1 => rfl
    | expanded st1 => exact ih st1
    | threw => rfl

theorem runSteps_congr {w w1 : World} (hsize : w1.size = w.size)
    (hobs : ∀ i, isObstructed (w1.element i) = isObstructed (w.element i))
    (e : Node) (k : Nat) (st : SearchState) :
    runSteps w1 e k st = runSteps w e k st := by
  induction k generalizing st with
  | zero => rfl
  | succ k ih =>
    unfold runSteps
    rw [searchStep_congr hsize hobs]
    cases searchStep w e st with
    | returned r st1 => rfl
    | expanded st1 => exact ih st1
    | threw => rfl

theorem mem_dropLast_cons {i : Nat} {t : List Nat} (x : Nat) (h : i ∈ t.dropLast) :
    i ∈ (x :: t).dropLast := by
  cases t with
  | nil => cases h
  | cons y t => exact List.mem_cons_of_mem _ h

theorem initStart_idem (a b : Node) : initStart (initStart a b) b = initStart a b := rfl

theorem findPath_of_found {w : World} {a b c : Node} {fuel : Nat} {st : SearchState}
    {ts : List Tile} (hs : w.start = some a) (he : w.end_ = some b)
    (h : searchLoop w b fuel (initialState (initStart a b)) = some (some c, st))
    (hu : updateNodes a.index b.index w.tiles st.updateQueue = Except.ok ts) :
    ∃ p, findPath fuel w = some p ∧ p.found.ret = Returned.node c ∧
      p.found.search = some st ∧ p.onPath = pathMarks a.index (Returned.node c) ∧
      p.tiles = (pathMarks a.index (Returned.node c)).foldl
        (fun ts i => ts.set i (Tile.mk Colour.plum)) ts ∧
      p.found.world.start = some (initStart a b) ∧ p.found.world.end_ = some b ∧
      p.found.world.size = w.size := by
  have hfind := findNode_of_found hs he h hu
  refine ⟨_, by simp only [findPath, hfind]; rfl, rfl, rfl, rfl, rfl, rfl, he, rfl⟩

theorem findPath_of_null {w : World} {a b : Node} {fuel : Nat} {st : SearchState}
    (hs : w.start = some a) (he : w.end_ = some b)
    (h : searchLoop w b fuel (initialState (initStart a b)) = some (none, st)) :
    ∃ p, findPath fuel w = some p ∧ p.found.ret = Returned.null ∧
      p.found.search = some st ∧ p.onPath = [] ∧ p.tiles = w.tiles ∧
      p.found.world.start = some (initStart a b) ∧ p.found.world.end_ = some b ∧
      p.found.world.size = w.size := by
  have hfind := findNode_of_null hs he h
  refine ⟨_, by simp only [findPath, hfind]; rfl, rfl, rfl, rfl, rfl, rfl, he, rfl⟩

/-- C15: on a grid that holds a tile for every in-bounds index, running
`findPath` a second time from the globals the first run left behind (tiles
recoloured, `start.gCost` and `start.hCost` written) finishes like the first,
neither run throwing: no tile changed between obstructed and free, every
state of the loop, hence every selection among equal `fCost`, is the same,
and the returned node, the discovery queue and the marked path are
identical. -/
theorem C15_second_run_identical (w : World) (a b : Node) (fuel : Nat)
    (hs : w.start = some a) (he : w.end_ = some b) (ha : a.WF w.size) (hp : a.parent = none)
    (htiles : w.size * w.size ≤ w.tiles.length) (hfuel : w.size * w.size < fuel) :
    ∃ p1 p2, findPath fuel w = some p1 ∧ findPath fuel (worldAfter p1) = some p2 ∧
      p1.found.ret ≠ Returned.threw ∧
      (worldAfter p1).start = some (initStart a b) ∧ (worldAfter p1).end_ = some b ∧
      (∀ i, isObstructed ((worldAfter p1).element i) = isObstructed (w.element i)) ∧
      (∀ k, stateAt (worldAfter p1) (initStart a b) b k = stateAt w a b k) ∧
      p2.found.ret = p1.found.ret ∧ p2.found.search = p1.found.search ∧
      p2.onPath = p1.onPath := by
  obtain ⟨r, st0, st1, hloop, hinv, hret⟩ :=
    searchLoop_returns w b (InvChains w a b) (fun _ h => h.queue.base)
      (fun _ _ h hs => h.chains_step hs) fuel (loopStart a b)
      (InvChains.chains_initial w a b ha hp) (by simpa [loopStart, initialState] using hfuel)
  have hloop' : searchLoop w b fuel (initialState (initStart a b)) = some (r, st1) := hloop
  -- the second run sees the same loop
  have second : ∀ p1 : PathResult, p1.found.world.start = some (initStart a b) →
      p1.found.world.end_ = some b → p1.found.world.size = w.size →
      (∀ i : Nat, isObstructed p1.tiles[i]? = isObstructed w.tiles[i]?) →
      (worldAfter p1).start = some (initStart a b) ∧ (worldAfter p1).end_ = some b ∧
      (∀ i, isObstructed ((worldAfter p1).element i) = isObstructed (w.element i)) ∧
      (∀ k, stateAt (worldAfter p1) (initStart a b) b k = stateAt w a b k) ∧
      searchLoop (worldAfter p1) b fuel (initialState (initStart (initStart a b) b)) =
        some (r, st1) := by
    intro p1 h1 h2 h3 h4
    have hobs : ∀ i, isObstructed ((worldAfter p1).element i) = isObstructed (w.element i) := h4
    have hsize : (worldAfter p1).size = w.size := h3
    refine ⟨h1, h2, hobs, ?_, ?_⟩
    · intro k
      exact runSteps_congr hsize hobs b k _
    · rw [initStart_idem, searchLoop_congr hsize hobs]
      exact hloop'
  rcases searchStep_returned hret with ⟨rfl, _, _⟩ | ⟨c, rfl, _, hsel, _, hq⟩
  · obtain ⟨p1, e1, e2, e3, e4, e5, e6, e7, e8⟩ := findPath_of_null hs he hloop'
    obtain ⟨g1, g2, g3, g4, g5⟩ := second p1 e6 e7 e8 (by intro i; rw [e5])
    obtain ⟨p2, f1, f2, f3, f4, _⟩ := findPath_of_null g1 g2 g5
    exact ⟨p1, p2, e1, f1, (by rw [e2]; exact fun h => by cases h), g1, g2, g3, g4,
      by rw [f2, e2], by rw [f3, e3], by rw [f4, e4]⟩
  · obtain ⟨ts, hu, hlen, _⟩ := findNode_found_of_tiles hs he ha htiles hloop
    obtain ⟨p1, e1, e2, e3, e4, e5, e6, e7, e8⟩ := findPath_of_found hs he hloop' hu
    have hchain := hinv.selected_chain hsel
    have hmarks := pathMarks_eq a.index c hchain.nodup hchain.last
    have hqfacts := loop_queue_facts ha hloop
    have hqfree : ∀ n ∈ st1.updateQueue, isObstructed w.tiles[n.index]? = false :=
      fun n hn => (hqfacts n hn).2
    have hts : ∀ j : Nat, isObstructed ts[j]? = isObstructed w.tiles[j]? :=
      updateNodes_obstructed a.index b.index w.tiles st1.updateQueue hqfree w.tiles ts
        (fun _ => rfl) hu
    have hmfree : ∀ i ∈ pathMarks a.index (Returned.node c), isObstructed ts[i]? = false := by
      intro i hi
      rw [hts]
      rw [hmarks] at hi
      obtain ⟨t, ht⟩ := Node.chain_cons c
      rw [ht] at hi
      apply hchain.free
      rw [ht]
      exact mem_dropLast_cons _ hi
    have hobs1 : ∀ i : Nat, isObstructed p1.tiles[i]? = isObstructed w.tiles[i]? := by
      intro i
      rw [e5, foldl_plum_obstructed _ _ hmfree _ (fun _ => rfl)]
      exact hts i
    obtain ⟨g1, g2, g3, g4, g5⟩ := second p1 e6 e7 e8 hobs1
    have hlen1 : (worldAfter p1).tiles.length = w.tiles.length := by
      show p1.tiles.length = _
      rw [e5, foldl_plum_length, hlen]
    obtain ⟨ts2, hu2, _⟩ := updateNodes_ok_of_lt (initStart a b).index b.index st1.updateQueue
      (worldAfter p1).tiles
      (fun n hn => by rw [hlen1]; exact Nat.lt_of_lt_of_le (hqfacts n hn).1 htiles)
    obtain ⟨p2, f1, f2, f3, f4, _⟩ := findPath_of_found g1 g2 g5 hu2
    exact ⟨p1, p2, e1, f1, (by rw [e2]; exact fun h => by cases h), g1, g2, g3, g4,
      by rw [f2, e2], by rw [f3, e3], by rw [f4, e4]; rfl⟩

theorem C15_second_run_identical_witness :
    detourWorld.start = some (Node.new 5 0) ∧ detourWorld.end_ = some (Node.new 5 9) ∧
    (Node.new 5 0).WF 5 ∧ detourWorld.size * detourWorld.size ≤ detourWorld.tiles.length ∧
    detourWorld.size * detourWorld.size < 26 ∧
    ∃ p1 p2, findPath 26 detourWorld = some p1 ∧ findPath 26 (worldAfter p1) = some p2 ∧
      p1.found.ret ≠ Returned.threw ∧
      (worldAfter p1).start = some (initStart (Node.new 5 0) (Node.new 5 9)) ∧
      (worldAfter p1).end_ = some (Node.new 5 9) ∧
      (∀ i, isObstructed ((worldAfter p1).element i) = isObstructed (detourWorld.element i)) ∧
      (∀ k, stateAt (worldAfter p1) (initStart (Node.new 5 0) (Node.new 5 9)) (Node.new 5 9) k =
        stateAt detourWorld (Node.new 5 0) (Node.new 5 9) k) ∧
      p2.found.ret = p1.found.ret ∧ p2.found.search = p1.found.search ∧
      p2.onPath = p1.onPath :=
  ⟨rfl, rfl, Node.WF_new 5 0 (by decide), by decide, by decide,
    C15_second_run_identical detourWorld (Node.new 5 0) (Node.new 5 9) 26 rfl rfl
      (Node.WF_new 5 0 (by decide)) rfl (by decide) (by decide)⟩
/-! ## Missing tiles -/

/-- When `updateNodes` does not throw, the grid keeps its length and holds a
tile for every listed node other than start and end. -/
theorem updateNodes_ok_written (s e : Nat) (nodes : List Node) :
    ∀ tiles ts : List Tile, updateNodes s e tiles nodes = Except.ok ts →
      ts.length = tiles.length ∧
      ∀ n ∈ nodes, n.index ≠ s → n.index ≠ e → n.index < tiles.length := by
  induction nodes with
  | nil =>
    intro tiles ts h
    simp only [updateNodes, Except.ok.injEq] at h
    exact ⟨by rw [h], fun n hn => by cases hn⟩
  | cons m rest ih =>
    intro tiles ts h
    rw [updateNodes] at h
    by_cases hc : m.index ≠ s ∧ m.index ≠ e
    · rw [if_pos hc] at h
      cases hget : tiles[m.index]? with
      | none => rw [hget] at h; cases h
      | some t =>
        rw [hget] at h
        obtain ⟨h1, h2⟩ := ih _ _ h
        rw [List.length_set] at h1 h2
        refine ⟨h1, ?_⟩
        intro n hn hns hne
        rcases List.mem_cons.1 hn with rfl | hn
        · by_contra hlt
          rw [List.getElem?_eq_none (Nat.le_of_not_lt hlt)] at hget
          cases hget
        · exact h2 n hn hns hne
    · rw [if_neg hc] at h
      obtain ⟨h1, h2⟩ := ih _ _ h
      refine ⟨h1, ?_⟩
      intro n hn hns hne
      rcases List.mem_cons.1 hn with rfl | hn
      · exact absurd ⟨hns, hne⟩ hc
      · exact h2 n hn hns hne

/-- When `findNode` returned a node, the loop returned it and `updateNodes`
did not throw. -/
theorem findNode_node {w : World} {a b c : Node} {fuel : Nat} {r : FindResult}
    (hs : w.start = some a) (he : w.end_ = some b) (h : findNode fuel w = some r)
    (hc : r.ret = Returned.node c) :
    ∃ st, searchLoop w b fuel (loopStart a b) = some (some c, st) ∧
      updateNodes a.index b.index w.tiles st.updateQueue = Except.ok r.world.tiles ∧
      r.world.start = some (initStart a b) := by
  cases hloop : searchLoop w b fuel (loopStart a b) with
  | none =>
    have hloop1 : searchLoop w b fuel (initialState (initStart a b)) = none := hloop
    simp [findNode, hs, he, hloop1] at h
  | some res =>
    obtain ⟨ro, st1⟩ := res
    have hloop1 : searchLoop w b fuel (initialState (initStart a b)) = some (ro, st1) := hloop
    cases ro with
    | none =>
      rw [findNode_of_null hs he hloop] at h
      cases h
      cases hc
    | some c1 =>
      cases hu : updateNodes (initStart a b).index b.index w.tiles st1.updateQueue with
      | ok ts =>
        rw [findNode_of_found hs he hloop hu] at h
        cases h
        cases hc
        exact ⟨st1, rfl, hu, rfl⟩
      | error ts =>
        simp only [findNode, hs, he, hloop1, hu] at h
        cases h
        cases hc

theorem ne_getLast_of_mem_dropLast {i s : Nat} :
    ∀ {l : List Nat}, l.Nodup → l.getLast? = some s → i ∈ l.dropLast → i ≠ s
  | [], _, _, h => by cases h
  | [_], _, _, h => by cases h
  | x :: y :: t, hn, hl, h => by
    have hl1 : (y :: t).getLast? = some s := by
      rw [List.getLast?_cons_cons] at hl; exact hl
    rw [List.dropLast_cons₂] at h
    rcases List.mem_cons.1 h with rfl | h
    · intro hx
      subst hx
      exact (List.nodup_cons.1 hn).1 (List.mem_of_getLast?_eq_some hl1)
    · exact ne_getLast_of_mem_dropLast (List.nodup_cons.1 hn).2 hl1 h

/-- The tiles `findPath` colours `plum` exist whenever `findNode` returned a
node, also on a grid with missing tiles: each is the cell of a queued node
other than start and end, whose tile `updateNodes` wrote before without
throwing.  So the walk of `findPath` never meets a missing tile. -/
theorem findPath_marks_have_tiles {w : World} {a b c : Node} {fuel : Nat} {p : PathResult}
    (hs : w.start = some a) (he : w.end_ = some b) (ha : a.WF w.size) (hp : a.parent = none)
    (h : findPath fuel w = some p) (hc : p.found.ret = Returned.node c) :
    ∀ i ∈ p.onPath, i < p.found.world.tiles.length := by
  cases hfind : findNode fuel w with
  | none => simp [findPath, hfind] at h
  | some r =>
    simp only [findPath, hfind, Option.some.injEq] at h
    subst h
    have hc1 : r.ret = Returned.node c := hc
    obtain ⟨st, hloop, hu, hstart⟩ := findNode_node hs he hfind hc1
    obtain ⟨hlen, hwritten⟩ := updateNodes_ok_written _ _ _ _ _ hu
    obtain ⟨k, hk⟩ := searchLoop_some_runSteps w b fuel _ _ _ hloop
    have hinv := InvChains.chains_run (b := b) ha hp k
    rcases searchStep_returned hk with ⟨h0, _, _⟩ | ⟨c1, h0, _, hsel, hidx, hq⟩
    · cases h0
    · cases h0
      have hchain := hinv.selected_chain hsel
      have hmarks := pathMarks_eq a.index c hchain.nodup hchain.last
      intro i hi
      have hi1 : i ∈ pathMarks a.index (Returned.node c) := by
        simpa [hstart, hc1, initStart] using hi
      rw [hmarks] at hi1
      obtain ⟨t, ht⟩ := Node.chain_cons c
      have hnd := hchain.nodup
      rw [ht] at hnd
      rw [ht, List.tail_cons] at hi1
      have hit : i ∈ t := List.mem_of_mem_dropLast hi1
      have hic : i ≠ c.index := fun hx => (List.nodup_cons.1 hnd).1 (hx ▸ hit)
      have his : i ≠ a.index := by
        apply ne_getLast_of_mem_dropLast hchain.nodup hchain.last
        rw [ht]
        exact mem_dropLast_cons _ hi1
      have hcl : i ∈ (runSteps w b k (loopStart a b)).closed :=
        hchain.closed_tail i (by rw [ht]; exact hit)
      have hseen := (hinv.queue.seen i).2 (Or.inl hcl)
      rcases List.mem_cons.1 hseen with hx | hx
      · exact absurd hx his
      · obtain ⟨n, hn, rfl⟩ := List.mem_map.1 hx
        rw [← hq] at hn
        show n.index < r.world.tiles.length
        rw [hlen]
        exact hwritten n hn his (by rw [← hidx]; exact hic)

/-- On `shortGridWorld`, where cells 4 to 8 have no tile, the loop reaches the
end cell and `updateNodes` then throws at the first queued cell without a
tile, after colouring the queued cells before it. -/
theorem findNode_shortGrid_throws :
    ∃ r, findNode 10 shortGridWorld = some r ∧ r.ret = Returned.threw ∧
      r.world.tiles.map (fun t => t.backgroundColor) =
        [Colour.white, Colour.lightblue, Colour.white, Colour.lightblue] :=
  ⟨_, rfl, rfl, by decide⟩

end Pathfinder
